import Mathlib

/-!
# CASM `SupercellEnumerator.hh`: the symmetry-unique 3x3 HNF iterator

A shallow embedding of `SupercellIterator` / `SupercellEnumerator`
(`include/casm/crystallography/SupercellEnumerator.hh`).

Modelling conventions.

* The C++ `int` is modelled by `Int`.  Signed overflow is undefined behaviour in C++ and is
  outside the model; the one place where a conversion between integer types changes a value
  (the `size_type` getters `begin_volume()` / `end_volume()` of the `int` members) is modelled
  with an explicit reduction modulo `2 ^ 64`.
* C++ `/` and `%` on `int` truncate towards zero: `Int.tdiv` and `Int.tmod`.
* `Eigen::Matrix3i` is a record of nine integers, `aij` being the coefficient `(i, j)`.
* The floating point expression `iround(U.inverse() * op * U)` is not evaluated: the enumerator
  carries, for every point group operation, the integer matrix that expression yields.
* `hermite_normal_form` lives in another translation unit; it is a parameter of the
  functions that call it.  It returns the pair `(H, V)`, of which the iterator uses `H`.
* Loops whose trip count is not bounded syntactically take a fuel argument.
-/

namespace CASM

/-- Coefficients of an `Eigen::Matrix3i`; `aij` is the entry in row `i`, column `j`. -/
structure Matrix3i where
  a00 : Int
  a01 : Int
  a02 : Int
  a10 : Int
  a11 : Int
  a12 : Int
  a20 : Int
  a21 : Int
  a22 : Int
deriving DecidableEq, Repr

namespace Matrix3i

/-- The value of `Eigen::Matrix3i::Identity()`. -/
def Identity : Matrix3i :=
  { a00 := 1, a01 := 0, a02 := 0, a10 := 0, a11 := 1, a12 := 0, a20 := 0, a21 := 0, a22 := 1 }

/-- Matrix product, `A * B` of Eigen. -/
def mul (A B : Matrix3i) : Matrix3i :=
  { a00 := A.a00 * B.a00 + A.a01 * B.a10 + A.a02 * B.a20
    a01 := A.a00 * B.a01 + A.a01 * B.a11 + A.a02 * B.a21
    a02 := A.a00 * B.a02 + A.a01 * B.a12 + A.a02 * B.a22
    a10 := A.a10 * B.a00 + A.a11 * B.a10 + A.a12 * B.a20
    a11 := A.a10 * B.a01 + A.a11 * B.a11 + A.a12 * B.a21
    a12 := A.a10 * B.a02 + A.a11 * B.a12 + A.a12 * B.a22
    a20 := A.a20 * B.a00 + A.a21 * B.a10 + A.a22 * B.a20
    a21 := A.a20 * B.a01 + A.a21 * B.a11 + A.a22 * B.a21
    a22 := A.a20 * B.a02 + A.a21 * B.a12 + A.a22 * B.a22 }

/-- Coefficient-wise difference, `A - B` of Eigen. -/
def sub (A B : Matrix3i) : Matrix3i :=
  { a00 := A.a00 - B.a00, a01 := A.a01 - B.a01, a02 := A.a02 - B.a02
    a10 := A.a10 - B.a10, a11 := A.a11 - B.a11, a12 := A.a12 - B.a12
    a20 := A.a20 - B.a20, a21 := A.a21 - B.a21, a22 := A.a22 - B.a22 }

/-- The test `isZero()` of Eigen on an integer matrix: every coefficient is zero. -/
def isZero (A : Matrix3i) : Bool :=
  A.a00 == 0 && A.a01 == 0 && A.a02 == 0 && A.a10 == 0 && A.a11 == 0 && A.a12 == 0
    && A.a20 == 0 && A.a21 == 0 && A.a22 == 0

/-- Determinant of a 3x3 integer matrix. -/
def det (A : Matrix3i) : Int :=
  A.a00 * (A.a11 * A.a22 - A.a12 * A.a21) - A.a01 * (A.a10 * A.a22 - A.a12 * A.a20)
    + A.a02 * (A.a10 * A.a21 - A.a11 * A.a20)

end Matrix3i

/-- The members of `SupercellEnumerator<UnitType>`.  `addr` is the address of the object (what a
`const SupercellEnumerator*` compares), `point_group` holds for each operation `op` of
`m_point_group` the integer matrix `iround(U.inverse() * op * U)` with `U` the column matrix of
`m_lat`. -/
structure SupercellEnumerator (UnitType : Type) where
  addr : Nat
  m_unit : UnitType
  point_group : List Matrix3i
  m_begin_volume : Int
  m_end_volume : Int

/-- The getter `begin_volume()`: the `int` member converted to `size_type` (unsigned 64 bit). -/
def SupercellEnumerator.begin_volume {UnitType : Type} (e : SupercellEnumerator UnitType) : Nat :=
  (e.m_begin_volume % 2 ^ 64).toNat

/-- The getter `end_volume()`: the `int` member converted to `size_type` (unsigned 64 bit). -/
def SupercellEnumerator.end_volume {UnitType : Type} (e : SupercellEnumerator UnitType) : Nat :=
  (e.m_end_volume % 2 ^ 64).toNat

/-- The members of `SupercellIterator<UnitType>`; `m_enum` is the pointee together with its
address. -/
structure SupercellIterator (UnitType : Type) where
  m_super_updated : Bool
  m_enum : SupercellEnumerator UnitType
  m_vol : Int
  m_current : Matrix3i
  m_super : UnitType

/-- What a call that may throw produces. -/
inductive Error where
  | runtime_error : Error
deriving DecidableEq, Repr

section Iterator

variable {UnitType : Type}

/-- The first `do ... while` of `_try_increment`:
`do { m_current(1,1)++; } while((m_vol / m_current(0,0) % m_current(1,1) != 0) && (m_current(1,1) <= m_vol));`
The argument is the value of `m_current(1,1)` on entry of the body, the result its value on exit
of the loop.  With no fuel left the body runs once more and the loop is left. -/
def increment_11 (m_vol a00 : Int) : Nat → Int → Int
  | 0, a11 => a11 + 1
  | fuel + 1, a11 =>
    if Int.tmod (Int.tdiv m_vol a00) (a11 + 1) ≠ 0 ∧ a11 + 1 ≤ m_vol then
      increment_11 m_vol a00 fuel (a11 + 1)
    else a11 + 1

/-- The second `do ... while` of `_try_increment`:
`do { m_current(0,0)++; } while((m_vol % m_current(0,0) != 0) && (m_current(0,0) <= m_vol));` -/
def increment_00 (m_vol : Int) : Nat → Int → Int
  | 0, a00 => a00 + 1
  | fuel + 1, a00 =>
    if Int.tmod m_vol (a00 + 1) ≠ 0 ∧ a00 + 1 ≤ m_vol then
      increment_00 m_vol fuel (a00 + 1)
    else a00 + 1

/-- The raw step `SupercellIterator::_try_increment`.  Each loop gets the fuel `m_vol - a`, the
largest number of times its condition can hold. -/
def _try_increment (it : SupercellIterator UnitType) : SupercellIterator UnitType :=
  let M := it.m_current
  -- try to increment m_current(1,2)
  if M.a12 < M.a11 - 1 then
    { it with m_current := { M with a12 := M.a12 + 1 } }
  else
    let M := { M with a12 := 0 }
    -- try to increment m_current(0,2)
    if M.a02 < M.a00 - 1 then
      { it with m_current := { M with a02 := M.a02 + 1 } }
    else
      let M := { M with a02 := 0 }
      -- try to increment m_current(0,1)
      if M.a01 < M.a00 - 1 then
        { it with m_current := { M with a01 := M.a01 + 1 } }
      else
        let M := { M with a01 := 0 }
        -- try to increment m_current(1,1)
        let M := { M with a11 := increment_11 it.m_vol M.a00 (it.m_vol - M.a11).toNat M.a11 }
        if M.a11 ≤ it.m_vol then
          { it with m_current := { M with a22 := Int.tdiv it.m_vol (M.a00 * M.a11) } }
        else
          let M := { M with a11 := 1 }
          -- try to increment m_current(0,0)
          let M := { M with a00 := increment_00 it.m_vol (it.m_vol - M.a00).toNat M.a00 }
          if M.a00 ≤ it.m_vol then
            { it with m_current := { M with a22 := Int.tdiv it.m_vol (M.a00 * M.a11) } }
          else
            let M := { M with a00 := 1 }
            -- increment m_vol
            { it with m_vol := it.m_vol + 1, m_current := { M with a22 := it.m_vol + 1 } }

/-- One trip through the body of the `for` loop of `_is_canonical`, after `H` has been computed:
`true` when the body executes `return false`, `false` when it executes `continue` or falls off
its end. -/
def _is_canonical.returns_false (H m_current : Matrix3i) : Bool :=
  if H.a00 > m_current.a00 then true
  else if H.a00 < m_current.a00 then false
  else if H.a11 > m_current.a11 then true
  else if H.a11 < m_current.a11 then false
  else if H.a22 > m_current.a22 then true
  else if H.a22 < m_current.a22 then false
  else if H.a12 > m_current.a12 then true
  else if H.a12 < m_current.a12 then false
  else if H.a02 > m_current.a02 then true
  else if H.a02 < m_current.a02 then false
  else if H.a01 > m_current.a01 then true
  else false

/-- The `for` loop of `_is_canonical` over the remaining point group operations. -/
def _is_canonical.loop (hermite_normal_form : Matrix3i → Matrix3i × Matrix3i)
    (m_current : Matrix3i) : List Matrix3i → Bool
  | [] => true
  | op :: rest =>
    let transformed := op.mul m_current
    let H := (hermite_normal_form transformed).1
    if _is_canonical.returns_false H m_current then false
    else _is_canonical.loop hermite_normal_form m_current rest

/-- The test `SupercellIterator::_is_canonical`. -/
def _is_canonical (hermite_normal_form : Matrix3i → Matrix3i × Matrix3i)
    (it : SupercellIterator UnitType) : Bool :=
  _is_canonical.loop hermite_normal_form it.m_current it.m_enum.point_group

/-- The advance `SupercellIterator::_increment`:
`do { _try_increment(); } while(!_is_canonical()); m_super_updated = false;`
`none` when the loop is still running after `fuel` trips. -/
def _increment (hermite_normal_form : Matrix3i → Matrix3i × Matrix3i) :
    Nat → SupercellIterator UnitType → Option (SupercellIterator UnitType)
  | 0, _ => none
  | fuel + 1, it =>
    let it := _try_increment it
    if !_is_canonical hermite_normal_form it then _increment hermite_normal_form fuel it
    else some { it with m_super_updated := false }

/-- The constructor `SupercellIterator(enumerator, volume)`.  `m_super` is default constructed.
The result is `.error` when the constructor throws, `.ok none` when `_increment` is still
running after `fuel` trips of its loop. -/
def SupercellIterator.construct [Inhabited UnitType]
    (hermite_normal_form : Matrix3i → Matrix3i × Matrix3i) (fuel : Nat)
    (enumerator : SupercellEnumerator UnitType) (volume : Int) :
    Except Error (Option (SupercellIterator UnitType)) :=
  if enumerator.begin_volume > enumerator.end_volume then
    .error Error.runtime_error
  else
    let m_vol := if volume < 1 then 1 else volume
    let m_vol := if volume < 1 then 1 else m_vol
    let m_current := { Matrix3i.Identity with a22 := m_vol }
    let it : SupercellIterator UnitType :=
      { m_super_updated := false, m_enum := enumerator, m_vol := m_vol, m_current := m_current,
        m_super := default }
    if !_is_canonical hermite_normal_form it then .ok (_increment hermite_normal_form fuel it)
    else .ok (some it)

/-- The comparison `SupercellIterator::operator==`. -/
def SupercellIterator.eq (A B : SupercellIterator UnitType) : Bool :=
  (A.m_enum.addr == B.m_enum.addr) && (A.m_vol == B.m_vol)
    && (A.m_current.sub B.m_current).isZero

/-- The comparison `SupercellIterator::operator!=`. -/
def SupercellIterator.ne (A B : SupercellIterator UnitType) : Bool :=
  !(A.eq B)

/-- The member `SupercellEnumerator::end` (and `cend`). -/
def SupercellEnumerator.end [Inhabited UnitType]
    (hermite_normal_form : Matrix3i → Matrix3i × Matrix3i) (fuel : Nat)
    (e : SupercellEnumerator UnitType) : Except Error (Option (SupercellIterator UnitType)) :=
  SupercellIterator.construct hermite_normal_form fuel e e.m_end_volume

end Iterator

/-- A 3x3 matrix in Hermite normal form: strict lower triangle zero, positive diagonal, every
entry above the diagonal in `[0, diagonal entry of its row)`. -/
def IsHNF (M : Matrix3i) : Prop :=
  M.a10 = 0 ∧ M.a20 = 0 ∧ M.a21 = 0 ∧ 1 ≤ M.a00 ∧ 1 ≤ M.a11 ∧ 1 ≤ M.a22 ∧
  0 ≤ M.a12 ∧ M.a12 < M.a11 ∧ 0 ≤ M.a02 ∧ M.a02 < M.a00 ∧ 0 ≤ M.a01 ∧ M.a01 < M.a00

instance (M : Matrix3i) : Decidable (IsHNF M) := by
  unfold IsHNF; infer_instance

/-- A well-formed iterator position: `v >= 1` and `M` an HNF whose diagonal multiplies to `v`. -/
def WellFormed (v : Int) (M : Matrix3i) : Prop :=
  1 ≤ v ∧ IsHNF M ∧ M.a00 * M.a11 * M.a22 = v

instance (v : Int) (M : Matrix3i) : Decidable (WellFormed v M) := by
  unfold WellFormed; infer_instance

/-- The raw step as a relation on well-formed positions, one constructor per exit of
`_try_increment` (proved to describe the function in `try_increment_rawStep`).  In `inc11` and
`inc00` the number `m` is the divisor the loop stops at and `t` the new `m_current(2,2)`. -/
inductive RawStep (v : Int) (M : Matrix3i) : Int → Matrix3i → Prop
  | inc12 : M.a12 + 1 < M.a11 → RawStep v M v { M with a12 := M.a12 + 1 }
  | inc02 : M.a12 + 1 = M.a11 → M.a02 + 1 < M.a00 →
      RawStep v M v { M with a12 := 0, a02 := M.a02 + 1 }
  | inc01 : M.a12 + 1 = M.a11 → M.a02 + 1 = M.a00 → M.a01 + 1 < M.a00 →
      RawStep v M v { M with a12 := 0, a02 := 0, a01 := M.a01 + 1 }
  | inc11 (m t : Int) : M.a12 + 1 = M.a11 → M.a02 + 1 = M.a00 → M.a01 + 1 = M.a00 →
      M.a11 < m → 1 ≤ t → m * t = M.a11 * M.a22 →
      (∀ k, M.a11 < k → k < m → ¬ k ∣ M.a11 * M.a22) →
      RawStep v M v { M with a12 := 0, a02 := 0, a01 := 0, a11 := m, a22 := t }
  | inc00 (m t : Int) : M.a12 + 1 = M.a11 → M.a02 + 1 = M.a00 → M.a01 + 1 = M.a00 →
      (∀ k, M.a11 < k → ¬ k ∣ M.a11 * M.a22) →
      M.a00 < m → 1 ≤ t → m * t = v →
      (∀ k, M.a00 < k → k < m → ¬ k ∣ v) →
      RawStep v M v { M with a12 := 0, a02 := 0, a01 := 0, a11 := 1, a00 := m, a22 := t }
  | incvol : M = ⟨v, v - 1, v - 1, 0, 1, 0, 0, 0, 1⟩ →
      RawStep v M (v + 1) ⟨1, 0, 0, 0, 1, 0, 0, 0, v + 1⟩

/-- The order of the raw walk inside one volume: lexicographic on
`(M00, M11, M01, M02, M12)`, the slot the raw step tries first being the last component. -/
def KeyLt (M H : Matrix3i) : Prop :=
  M.a00 < H.a00 ∨ (M.a00 = H.a00 ∧ (M.a11 < H.a11 ∨ (M.a11 = H.a11 ∧ (M.a01 < H.a01 ∨
    (M.a01 = H.a01 ∧ (M.a02 < H.a02 ∨ (M.a02 = H.a02 ∧ M.a12 < H.a12)))))))

instance (M H : Matrix3i) : Decidable (KeyLt M H) := by
  unfold KeyLt; infer_instance

/-- Position of `M` in the raw walk of volume `v`, as one number: the key read in base `v + 1`. -/
def rank (v : Int) (M : Matrix3i) : Int :=
  (((M.a00 * (v + 1) + M.a11) * (v + 1) + M.a01) * (v + 1) + M.a02) * (v + 1) + M.a12

/-- The matrix the constructor starts from at volume `v`: `diag(1, 1, v)`. -/
def first_hnf (v : Int) : Matrix3i := { Matrix3i.Identity with a22 := v }

/-- The matrix from which the raw step leaves volume `v`. -/
def last_hnf (v : Int) : Matrix3i := ⟨v, v - 1, v - 1, 0, 1, 0, 0, 0, 1⟩

/-- The coefficient `A(r, s)`. -/
def Matrix3i.get (A : Matrix3i) (r s : Fin 3) : Int :=
  match r, s with
  | 0, 0 => A.a00 | 0, 1 => A.a01 | 0, 2 => A.a02
  | 1, 0 => A.a10 | 1, 1 => A.a11 | 1, 2 => A.a12
  | 2, 0 => A.a20 | 2, 1 => A.a21 | 2, 2 => A.a22

/-- The matrix with coefficients `f r s`. -/
def Matrix3i.ofFn (f : Fin 3 → Fin 3 → Int) : Matrix3i :=
  ⟨f 0 0, f 0 1, f 0 2, f 1 0, f 1 1, f 1 2, f 2 0, f 2 1, f 2 2⟩

/-- Right multiplication by `add_col i c k` adds `k` times column `i` to column `c`. -/
def Matrix3i.add_col (i c : Fin 3) (k : Int) : Matrix3i :=
  Matrix3i.ofFn fun r s => if r = s then 1 else if r = i ∧ s = c then k else 0

/-- Right multiplication by `swap_col i c` exchanges the columns `i` and `c`. -/
def Matrix3i.swap_col (i c : Fin 3) : Matrix3i :=
  Matrix3i.ofFn fun r s =>
    if (r = i ∧ s = c) ∨ (r = c ∧ s = i) ∨ (r = s ∧ r ≠ i ∧ r ≠ c) then 1 else 0

/-- Right multiplication by `neg_col i` changes the sign of column `i`. -/
def Matrix3i.neg_col (i : Fin 3) : Matrix3i :=
  Matrix3i.ofFn fun r s => if r = s then (if r = i then -1 else 1) else 0

namespace hermite_normal_form

/-- Modelled from the spec: `hermite_normal_form` is not part of the sources at hand; the spec
gives `hnf(M) = (H, V)` with `H` the upper-triangular column HNF and `V` unimodular,
`M * V = H`.  This step is Euclid on row `i`: column operations between the pivot column `i`
and the column `c` on its left until `H(i, c) = 0`. -/
def eliminate (i c : Fin 3) : Nat → Matrix3i × Matrix3i → Matrix3i × Matrix3i
  | 0, s => s
  | fuel + 1, (H, V) =>
    if H.get i c = 0 then (H, V)
    else
      let q := H.get i i / H.get i c
      let E := (Matrix3i.add_col c i (-q)).mul (Matrix3i.swap_col i c)
      eliminate i c fuel (H.mul E, V.mul E)

/-- Modelled from the spec: Euclid on row `i` against column `c`, with the fuel it needs. -/
def clear_left (i c : Fin 3) (s : Matrix3i × Matrix3i) : Matrix3i × Matrix3i :=
  eliminate i c ((s.1.get i c).natAbs + 1) s

/-- Modelled from the spec: makes the diagonal coefficient `H(i, i)` non-negative. -/
def positive (i : Fin 3) (s : Matrix3i × Matrix3i) : Matrix3i × Matrix3i :=
  if s.1.get i i < 0 then (s.1.mul (Matrix3i.neg_col i), s.2.mul (Matrix3i.neg_col i)) else s

/-- Modelled from the spec: brings `H(r, c)`, `r < c`, into `[0, H(r, r))` by subtracting a
multiple of column `r` from column `c`. -/
def reduce (r c : Fin 3) (s : Matrix3i × Matrix3i) : Matrix3i × Matrix3i :=
  let E := Matrix3i.add_col r c (-(s.1.get r c / s.1.get r r))
  (s.1.mul E, s.2.mul E)

end hermite_normal_form

/-- Modelled from the spec: `hermite_normal_form(M)`, of `casm/container/LinearAlgebra`, is
not part of the sources at hand.  The spec gives `hnf(M) = (H, V)` with `H` the
upper-triangular Hermite normal form (`0 <= H(i,j) < H(i,i)` for `i < j`) reached from `M` by
right multiplication with the unimodular `V`, `M * V = H`.  For a non-singular `M` this `H` is
unique, whatever sequence of column operations computes it.  Here: zeros left of the diagonal
in rows 2 and 1, then a positive diagonal, then the entries right of the diagonal reduced. -/
def hermite_normal_form (M : Matrix3i) : Matrix3i × Matrix3i :=
  hermite_normal_form.reduce 0 2 (hermite_normal_form.reduce 1 2 (hermite_normal_form.reduce 0 1
    (hermite_normal_form.positive 0 (hermite_normal_form.positive 1
      (hermite_normal_form.positive 2 (hermite_normal_form.clear_left 1 0
        (hermite_normal_form.clear_left 2 1 (hermite_normal_form.clear_left 2 0
          (M, Matrix3i.Identity)))))))))

/-- The adjugate (transposed cofactor matrix) of `A`. -/
def Matrix3i.adjugate (A : Matrix3i) : Matrix3i :=
  { a00 := A.a11 * A.a22 - A.a12 * A.a21
    a01 := A.a02 * A.a21 - A.a01 * A.a22
    a02 := A.a01 * A.a12 - A.a02 * A.a11
    a10 := A.a12 * A.a20 - A.a10 * A.a22
    a11 := A.a00 * A.a22 - A.a02 * A.a20
    a12 := A.a02 * A.a10 - A.a00 * A.a12
    a20 := A.a10 * A.a21 - A.a11 * A.a20
    a21 := A.a01 * A.a20 - A.a00 * A.a21
    a22 := A.a00 * A.a11 - A.a01 * A.a10 }

/-- The multiple `k * A`. -/
def Matrix3i.smul (k : Int) (A : Matrix3i) : Matrix3i :=
  { a00 := k * A.a00, a01 := k * A.a01, a02 := k * A.a02
    a10 := k * A.a10, a11 := k * A.a11, a12 := k * A.a12
    a20 := k * A.a20, a21 := k * A.a21, a22 := k * A.a22 }

/-- The order `_is_canonical` compares in: lexicographic on `(h00, h11, h22, h12, h02, h01)`;
`CanonLt A B` reads "`A` is strictly less than `B`". -/
def CanonLt (A B : Matrix3i) : Prop :=
  A.a00 < B.a00 ∨ (A.a00 = B.a00 ∧ (A.a11 < B.a11 ∨ (A.a11 = B.a11 ∧ (A.a22 < B.a22 ∨
    (A.a22 = B.a22 ∧ (A.a12 < B.a12 ∨ (A.a12 = B.a12 ∧ (A.a02 < B.a02 ∨
      (A.a02 = B.a02 ∧ A.a01 < B.a01)))))))))

instance (A B : Matrix3i) : Decidable (CanonLt A B) := by
  unfold CanonLt; infer_instance

/-- The image of `M` under the point group operation with integer matrix `op`:
`H = hermite_normal_form(op * M).first`. -/
def image (hermite_normal_form : Matrix3i → Matrix3i × Matrix3i) (op M : Matrix3i) : Matrix3i :=
  (hermite_normal_form (op.mul M)).1

/-- The equivalence of the spec on HNFs: `C` is the image of `M` under some point group
operation, `C = hnf(op * M)`. -/
def Equivalent (hermite_normal_form : Matrix3i → Matrix3i × Matrix3i) (ops : List Matrix3i)
    (M C : Matrix3i) : Prop :=
  ∃ op ∈ ops, image hermite_normal_form op M = C

/-- An integer matrix of determinant `1` or `-1`. -/
def Unimodular (A : Matrix3i) : Prop := A.det = 1 ∨ A.det = -1

instance (A : Matrix3i) : Decidable (Unimodular A) := by
  unfold Unimodular; infer_instance

/-- The list `ops` is a group of matrices: it holds the identity, products and inverses. -/
def IsGroup (ops : List Matrix3i) : Prop :=
  Matrix3i.Identity ∈ ops ∧ (∀ g ∈ ops, ∀ h ∈ ops, g.mul h ∈ ops) ∧
    ∀ g ∈ ops, ∃ h ∈ ops, h.mul g = Matrix3i.Identity

/-- On the argument `A` the function `hnf` returns a Hermite normal form of `A`: its first
component `H` is in HNF, its second component `V` is unimodular, and `A * V = H`. -/
def HnfCorrectAt (hnf : Matrix3i → Matrix3i × Matrix3i) (A : Matrix3i) : Prop :=
  IsHNF (hnf A).1 ∧ Unimodular (hnf A).2 ∧ A.mul (hnf A).2 = (hnf A).1

instance (hnf : Matrix3i → Matrix3i × Matrix3i) (A : Matrix3i) : Decidable (HnfCorrectAt hnf A) := by
  unfold HnfCorrectAt; infer_instance

/-- The function `hnf` returns a Hermite normal form on every argument `_is_canonical` passes
to it: the products `op * M` of a point group matrix with a matrix `M` in HNF. -/
def HnfCorrectOn (hnf : Matrix3i → Matrix3i × Matrix3i) (ops : List Matrix3i) : Prop :=
  ∀ op ∈ ops, ∀ M, IsHNF M → HnfCorrectAt hnf (op.mul M)

/-- Every image of a well-formed HNF of volume `v` is a well-formed HNF of volume `v`. -/
def ImagesWellFormed (hnf : Matrix3i → Matrix3i × Matrix3i) (ops : List Matrix3i) (v : Int) :
    Prop :=
  ∀ op ∈ ops, ∀ M, WellFormed v M → WellFormed v (image hnf op M)

section Sweep

variable {UnitType : Type}

/-- The iterator with its freshness flag cleared, as `_increment` leaves it. -/
def SupercellIterator.unflag (it : SupercellIterator UnitType) : SupercellIterator UnitType :=
  { it with m_super_updated := false }

/-- The matrices a client sees that walks one volume with advance,
`for(; it.m_vol == v; ++it) emit(it.matrix());`
`none` when the loop is still running after `steps` trips or an advance ran out of `fuel`. -/
def sweep (hermite_normal_form : Matrix3i → Matrix3i × Matrix3i) (fuel : Nat) (v : Int) :
    Nat → SupercellIterator UnitType → Option (List Matrix3i)
  | 0, _ => none
  | steps + 1, it =>
    if it.m_vol = v then
      match _increment hermite_normal_form fuel it with
      | none => none
      | some next => (sweep hermite_normal_form fuel v steps next).map fun L => it.m_current :: L
    else some []

/-- The matrices emitted at volume `v`: the iterator is constructed at `v` and advanced until
it leaves the volume. -/
def emitted [Inhabited UnitType] (hermite_normal_form : Matrix3i → Matrix3i × Matrix3i)
    (fuel steps : Nat) (e : SupercellEnumerator UnitType) (v : Int) : Option (List Matrix3i) :=
  match SupercellIterator.construct hermite_normal_form fuel e v with
  | .ok (some it) => sweep hermite_normal_form fuel v steps it
  | _ => none

end Sweep

/-! ### Example data -/

/-- The integer matrix of the inversion, a point group operation of every lattice. -/
def inversion : Matrix3i := ⟨-1, 0, 0, 0, -1, 0, 0, 0, -1⟩

/-- The integer matrix of the mirror exchanging the first and the third axis of a cubic
lattice (`U = I`). -/
def mirror_xz : Matrix3i := ⟨0, 0, 1, 0, 1, 0, 1, 0, 0⟩

/-- An enumerator of a triclinic lattice (point group: identity and inversion) over the
volumes `1` to `end_volume`. -/
def triclinic (end_volume : Int) : SupercellEnumerator Unit :=
  { addr := 0, m_unit := (), point_group := [Matrix3i.Identity, inversion],
    m_begin_volume := 1, m_end_volume := end_volume }

/-- An enumerator with the trivial point group `{identity}` over the volumes `1` to
`end_volume`. -/
def trivial_group (end_volume : Int) : SupercellEnumerator Unit :=
  { addr := 2, m_unit := (), point_group := [Matrix3i.Identity],
    m_begin_volume := 1, m_end_volume := end_volume }

/-- An enumerator with the custom point group `{identity, mirror_xz}` of a cubic lattice. -/
def cubic_mirror (end_volume : Int) : SupercellEnumerator Unit :=
  { addr := 1, m_unit := (), point_group := [Matrix3i.Identity, mirror_xz],
    m_begin_volume := 1, m_end_volume := end_volume }

/-- An iterator of `e` at the position `(v, M)` with a stale cache. -/
def position {UnitType : Type} [Inhabited UnitType] (e : SupercellEnumerator UnitType) (v : Int)
    (M : Matrix3i) : SupercellIterator UnitType :=
  { m_super_updated := false, m_enum := e, m_vol := v, m_current := M, m_super := default }

/-! ### Dereference, copy and increment operators of the iterator -/

section Operators

variable {UnitType : Type}

/-- The dereference `SupercellIterator::operator*`: refreshes the mutable cache when it is stale
and returns `m_super` (first component) together with the iterator after the call.
`make_supercell` lives in another translation unit and is a parameter. -/
def SupercellIterator.deref (make_supercell : UnitType → Matrix3i → UnitType)
    (it : SupercellIterator UnitType) : UnitType × SupercellIterator UnitType :=
  if !it.m_super_updated then
    let it : SupercellIterator UnitType :=
      { it with m_super := make_supercell it.m_enum.m_unit it.m_current }
    let it : SupercellIterator UnitType := { it with m_super_updated := true }
    (it.m_super, it)
  else (it.m_super, it)

/-- The member access `SupercellIterator::operator->`: as `operator*`, returning the object
`&m_super` points to. -/
def SupercellIterator.arrow (make_supercell : UnitType → Matrix3i → UnitType)
    (it : SupercellIterator UnitType) : UnitType × SupercellIterator UnitType :=
  if !it.m_super_updated then
    let it : SupercellIterator UnitType :=
      { it with m_super := make_supercell it.m_enum.m_unit it.m_current }
    let it : SupercellIterator UnitType := { it with m_super_updated := true }
    (it.m_super, it)
  else (it.m_super, it)

/-- The assignment `SupercellIterator::operator=`: `self` after `self = B`.  The cached
`m_super` of `self` is not touched. -/
def SupercellIterator.assign (self B : SupercellIterator UnitType) : SupercellIterator UnitType :=
  { self with m_enum := B.m_enum, m_current := B.m_current, m_vol := B.m_vol,
              m_super_updated := false }

/-- The copy constructor `SupercellIterator(const SupercellIterator &B)`: `*this = B` on an
object whose `m_super` is default constructed. -/
def SupercellIterator.copy [Inhabited UnitType] (B : SupercellIterator UnitType) :
    SupercellIterator UnitType :=
  SupercellIterator.assign
    { m_super_updated := false, m_enum := B.m_enum, m_vol := B.m_vol, m_current := B.m_current,
      m_super := default } B

/-- The prefix increment `operator++()`: the iterator after the call. -/
def SupercellIterator.pre_increment (hermite_normal_form : Matrix3i → Matrix3i × Matrix3i)
    (fuel : Nat) (it : SupercellIterator UnitType) : Option (SupercellIterator UnitType) :=
  _increment hermite_normal_form fuel it

/-- The postfix increment `operator++(int)`: the returned copy `result` and the iterator after
the call. -/
def SupercellIterator.post_increment [Inhabited UnitType]
    (hermite_normal_form : Matrix3i → Matrix3i × Matrix3i) (fuel : Nat)
    (it : SupercellIterator UnitType) :
    Option (SupercellIterator UnitType × SupercellIterator UnitType) :=
  let result := SupercellIterator.copy it
  match _increment hermite_normal_form fuel it with
  | none => none
  | some next => some (result, next)

/-- The iterator states a client can reach: from the `(enumerator, volume)` constructor by
prefix and postfix increment, copy construction, assignment and dereference. -/
inductive Reachable [Inhabited UnitType] (make_supercell : UnitType → Matrix3i → UnitType)
    (hermite_normal_form : Matrix3i → Matrix3i × Matrix3i) : SupercellIterator UnitType → Prop
  | construct (fuel : Nat) (e : SupercellEnumerator UnitType) (volume : Int)
      (it : SupercellIterator UnitType) :
      SupercellIterator.construct hermite_normal_form fuel e volume = .ok (some it) →
      Reachable make_supercell hermite_normal_form it
  | pre_increment (fuel : Nat) (it next : SupercellIterator UnitType) :
      Reachable make_supercell hermite_normal_form it →
      SupercellIterator.pre_increment hermite_normal_form fuel it = some next →
      Reachable make_supercell hermite_normal_form next
  | post_increment (fuel : Nat) (it result next : SupercellIterator UnitType) :
      Reachable make_supercell hermite_normal_form it →
      SupercellIterator.post_increment hermite_normal_form fuel it = some (result, next) →
      Reachable make_supercell hermite_normal_form next
  | post_result (fuel : Nat) (it result next : SupercellIterator UnitType) :
      Reachable make_supercell hermite_normal_form it →
      SupercellIterator.post_increment hermite_normal_form fuel it = some (result, next) →
      Reachable make_supercell hermite_normal_form result
  | copy (it : SupercellIterator UnitType) :
      Reachable make_supercell hermite_normal_form it →
      Reachable make_supercell hermite_normal_form (SupercellIterator.copy it)
  | assign (self B : SupercellIterator UnitType) :
      Reachable make_supercell hermite_normal_form self →
      Reachable make_supercell hermite_normal_form B →
      Reachable make_supercell hermite_normal_form (SupercellIterator.assign self B)
  | deref (it : SupercellIterator UnitType) :
      Reachable make_supercell hermite_normal_form it →
      Reachable make_supercell hermite_normal_form (SupercellIterator.deref make_supercell it).2
  | arrow (it : SupercellIterator UnitType) :
      Reachable make_supercell hermite_normal_form it →
      Reachable make_supercell hermite_normal_form (SupercellIterator.arrow make_supercell it).2

/-- Cache coherence: a fresh flag means that the cache holds the supercell of the current
matrix. -/
def CacheCoherent (make_supercell : UnitType → Matrix3i → UnitType)
    (it : SupercellIterator UnitType) : Prop :=
  it.m_super_updated = true → it.m_super = make_supercell it.m_enum.m_unit it.m_current

end Operators

/-- Example data: a lattice given by the integer matrix of its column vectors; the default
lattice is the cubic one. -/
instance : Inhabited Matrix3i := ⟨Matrix3i.Identity⟩

/-- Example data: the supercell `S = U * M` of a lattice, for the parameter `make_supercell`. -/
def lattice_supercell (unit M : Matrix3i) : Matrix3i := unit.mul M

/-- Example data: an enumerator of superlattices of the lattice with column matrix
`diag(2, 3, 5)` and point group `{identity, inversion}`. -/
def lattice_enumerator : SupercellEnumerator Matrix3i :=
  { addr := 3, m_unit := ⟨2, 0, 0, 0, 3, 0, 0, 0, 5⟩, point_group := [Matrix3i.Identity, inversion],
    m_begin_volume := 1, m_end_volume := 5 }

/-! ### Counting the HNFs of a determinant -/

/-- The arithmetic function `sigma_2`: the sum of the squares of the divisors of `d`. -/
def sigma_2 (d : Nat) : Nat := ∑ k ∈ d.divisors, k ^ 2

/-- The number of 3x3 HNFs of determinant `d` counted by diagonal: a diagonal `(a, b, c)` with
`a * b * c = d` carries `a * a * b` upper triangles. -/
def hnf_count (d : Nat) : Nat := ∑ a ∈ d.divisors, ∑ b ∈ (d / a).divisors, a ^ 2 * b

/-- The HNF of determinant `d` with diagonal `(a, b, d / (a * b))` and entries `x, y, z` above
the diagonal. -/
def hnf_of (d : Nat) (t : (_ : Nat) × (_ : Nat) × Nat × Nat × Nat) : Matrix3i :=
  ⟨t.1, t.2.2.1, t.2.2.2.1, 0, t.2.1, t.2.2.2.2, 0, 0, (d / (t.1 * t.2.1) : Nat)⟩

/-- The index set of the HNFs of determinant `d`. -/
def hnf_index (d : Nat) : Finset ((_ : Nat) × (_ : Nat) × Nat × Nat × Nat) :=
  d.divisors.sigma fun a => (d / a).divisors.sigma fun b =>
    Finset.range a ×ˢ Finset.range a ×ˢ Finset.range b


/-! ### The cubic point group -/

/-- The six permutation matrices of the three axes. -/
def axis_permutations : List Matrix3i :=
  [⟨1, 0, 0, 0, 1, 0, 0, 0, 1⟩, ⟨1, 0, 0, 0, 0, 1, 0, 1, 0⟩, ⟨0, 1, 0, 1, 0, 0, 0, 0, 1⟩,
   ⟨0, 1, 0, 0, 0, 1, 1, 0, 0⟩, ⟨0, 0, 1, 1, 0, 0, 0, 1, 0⟩, ⟨0, 0, 1, 0, 1, 0, 1, 0, 0⟩]

/-- The eight sign changes `diag(a, b, c)` with `a, b, c` in `{1, -1}`. -/
def axis_signs : List Matrix3i :=
  [1, -1].flatMap fun a => [1, -1].flatMap fun b => [1, -1].map fun c =>
    (⟨a, 0, 0, 0, b, 0, 0, 0, c⟩ : Matrix3i)

/-- The full cubic point group in the basis of the cubic lattice `U = I`: the 48 signed
permutation matrices (for `U = I` the matrix `iround(U.inverse() * op * U)` is `op`). -/
def cubic_point_group : List Matrix3i :=
  axis_permutations.flatMap fun P => axis_signs.map fun D => P.mul D

/-- An enumerator of the cubic lattice with its full point group over the volumes `1` to
`end_volume`. -/
def cubic (end_volume : Int) : SupercellEnumerator Unit :=
  { addr := 4, m_unit := (), point_group := cubic_point_group,
    m_begin_volume := 1, m_end_volume := end_volume }

/-! ## `HermiteCounter` and `HermiteCounter_impl`

Only the class declaration and the prototypes of `HermiteCounter_impl` are part of the header;
the bodies are modelled from the spec.  `Eigen::VectorXi` is a list of integers,
`Eigen::MatrixXi` the list of its rows. -/

namespace HermiteCounter_impl

/-- Modelled from the spec: the body of `upper_size` is missing; the spec gives
`upper_size(n) = n(n-1)/2`, the number of entries above the diagonal. -/
def upper_size (init_dim : Nat) : Nat := init_dim * (init_dim - 1) / 2

/-- Modelled from the spec: the rows `i, i+1, ...` of `_zip_matrix`, whose body is missing.
Row `i` holds `i` zeros, the diagonal entry, and the next `n - 1 - i` entries of the unrolled
upper triangle (row-major slot order `(0,1), (0,2), ..., (0,n-1), (1,2), ..., (n-2,n-1)`). -/
def _zip_matrix.rows : Nat → List Int → List Int → List (List Int)
  | _, [], _ => []
  | i, d :: ds, T =>
    (List.replicate i 0 ++ d :: T.take ds.length) :: _zip_matrix.rows (i + 1) ds (T.drop ds.length)

/-- Modelled from the spec: `_zip_matrix(current_diag, current_upper_tri)`, whose body is
missing: the upper triangular matrix with `current_diag` on the diagonal and
`current_upper_tri` above it. -/
def _zip_matrix (current_diag current_upper_tri : List Int) : List (List Int) :=
  _zip_matrix.rows 0 current_diag current_upper_tri

/-- Modelled from the spec: the per-digit bases of the upper triangle counter, whose
construction `_upper_tri_counter` is missing: the slot `(i, j)` has the base `D_i` of its row. -/
def upper_bases : List Int → List Int
  | [] => []
  | d :: ds => List.replicate ds.length d ++ upper_bases ds

/-- Modelled from the spec: the search loop of `_spill_factor`, whose body is missing: the
smallest `f >= attempt` that divides `x` (`fuel` bounds the number of trials). -/
def next_factor (x : Int) : Nat → Int → Int
  | 0, attempt => attempt
  | fuel + 1, attempt => if Int.tmod x attempt = 0 then attempt else next_factor x fuel (attempt + 1)

/-- Modelled from the spec: `_spill_factor(diag, position, attempt)`, whose body is missing:
the smallest factor `f >= attempt` of `diag(position)` is taken out of `diag(position)` and
multiplied into `diag(position + 1)`; the new position is `position + 1`.  The result is the
diagonal after the call and the returned index. -/
def _spill_factor : List Int → Nat → Int → List Int × Nat
  | x :: y :: rest, 0, attempt =>
    let f := next_factor x (x - attempt).toNat attempt
    (Int.tdiv x f :: y * f :: rest, 1)
  | x :: rest, position + 1, attempt =>
    let r := _spill_factor rest position attempt
    (x :: r.1, r.2 + 1)
  | diag, _, _ => (diag, diag.length)

/-- Modelled from the spec: the backward search of `next_spill_position` at the end of the
diagonal: the largest index `p < n - 1` with `diag(p) != 1`, if there is one. -/
def backtrack : List Int → Option Nat
  | [] => none
  | [_] => none
  | x :: y :: rest =>
    match backtrack (y :: rest) with
    | some p => some (p + 1)
    | none => if x ≠ 1 then some 0 else none

/-- Modelled from the spec: `next_spill_position(diag, position)`, whose body is missing.
Inside the diagonal the smallest factor `>= 2` of `diag(position)` is spilled to the right
neighbour.  At the end of the diagonal (or when `diag(position)` has no factor) the walk
carries: it goes back to the nearest entry `diag(p) != 1` left of the last one, flushes the last
entry `l` into it, and spills from there the next factor `>= l + 1`.  When there is no such
entry the diagonal is `(1, ..., 1, det)`, the walk is complete and `diag.size()` is returned.
The result is the diagonal after the call and the returned index. -/
def next_spill_position (diag : List Int) (position : Nat) : List Int × Nat :=
  if position + 1 < diag.length ∧ 1 < diag.getD position 1 then
    _spill_factor diag position 2
  else
    match backtrack diag with
    | none => (diag, diag.length)
    | some p =>
      let last := diag.getLastD 1
      let flushed := (diag.set p (diag.getD p 1 * last)).set (diag.length - 1) 1
      _spill_factor flushed p (last + 1)

/-- Modelled from the spec: one step of the upper triangle counter (`EigenVectorXiCounter`,
not part of the header): little-endian mixed radix, the first digit varies fastest; `none`
when the counter overflows. -/
def step_upper_tri : List Int → List Int → Option (List Int)
  | t :: ts, b :: bs =>
    if t + 1 < b then some ((t + 1) :: ts)
    else (step_upper_tri ts bs).map fun r => 0 :: r
  | _, _ => none

end HermiteCounter_impl

/-- The members of `HermiteCounter`; of the counter `m_upper_tri` the current digits are kept,
its per-digit bases being `upper_bases m_diagonal`. -/
structure HermiteCounter where
  m_pos : Nat
  m_low_det : Int
  m_high_det : Int
  m_diagonal : List Int
  m_upper_tri : List Int
  m_valid : Bool
deriving DecidableEq, Repr

namespace HermiteCounter

open HermiteCounter_impl

/-- Modelled from the spec: `_jump_to_determinant(new_det)`, whose body is missing: the
initial state at a determinant, `D = (new_det, 1, ..., 1)`, `T = 0`, `pos = 0`. -/
def _jump_to_determinant (c : HermiteCounter) (new_det : Int) : HermiteCounter :=
  { c with m_pos := 0,
           m_diagonal := new_det :: List.replicate (c.m_diagonal.length - 1) 1,
           m_upper_tri := List.replicate (upper_size c.m_diagonal.length) 0 }

/-- Modelled from the spec: the constructor `HermiteCounter(start, end, dim)`, whose body is
missing; it fails with `InvalidArgument` if `d_low < 1`, `d_high < d_low` or `n < 1`. -/
def construct (init_start_determinant init_end_determinant init_dim : Int) :
    Except Error HermiteCounter :=
  if init_start_determinant < 1 ∨ init_end_determinant < init_start_determinant ∨ init_dim < 1 then
    .error Error.runtime_error
  else
    .ok { m_pos := 0, m_low_det := init_start_determinant, m_high_det := init_end_determinant,
          m_diagonal := init_start_determinant :: List.replicate (init_dim.toNat - 1) 1,
          m_upper_tri := List.replicate (upper_size init_dim.toNat) 0,
          m_valid := true }

/-- Modelled from the spec: the constructor `HermiteCounter(det, dim)`: the range of
determinants is the single value `det`. -/
def construct_single (init_determinant init_dim : Int) : Except Error HermiteCounter :=
  construct init_determinant init_determinant init_dim

/-- Modelled from the spec: the accessor `position()`, whose body is missing: the diagonal
index `m_pos` currently being factored. -/
def position (c : HermiteCounter) : Nat := c.m_pos

/-- Modelled from the spec: the accessor `diagonal()`, whose body is missing: the diagonal
`m_diagonal`. -/
def diagonal (c : HermiteCounter) : List Int := c.m_diagonal

/-- Modelled from the spec: the accessor `valid()`, whose body is missing: the flag
`m_valid`. -/
def valid (c : HermiteCounter) : Bool := c.m_valid

/-- Modelled from the spec: the accessor `dim()`, whose body is missing: the length of the
diagonal. -/
def dim (c : HermiteCounter) : Nat := c.m_diagonal.length

/-- Modelled from the spec: `determinant()`, whose body is missing: the product of the
diagonal. -/
def determinant (c : HermiteCounter) : Int := c.m_diagonal.prod

/-- Modelled from the spec: `current()` (and `operator()`), whose body is missing: the matrix
assembled from the diagonal and the upper triangle. -/
def current (c : HermiteCounter) : List (List Int) :=
  _zip_matrix c.m_diagonal c.m_upper_tri

/-- Modelled from the spec: `_increment_diagonal()`, whose body is missing: the diagonal walk
moves on; the returned index is `dim()` when the walk is complete. -/
def _increment_diagonal (c : HermiteCounter) : HermiteCounter × Nat :=
  let r := next_spill_position c.m_diagonal c.m_pos
  ({ c with m_diagonal := r.1, m_pos := r.2 }, r.2)

/-- Modelled from the spec: the advance `operator++`, whose body is missing: step the upper
triangle; on its overflow step the diagonal and restart the upper triangle; when the diagonal
walk is complete go to the initial state of the next determinant, or become invalid at
`d_high`. -/
def advance (c : HermiteCounter) : HermiteCounter :=
  match step_upper_tri c.m_upper_tri (upper_bases c.m_diagonal) with
  | some T => { c with m_upper_tri := T }
  | none =>
    let r := c._increment_diagonal
    if r.2 < c.dim then
      { r.1 with m_upper_tri := List.replicate (upper_size c.dim) 0 }
    else if c.determinant < c.m_high_det then
      c._jump_to_determinant (c.determinant + 1)
    else { c with m_valid := false }

/-- The states the counter passes through while `valid()` holds (at most `fuel` of them). -/
def states : Nat → HermiteCounter → List HermiteCounter
  | 0, _ => []
  | fuel + 1, c => if c.m_valid then c :: states fuel c.advance else []

/-- The matrices the counter emits: `current()` of the state and of its successors while
`valid()` holds (at most `fuel` of them). -/
def emit (fuel : Nat) (c : HermiteCounter) : List (List (List Int)) :=
  (states fuel c).map current

/-- The successive distinct values of `diagonal()` while `valid()` holds. -/
def diagonals (fuel : Nat) (c : HermiteCounter) : List (List Int) :=
  List.destutter (fun a b => a ≠ b) ((states fuel c).map diagonal)

end HermiteCounter

namespace HermiteCounter_impl

/-- Modelled from the spec: a row of `_expand_dims`, whose body is missing: the entries of
the row of the small matrix go to the active columns, in order; the other columns hold 0. -/
def _expand_dims.row : List Int → List Int → List Int
  | _, [] => []
  | row, a :: as =>
    if a ≠ 0 then row.headD 0 :: _expand_dims.row row.tail as else 0 :: _expand_dims.row row as

/-- Modelled from the spec: the rows `p, p+1, ...` of `_expand_dims`: an active row is the
expanded next row of the small matrix, an inactive row is the row `p` of the identity. -/
def _expand_dims.rows (active_dims : List Int) : Nat → List (List Int) → List Int → List (List Int)
  | _, _, [] => []
  | p, H, a :: as =>
    if a ≠ 0 then
      _expand_dims.row (H.headD []) active_dims :: _expand_dims.rows active_dims (p + 1) H.tail as
    else
      (List.replicate p 0 ++ 1 :: List.replicate (active_dims.length - p - 1) 0) ::
        _expand_dims.rows active_dims (p + 1) H as

/-- Modelled from the spec: `_expand_dims(hermit_mat, active_dims)`, whose body is missing:
the matrix of the size of the mask that holds `hermit_mat` on the rows and columns the mask
selects, 1 on the diagonal entries it does not select, and 0 elsewhere. -/
def _expand_dims (hermit_mat : List (List Int)) (active_dims : List Int) : List (List Int) :=
  _expand_dims.rows active_dims 0 hermit_mat active_dims

end HermiteCounter_impl

/-- The entry `(i, j)` of a matrix given by its rows (0 outside the matrix). -/
def entry (H : List (List Int)) (i j : Nat) : Int := (H.getD i []).getD j 0

/-- The matrix given by `n` rows as a matrix over `Fin n`. -/
def toMatrix (n : Nat) (H : List (List Int)) : Matrix (Fin n) (Fin n) Int :=
  Matrix.of fun i j => entry H i.val j.val

/-- The shape `n x n`: `n` rows of `n` entries. -/
def IsSquare (n : Nat) (H : List (List Int)) : Prop :=
  H.length = n ∧ ∀ row ∈ H, row.length = n

/-- The Hermite normal form in dimension `n`: an `n x n` upper triangular matrix with positive
diagonal whose entries right of the diagonal are non-negative and smaller than the diagonal
entry of their row. -/
def IsHermite (n : Nat) (H : List (List Int)) : Prop :=
  IsSquare n H ∧
  (∀ i j, j < i → i < n → entry H i j = 0) ∧
  (∀ i, i < n → 0 < entry H i i) ∧
  (∀ i j, i < j → j < n → 0 ≤ entry H i j ∧ entry H i j < entry H i i)

/-- The diagonal of a matrix read back as a vector. -/
def diagonal_of (n : Nat) (H : List (List Int)) : List Int :=
  (List.range n).map fun i => entry H i i

/-- The strict upper triangle of a matrix read back in the row-major slot order
`(0,1), (0,2), ..., (0,n-1), (1,2), ..., (n-2,n-1)`. -/
def upper_of (n : Nat) (H : List (List Int)) : List Int :=
  (List.range n).flatMap fun i => (List.range' (i + 1) (n - 1 - i)).map fun j => entry H i j

/-- The entries of a list at the positions an active mask selects. -/
def select {α : Type} : List Int → List α → List α
  | a :: as, x :: xs => if a ≠ 0 then x :: select as xs else select as xs
  | _, _ => []

/-- The restriction of a matrix to the rows and columns an active mask selects. -/
def restrict (active_dims : List Int) (E : List (List Int)) : List (List Int) :=
  (select active_dims E).map (select active_dims)

/-- The number of positions an active mask selects. -/
def active_count (active_dims : List Int) : Nat := active_dims.countP fun a => a ≠ 0

/-- The factor `_spill_factor` takes out of an entry `x` from the attempt on. -/
def spilled (x attempt : Int) : Int :=
  HermiteCounter_impl.next_factor x (x - attempt).toNat attempt

/-- The bound of an entry of the upper triangle by the base of its slot. -/
def InBase (t b : Int) : Prop := 0 ≤ t ∧ t < b

/-- The invariant of a `HermiteCounter` constructed with `(d_low, d_high, n)`: the bounds and
the dimension are kept, the diagonal is positive with a product in `[d_low, d_high]`, and the
upper triangle lies within the bases of the diagonal. -/
def HermiteCounter.Inv (d_low d_high : Int) (n : Nat) (c : HermiteCounter) : Prop :=
  c.m_low_det = d_low ∧ c.m_high_det = d_high ∧ c.m_diagonal.length = n ∧
  (∀ x ∈ c.m_diagonal, 1 ≤ x) ∧ d_low ≤ c.m_diagonal.prod ∧ c.m_diagonal.prod ≤ d_high ∧
  List.Forall₂ InBase c.m_upper_tri (HermiteCounter_impl.upper_bases c.m_diagonal)

/-! ### The reference enumeration of a sweep

The diagonals of a determinant in descending lexicographic order, the upper triangles of a
diagonal in counter order, and the states of the sweep they make up. -/

/-- The position of the diagonal walk on a diagonal: the index of its last entry other
than 1, and 0 if there is none. -/
def pos_of : List Int → Nat
  | [] => 0
  | _ :: tail => if ∀ x ∈ tail, x = 1 then 0 else pos_of tail + 1

/-- The integers `d, d - 1, ..., 1`. -/
def down (d : Int) : List Int := (List.range d.toNat).map fun (k : Nat) => d - (k : Int)

/-- The positive divisors of `d` in descending order. -/
def divisors_desc (d : Int) : List Int := (down d).filter fun a => d % a = 0

/-- The ordered factorizations of `d` into `n` positive factors, in descending
lexicographic order. -/
def all_diagonals : Nat → Int → List (List Int)
  | 0, _ => []
  | 1, d => [[d]]
  | n + 2, d =>
    (divisors_desc d).flatMap fun a => (all_diagonals (n + 1) (d / a)).map fun D => a :: D

/-- The digit vectors below the given bases, the first digit varying fastest. -/
def all_upper : List Int → List (List Int)
  | [] => [[]]
  | b :: bs => (all_upper bs).flatMap fun ts => (List.range b.toNat).map fun (t : Nat) => (t : Int) :: ts

/-- The states of a sweep at the determinant `d` in dimension `n`, in order. -/
def sweep_states (lo hi : Int) (n : Nat) (d : Int) : List HermiteCounter :=
  (all_diagonals n d).flatMap fun D =>
    (all_upper (HermiteCounter_impl.upper_bases D)).map fun T =>
      { m_pos := pos_of D, m_low_det := lo, m_high_det := hi, m_diagonal := D,
        m_upper_tri := T, m_valid := true }

/-- A list that runs from `first` to `last` with every element followed by its successor
under `R`. -/
def Enumerates {α : Type} (R : α → α → Prop) (L : List α) (first last : α) : Prop :=
  L.head? = some first ∧ L.getLast? = some last ∧ L.Chain' R

/-- Two consecutive positive divisors of `d`, the larger one first. -/
def DivStep (d a a' : Int) : Prop :=
  1 ≤ a' ∧ a' < a ∧ a ∣ d ∧ a' ∣ d ∧ ∀ g, g ∣ d → ¬ (a' < g ∧ g < a)

/-- A diagonal of dimension `n` and determinant `d`: `n` positive entries of product `d`. -/
def IsDiagonal (n : Nat) (d : Int) (D : List Int) : Prop :=
  D.length = n ∧ (∀ x ∈ D, 1 ≤ x) ∧ D.prod = d

/-- One step of the diagonal walk from the diagonal `D` to the diagonal `D'`, both of dimension
`n` and determinant `d`. -/
def DiagStep (n : Nat) (d : Int) (D D' : List Int) : Prop :=
  IsDiagonal n d D ∧ IsDiagonal n d D' ∧
  HermiteCounter_impl.next_spill_position D (pos_of D) = (D', pos_of D')

/-! ### The order of the raw walk, leaving a volume, and `enforce_min_volume` -/

/-- The order of the raw walk on the positions `(v, M)`: lexicographic on the key
`(v, M00, M11, M01, M02, M12)`. -/
def StateLt (v : Int) (M : Matrix3i) (w : Int) (H : Matrix3i) : Prop :=
  v < w ∨ (v = w ∧ KeyLt M H)

/-- Two iterators at the same position: the same enumerator, volume and matrix (the cache
fields may differ). -/
def SamePosition {UnitType : Type} (A B : SupercellIterator UnitType) : Prop :=
  A.m_enum = B.m_enum ∧ A.m_vol = B.m_vol ∧ A.m_current = B.m_current

/-- Modelled from the spec: the search of `enforce_min_volume` with `fix_shape`, whose body is
missing: the scale factor is raised from `m` while `m^3 * init_vol < volume` (`fuel` bounds
the number of trips). -/
def enforce_min_volume.scale (init_vol volume : Int) : Nat → Int → Int
  | 0, m => m
  | fuel + 1, m =>
    if m * m * m * init_vol < volume then enforce_min_volume.scale init_vol volume fuel (m + 1)
    else m

/-- Modelled from the spec: `enforce_min_volume(unit, T, point_grp, volume, fix_shape)`, of
which the header holds only the declaration.  With `fix_shape` the result is `k * I` for the
smallest `k >= 1` with `k^3 * |det T| >= volume`; the search gets the fuel `volume`, which is
enough when `det T != 0`.  Without `fix_shape` the result is the matrix of the iterator of
`unit` at the first canonical position of the volume `ceil(volume / |det T|)`. -/
def enforce_min_volume {UnitType : Type} [Inhabited UnitType]
    (hermite_normal_form : Matrix3i → Matrix3i × Matrix3i) (fuel : Nat)
    (unit : UnitType) (T : Matrix3i) (point_grp : List Matrix3i) (volume : Int)
    (fix_shape : Bool) : Option Matrix3i :=
  let init_vol := |T.det|
  if fix_shape then
    some (Matrix3i.smul (enforce_min_volume.scale init_vol volume volume.toNat 1)
      Matrix3i.Identity)
  else
    let m := -(-volume / init_vol)
    let enumerator : SupercellEnumerator UnitType :=
      { addr := 0, m_unit := unit, point_group := point_grp,
        m_begin_volume := max 1 m, m_end_volume := max 1 m + 1 }
    match SupercellIterator.construct hermite_normal_form fuel enumerator m with
    | .ok (some it) => some it.m_current
    | _ => none

/-! ## The raw step -/

section

variable {UnitType : Type}

theorem increment_11_spec (m_vol a00 : Int) : ∀ (fuel : Nat) (a11 : Int),
    (m_vol - a11).toNat ≤ fuel →
    a11 < increment_11 m_vol a00 fuel a11 ∧
    (Int.tmod (Int.tdiv m_vol a00) (increment_11 m_vol a00 fuel a11) = 0
      ∨ m_vol < increment_11 m_vol a00 fuel a11) ∧
    ∀ k, a11 < k → k < increment_11 m_vol a00 fuel a11 →
      Int.tmod (Int.tdiv m_vol a00) k ≠ 0 ∧ k ≤ m_vol := by
  intro fuel
  induction fuel with
  | zero =>
    intro a11 h
    simp only [increment_11]
    refine ⟨by omega, Or.inr (by omega), fun k h1 h2 => by omega⟩
  | succ n ih =>
    intro a11 h
    simp only [increment_11]
    split_ifs with hc
    · obtain ⟨h1, h2, h3⟩ := ih (a11 + 1) (by omega)
      refine ⟨by omega, h2, fun k hk1 hk2 => ?_⟩
      by_cases hk : k = a11 + 1
      · subst hk; exact hc
      · exact h3 k (by omega) hk2
    · refine ⟨by omega, ?_, fun k h1 h2 => by omega⟩
      by_cases h0 : Int.tmod (Int.tdiv m_vol a00) (a11 + 1) = 0
      · exact Or.inl h0
      · right
        by_contra hle
        exact hc ⟨h0, by omega⟩

theorem increment_00_spec (m_vol : Int) : ∀ (fuel : Nat) (a00 : Int),
    (m_vol - a00).toNat ≤ fuel →
    a00 < increment_00 m_vol fuel a00 ∧
    (Int.tmod m_vol (increment_00 m_vol fuel a00) = 0 ∨ m_vol < increment_00 m_vol fuel a00) ∧
    ∀ k, a00 < k → k < increment_00 m_vol fuel a00 → Int.tmod m_vol k ≠ 0 ∧ k ≤ m_vol := by
  intro fuel
  induction fuel with
  | zero =>
    intro a00 h
    simp only [increment_00]
    refine ⟨by omega, Or.inr (by omega), fun k h1 h2 => by omega⟩
  | succ n ih =>
    intro a00 h
    simp only [increment_00]
    split_ifs with hc
    · obtain ⟨h1, h2, h3⟩ := ih (a00 + 1) (by omega)
      refine ⟨by omega, h2, fun k hk1 hk2 => ?_⟩
      by_cases hk : k = a00 + 1
      · subst hk; exact hc
      · exact h3 k (by omega) hk2
    · refine ⟨by omega, ?_, fun k h1 h2 => by omega⟩
      by_cases h0 : Int.tmod m_vol (a00 + 1) = 0
      · exact Or.inl h0
      · right
        by_contra hle
        exact hc ⟨h0, by omega⟩

theorem tmod_eq_zero_iff_dvd {q k : Int} (hq : 0 ≤ q) (hk : 0 < k) :
    Int.tmod q k = 0 ↔ k ∣ q := by
  rw [Int.tmod_eq_emod hq (le_of_lt hk)]
  exact Int.dvd_iff_emod_eq_zero.symm

theorem tdiv_mul_left {a b : Int} (ha : 0 < a) (hb : 0 ≤ b) : Int.tdiv (a * b) a = b := by
  rw [Int.tdiv_eq_ediv (mul_nonneg (le_of_lt ha) hb) (le_of_lt ha)]
  exact Int.mul_ediv_cancel_left b (ne_of_gt ha)

theorem no_divisor_11 (it : SupercellIterator UnitType)
    (hq : Int.tdiv it.m_vol it.m_current.a00 = it.m_current.a11 * it.m_current.a22)
    (h11 : 1 ≤ it.m_current.a11)
    (hqpos : 0 < it.m_current.a11 * it.m_current.a22)
    (hqv : it.m_current.a11 * it.m_current.a22 ≤ it.m_vol)
    (c4 : ¬ increment_11 it.m_vol it.m_current.a00 (it.m_vol - it.m_current.a11).toNat
      it.m_current.a11 ≤ it.m_vol) :
    ∀ k, it.m_current.a11 < k → ¬ k ∣ it.m_current.a11 * it.m_current.a22 := by
  obtain ⟨s1, s2, s3⟩ := increment_11_spec it.m_vol it.m_current.a00
    (it.m_vol - it.m_current.a11).toNat it.m_current.a11 le_rfl
  rw [hq] at s3
  intro k hk hkd
  by_cases hkm : k < increment_11 it.m_vol it.m_current.a00
      (it.m_vol - it.m_current.a11).toNat it.m_current.a11
  · exact (s3 k hk hkm).1 ((tmod_eq_zero_iff_dvd (le_of_lt hqpos) (by omega)).2 hkd)
  · have := Int.le_of_dvd hqpos hkd
    omega

theorem try_increment_rawStep (it : SupercellIterator UnitType)
    (h : WellFormed it.m_vol it.m_current) :
    RawStep it.m_vol it.m_current (_try_increment it).m_vol (_try_increment it).m_current := by
  obtain ⟨hv, ⟨h10, h20, h21, h00, h11, h22, h12l, h12u, h02l, h02u, h01l, h01u⟩, hdet⟩ := h
  simp only [_try_increment]
  split_ifs with c1 c2 c3 c4 c5
  · exact RawStep.inc12 (by omega)
  · exact RawStep.inc02 (by omega) (by omega)
  · exact RawStep.inc01 (by omega) (by omega) (by omega)
  · have hq : Int.tdiv it.m_vol it.m_current.a00 = it.m_current.a11 * it.m_current.a22 := by
      rw [← hdet, mul_assoc]; exact tdiv_mul_left (by omega) (by positivity)
    obtain ⟨s1, s2, s3⟩ := increment_11_spec it.m_vol it.m_current.a00
      (it.m_vol - it.m_current.a11).toNat it.m_current.a11 le_rfl
    generalize increment_11 it.m_vol it.m_current.a00
      (it.m_vol - it.m_current.a11).toNat it.m_current.a11 = m at c4 s1 s2 s3 ⊢
    rw [hq] at s2 s3
    have hqpos : 0 < it.m_current.a11 * it.m_current.a22 := by positivity
    have hm : 0 < m := by omega
    have hdvd : m ∣ it.m_current.a11 * it.m_current.a22 := by
      rcases s2 with s2 | s2
      · exact (tmod_eq_zero_iff_dvd (le_of_lt hqpos) hm).1 s2
      · omega
    obtain ⟨t, ht⟩ := hdvd
    have htpos : 0 < t := by
      rw [ht] at hqpos
      exact pos_of_mul_pos_right hqpos (le_of_lt hm)
    have hdiv : Int.tdiv it.m_vol (it.m_current.a00 * m) = t := by
      have : it.m_vol = (it.m_current.a00 * m) * t := by rw [← hdet, mul_assoc, ht, mul_assoc]
      rw [this]; exact tdiv_mul_left (by positivity) (le_of_lt htpos)
    rw [hdiv]
    exact RawStep.inc11 m t (by omega) (by omega) (by omega) s1 htpos ht.symm
      (fun k hk1 hk2 hkd => (s3 k hk1 hk2).1
        ((tmod_eq_zero_iff_dvd (le_of_lt hqpos) (by omega)).2 hkd))
  · have hq : Int.tdiv it.m_vol it.m_current.a00 = it.m_current.a11 * it.m_current.a22 := by
      rw [← hdet, mul_assoc]; exact tdiv_mul_left (by omega) (by positivity)
    have hqpos : 0 < it.m_current.a11 * it.m_current.a22 := by positivity
    have hqv : it.m_current.a11 * it.m_current.a22 ≤ it.m_vol := by
      rw [← hdet, mul_assoc]; exact le_mul_of_one_le_left (le_of_lt hqpos) h00
    have hnodiv := no_divisor_11 it hq h11 hqpos hqv c4
    obtain ⟨s1, s2, s3⟩ := increment_00_spec it.m_vol
      (it.m_vol - it.m_current.a00).toNat it.m_current.a00 le_rfl
    generalize increment_00 it.m_vol (it.m_vol - it.m_current.a00).toNat it.m_current.a00 = m
      at c5 s1 s2 s3 ⊢
    have hm : 0 < m := by omega
    have hdvd : m ∣ it.m_vol := by
      rcases s2 with s2 | s2
      · exact (tmod_eq_zero_iff_dvd (by omega) hm).1 s2
      · omega
    obtain ⟨t, ht⟩ := hdvd
    have htpos : 0 < t := by
      have : 0 < m * t := by omega
      exact pos_of_mul_pos_right this (le_of_lt hm)
    have hdiv : Int.tdiv it.m_vol (m * 1) = t := by
      rw [mul_one, ht]; exact tdiv_mul_left hm (le_of_lt htpos)
    rw [hdiv]
    exact RawStep.inc00 m t (by omega) (by omega) (by omega) hnodiv s1 htpos ht.symm
      (fun k hk1 hk2 hkd => (s3 k hk1 hk2).1 ((tmod_eq_zero_iff_dvd (by omega) (by omega)).2 hkd))
  · have hqpos : 0 < it.m_current.a11 * it.m_current.a22 := by positivity
    have hqv : it.m_current.a11 * it.m_current.a22 ≤ it.m_vol := by
      rw [← hdet, mul_assoc]; exact le_mul_of_one_le_left (le_of_lt hqpos) h00
    obtain ⟨s1, s2, s3⟩ := increment_00_spec it.m_vol
      (it.m_vol - it.m_current.a00).toNat it.m_current.a00 le_rfl
    have ha00 : it.m_current.a00 ≤ it.m_vol := by
      rw [← hdet, mul_assoc]; exact le_mul_of_one_le_right (by omega) hqpos
    have ha00v : it.m_current.a00 = it.m_vol := by
      by_contra hne
      have hlt : it.m_current.a00 < it.m_vol := lt_of_le_of_ne ha00 hne
      exact (s3 it.m_vol hlt (by omega)).1
        ((tmod_eq_zero_iff_dvd (by omega) (by omega)).2 (dvd_refl _))
    have hq1 : it.m_current.a11 * it.m_current.a22 = 1 := by
      have h1 : it.m_current.a00 * (it.m_current.a11 * it.m_current.a22) = it.m_current.a00 * 1 := by
        rw [← mul_assoc, hdet, mul_one, ha00v]
      exact Int.eq_of_mul_eq_mul_left (by omega) h1
    have h11e : it.m_current.a11 = 1 := by
      by_contra hne
      have : 2 ≤ it.m_current.a11 := by omega
      nlinarith
    have h22e : it.m_current.a22 = 1 := by rw [h11e, one_mul] at hq1; exact hq1
    have hM : it.m_current
        = ⟨it.m_vol, it.m_vol - 1, it.m_vol - 1, 0, 1, 0, 0, 0, 1⟩ := by
      cases hc : it.m_current
      rw [hc] at h10 h20 h21 h12l h12u h02l h02u h01l h01u c1 c2 c3 ha00v h11e h22e
      simp only [Matrix3i.mk.injEq] at *
      omega
    convert RawStep.incvol hM using 2


theorem try_increment_m_enum (it : SupercellIterator UnitType) :
    (_try_increment it).m_enum = it.m_enum := by
  simp only [_try_increment]
  split_ifs <;> rfl

theorem try_increment_m_super_updated (it : SupercellIterator UnitType) :
    (_try_increment it).m_super_updated = it.m_super_updated := by
  simp only [_try_increment]
  split_ifs <;> rfl

theorem try_increment_m_super (it : SupercellIterator UnitType) :
    (_try_increment it).m_super = it.m_super := by
  simp only [_try_increment]
  split_ifs <;> rfl

theorem WellFormed.a00_le {v : Int} {M : Matrix3i} (h : WellFormed v M) : M.a00 ≤ v := by
  obtain ⟨hv, ⟨h10, h20, h21, h00, h11, h22, -⟩, hdet⟩ := h
  have hq : 0 < M.a11 * M.a22 := mul_pos (by omega) (by omega)
  rw [← hdet, mul_assoc]
  exact le_mul_of_one_le_right (by omega) hq

theorem WellFormed.a11_le {v : Int} {M : Matrix3i} (h : WellFormed v M) : M.a11 ≤ v := by
  obtain ⟨hv, ⟨h10, h20, h21, h00, h11, h22, -⟩, hdet⟩ := h
  have hq : 0 < M.a00 * M.a22 := mul_pos (by omega) (by omega)
  have : M.a11 * (M.a00 * M.a22) = v := by rw [← hdet]; ring
  rw [← this]
  exact le_mul_of_one_le_right (by omega) hq

theorem WellFormed.det_eq {v : Int} {M : Matrix3i} (h : WellFormed v M) : M.det = v := by
  obtain ⟨hv, ⟨h10, h20, h21, -⟩, hdet⟩ := h
  simp only [Matrix3i.det, h10, h20, h21]
  rw [← hdet]; ring

theorem RawStep.wellFormed {v v' : Int} {M M' : Matrix3i} (hs : RawStep v M v' M')
    (h : WellFormed v M) : WellFormed v' M' := by
  obtain ⟨hv, ⟨h10, h20, h21, h00, h11, h22, h12l, h12u, h02l, h02u, h01l, h01u⟩, hdet⟩ := h
  cases hs with
  | inc12 c =>
    exact ⟨hv, ⟨h10, h20, h21, h00, h11, h22, by simp only; omega, by simp only; omega,
      h02l, h02u, h01l, h01u⟩, hdet⟩
  | inc02 c1 c2 =>
    exact ⟨hv, ⟨h10, h20, h21, h00, h11, h22, le_refl _, by simp only; omega,
      by simp only; omega, by simp only; omega, h01l, h01u⟩, hdet⟩
  | inc01 c1 c2 c3 =>
    exact ⟨hv, ⟨h10, h20, h21, h00, h11, h22, le_refl _, by simp only; omega,
      le_refl _, by simp only; omega, by simp only; omega, by simp only; omega⟩, hdet⟩
  | inc11 m t c1 c2 c3 hm ht hmt hmin =>
    refine ⟨hv, ⟨h10, h20, h21, h00, by simp only; omega, ht, le_refl _, by simp only; omega,
      le_refl _, by simp only; omega, le_refl _, by simp only; omega⟩, ?_⟩
    simp only
    rw [mul_assoc, hmt, ← mul_assoc, hdet]
  | inc00 m t c1 c2 c3 hno hm ht hmt hmin =>
    refine ⟨hv, ⟨h10, h20, h21, by simp only; omega, le_refl _, ht, le_refl _,
      by simp only; omega, le_refl _, by simp only; omega, le_refl _, by simp only; omega⟩, ?_⟩
    simp only
    rw [mul_one, hmt]
  | incvol hM =>
    refine ⟨by omega, ⟨rfl, rfl, rfl, le_refl _, le_refl _, by simp only; omega, le_refl _,
      by simp only; omega, le_refl _, by simp only; omega, le_refl _, by simp only; omega⟩, ?_⟩
    simp only
    ring

theorem RawStep.vol_cases {v v' : Int} {M M' : Matrix3i} (hs : RawStep v M v' M') :
    v' = v ∨ (v' = v + 1 ∧ M = last_hnf v ∧ M' = first_hnf (v + 1)) := by
  cases hs with
  | incvol hM => exact Or.inr ⟨rfl, hM, rfl⟩
  | _ => exact Or.inl rfl

theorem RawStep.keyLt {v v' : Int} {M M' : Matrix3i} (hs : RawStep v M v' M')
    (h : WellFormed v M) (hvv : v' = v) : KeyLt M M' := by
  obtain ⟨hv, ⟨h10, h20, h21, h00, h11, h22, h12l, h12u, h02l, h02u, h01l, h01u⟩, hdet⟩ := h
  cases hs with
  | inc12 c => simp only [KeyLt, true_and]; omega
  | inc02 c1 c2 => simp only [KeyLt, true_and]; omega
  | inc01 c1 c2 c3 => simp only [KeyLt, true_and]; omega
  | inc11 m t c1 c2 c3 hm ht hmt hmin => simp only [KeyLt, true_and]; omega
  | inc00 m t c1 c2 c3 hno hm ht hmt hmin => simp only [KeyLt, true_and]; omega
  | incvol hM => omega

theorem WellFormed.quot_eq {v : Int} {M H : Matrix3i} (h : WellFormed v M) (hH : WellFormed v H)
    (h0 : M.a00 = H.a00) : M.a11 * M.a22 = H.a11 * H.a22 := by
  obtain ⟨-, ⟨-, -, -, h00, -⟩, hdet⟩ := h
  obtain ⟨-, -, hdetH⟩ := hH
  have : M.a00 * (M.a11 * M.a22) = M.a00 * (H.a11 * H.a22) := by
    rw [← mul_assoc, hdet, h0, ← mul_assoc, hdetH]
  exact Int.eq_of_mul_eq_mul_left (by omega) this

theorem WellFormed.eq_of_key {v : Int} {M H : Matrix3i} (h : WellFormed v M)
    (hH : WellFormed v H) (h00 : M.a00 = H.a00) (h11 : M.a11 = H.a11) (h01 : M.a01 = H.a01)
    (h02 : M.a02 = H.a02) (h12 : M.a12 = H.a12) : M = H := by
  have hq := h.quot_eq hH h00
  obtain ⟨-, ⟨m10, m20, m21, -, m11, -⟩, -⟩ := h
  obtain ⟨-, ⟨e10, e20, e21, -⟩, -⟩ := hH
  have h22 : M.a22 = H.a22 := by
    rw [h11] at hq
    exact Int.eq_of_mul_eq_mul_left (by omega) hq
  cases M; cases H
  simp only [Matrix3i.mk.injEq] at *
  omega

theorem RawStep.least {v v' : Int} {M M' H : Matrix3i} (hs : RawStep v M v' M')
    (h : WellFormed v M) (hH : WellFormed v H) (hlt : KeyLt M H) :
    v' = v ∧ (KeyLt M' H ∨ M' = H) := by
  have hM' := hs.wellFormed h
  have hq : M.a00 = H.a00 → M.a11 * M.a22 = H.a11 * H.a22 := h.quot_eq hH
  have hHa00 := hH.a00_le
  obtain ⟨hv, ⟨h10, h20, h21, h00, h11, h22, h12l, h12u, h02l, h02u, h01l, h01u⟩, hdet⟩ := h
  have hH' := hH
  obtain ⟨-, ⟨e10, e20, e21, e00, e11, e22, e12l, e12u, e02l, e02u, e01l, e01u⟩, edet⟩ := hH'
  suffices hkey : v' = v ∧ (KeyLt M' H ∨ (M'.a00 = H.a00 ∧ M'.a11 = H.a11 ∧ M'.a01 = H.a01 ∧
      M'.a02 = H.a02 ∧ M'.a12 = H.a12)) by
    obtain ⟨hvv, hk | ⟨k1, k2, k3, k4, k5⟩⟩ := hkey
    · exact ⟨hvv, Or.inl hk⟩
    · subst hvv
      exact ⟨rfl, Or.inr (hM'.eq_of_key hH k1 k2 k3 k4 k5)⟩
  simp only [KeyLt] at hlt
  cases hs with
  | inc12 c =>
    clear hq hHa00 hdet edet hM' h10 h20 h21 e10 e20 e21 h22 e22 hv
    refine ⟨rfl, ?_⟩
    simp only [KeyLt, true_and]
    rcases hlt with k | ⟨k0, k | ⟨k1, k | ⟨k2, k | ⟨k3, k⟩⟩⟩⟩ <;> omega
  | inc02 c1 c2 =>
    clear hq hHa00 hdet edet hM' h10 h20 h21 e10 e20 e21 h22 e22 hv
    refine ⟨rfl, ?_⟩
    simp only [KeyLt, true_and]
    rcases hlt with k | ⟨k0, k | ⟨k1, k | ⟨k2, k | ⟨k3, k⟩⟩⟩⟩ <;> omega
  | inc01 c1 c2 c3 =>
    clear hq hHa00 hdet edet hM' h10 h20 h21 e10 e20 e21 h22 e22 hv
    refine ⟨rfl, ?_⟩
    simp only [KeyLt, true_and]
    rcases hlt with k | ⟨k0, k | ⟨k1, k | ⟨k2, k | ⟨k3, k⟩⟩⟩⟩ <;> omega
  | inc11 m t c1 c2 c3 hm ht hmt hmin =>
    have key : M.a00 = H.a00 → M.a11 < H.a11 → m ≤ H.a11 := by
      intro k1 k2
      by_contra hlt'
      exact hmin H.a11 k2 (by omega) (by rw [hq k1]; exact dvd_mul_right _ _)
    clear hq hHa00 hdet edet hM' h10 h20 h21 e10 e20 e21 h22 e22 hv hmin hmt
    refine ⟨rfl, ?_⟩
    simp only [KeyLt, true_and]
    rcases hlt with k | ⟨k0, k | ⟨k1, k | ⟨k2, k | ⟨k3, k⟩⟩⟩⟩ <;> omega
  | inc00 m t c1 c2 c3 hno hm ht hmt hmin =>
    have key1 : M.a00 < H.a00 → m ≤ H.a00 := by
      intro k1
      by_contra hlt'
      exact hmin H.a00 k1 (by omega) (by rw [← edet, mul_assoc]; exact dvd_mul_right _ _)
    have key2 : M.a00 = H.a00 → ¬ M.a11 < H.a11 := by
      intro k1 k2
      exact hno H.a11 k2 (by rw [hq k1]; exact dvd_mul_right _ _)
    clear hq hHa00 hdet edet hM' h10 h20 h21 e10 e20 e21 h22 e22 hmin hmt hno
    refine ⟨rfl, ?_⟩
    simp only [KeyLt, true_and]
    rcases hlt with k | ⟨k0, k | ⟨k1, k | ⟨k2, k | ⟨k3, k⟩⟩⟩⟩ <;> omega
  | incvol hM =>
    subst hM
    simp only at hlt hq
    have key : H.a00 = v → H.a11 ≤ 1 := by
      intro k1
      have h1 := hq k1.symm
      by_contra hc
      have : 2 ≤ H.a11 := by omega
      nlinarith
    omega

theorem lex_step {x x' y y' B : Int} (hx : x < x') (hy0 : 0 ≤ y) (hy : y < B) (hy' : 0 ≤ y') :
    x * B + y < x' * B + y' := by
  have h1 : (x + 1) * B ≤ x' * B := mul_le_mul_of_nonneg_right (by omega) (by omega)
  have : (x + 1) * B = x * B + B := by ring
  omega

theorem rank_lt_of_keyLt {v : Int} {M H : Matrix3i} (h : WellFormed v M) (hH : WellFormed v H)
    (hlt : KeyLt M H) : rank v M < rank v H := by
  have m00 := h.a00_le
  have m11 := h.a11_le
  obtain ⟨hv, ⟨-, -, -, h00, h11, -, h12l, h12u, h02l, h02u, h01l, h01u⟩, -⟩ := h
  obtain ⟨-, ⟨-, -, -, e00, e11, -, e12l, e12u, e02l, e02u, e01l, e01u⟩, -⟩ := hH
  simp only [rank]
  rcases hlt with k | ⟨k0, k | ⟨k1, k | ⟨k2, k | ⟨k3, k⟩⟩⟩⟩
  · exact lex_step (lex_step (lex_step (lex_step k (by omega) (by omega) (by omega)) h01l
      (by omega) e01l) h02l (by omega) e02l) h12l (by omega) e12l
  · rw [k0]
    exact lex_step (lex_step (lex_step (by omega) h01l (by omega) e01l) h02l (by omega) e02l)
      h12l (by omega) e12l
  · rw [k0, k1]
    exact lex_step (lex_step (by omega) h02l (by omega) e02l) h12l (by omega) e12l
  · rw [k0, k1, k2]
    exact lex_step (by omega) h12l (by omega) e12l
  · rw [k0, k1, k2, k3]
    omega

theorem first_hnf_wellFormed {v : Int} (hv : 1 ≤ v) : WellFormed v (first_hnf v) := by
  refine ⟨hv, ⟨rfl, rfl, rfl, le_refl _, le_refl _, hv, le_refl _, ?_, le_refl _, ?_, le_refl _,
    ?_⟩, ?_⟩ <;> simp [first_hnf, Matrix3i.Identity]

theorem last_hnf_wellFormed {v : Int} (hv : 1 ≤ v) : WellFormed v (last_hnf v) := by
  refine ⟨hv, ⟨rfl, rfl, rfl, hv, le_refl _, le_refl _, le_refl _, ?_, ?_, ?_, ?_, ?_⟩, ?_⟩ <;>
    simp [last_hnf] <;> omega

theorem first_hnf_least {v : Int} {H : Matrix3i} (hH : WellFormed v H) :
    H = first_hnf v ∨ KeyLt (first_hnf v) H := by
  have hF := first_hnf_wellFormed hH.1
  by_cases hk : KeyLt (first_hnf v) H
  · exact Or.inr hk
  · left
    obtain ⟨-, ⟨-, -, -, e00, e11, -, e12l, e12u, e02l, e02u, e01l, e01u⟩, -⟩ := id hH
    simp only [KeyLt, first_hnf, Matrix3i.Identity] at hk
    refine hH.eq_of_key hF ?_ ?_ ?_ ?_ ?_ <;> simp only [first_hnf, Matrix3i.Identity] <;> omega

theorem last_hnf_greatest {v : Int} {H : Matrix3i} (hH : WellFormed v H) :
    H = last_hnf v ∨ KeyLt H (last_hnf v) := by
  have hL := last_hnf_wellFormed hH.1
  have h0 := hH.a00_le
  have hq := hH.quot_eq hL
  by_cases hk : KeyLt H (last_hnf v)
  · exact Or.inr hk
  · left
    obtain ⟨-, ⟨-, -, -, e00, e11, e22, e12l, e12u, e02l, e02u, e01l, e01u⟩, -⟩ := id hH
    simp only [KeyLt, last_hnf] at hk hq
    have key : H.a00 = v → H.a11 ≤ 1 := by
      intro k1
      have h1 := hq k1
      by_contra hc
      have : 2 ≤ H.a11 := by omega
      nlinarith
    refine hH.eq_of_key hL ?_ ?_ ?_ ?_ ?_ <;> simp only [last_hnf] <;> omega

theorem rank_le_last {v : Int} {H : Matrix3i} (hH : WellFormed v H) :
    rank v H ≤ rank v (last_hnf v) := by
  rcases last_hnf_greatest hH with h | h
  · rw [h]
  · exact le_of_lt (rank_lt_of_keyLt hH (last_hnf_wellFormed hH.1) h)

theorem try_increment_step (it : SupercellIterator UnitType) {v : Int} (hv : it.m_vol = v)
    (h : WellFormed v it.m_current) :
    RawStep v it.m_current (_try_increment it).m_vol (_try_increment it).m_current := by
  subst hv
  exact try_increment_rawStep it h

/-- The raw walk from a well-formed position of volume `v`: it stays in volume `v` for `n - 1`
steps, along which the rank strictly increases, visits every HNF of volume `v` that is not
before the position, and its `n`-th step arrives at `diag(1, 1, v + 1)` in volume `v + 1`. -/
theorem raw_walk_from (v : Int) : ∀ (d : Nat) (it : SupercellIterator UnitType),
    it.m_vol = v → WellFormed v it.m_current →
    (rank v (last_hnf v) - rank v it.m_current).toNat ≤ d →
    ∃ n : Nat, 1 ≤ n ∧
      (∀ i, i < n → (_try_increment^[i] it).m_vol = v ∧
        WellFormed v (_try_increment^[i] it).m_current) ∧
      (∀ i j, i < j → j < n →
        rank v (_try_increment^[i] it).m_current < rank v (_try_increment^[j] it).m_current) ∧
      (_try_increment^[n] it).m_vol = v + 1 ∧
      (_try_increment^[n] it).m_current = first_hnf (v + 1) ∧
      (_try_increment^[n - 1] it).m_current = last_hnf v ∧
      ∀ H, WellFormed v H → (H = it.m_current ∨ KeyLt it.m_current H) →
        ∃ i, i < n ∧ (_try_increment^[i] it).m_current = H := by
  intro d
  induction d with
  | zero =>
    intro it hv h hd
    have hs := try_increment_step it hv h
    rcases hs.vol_cases with hsame | ⟨hnext, hM, hM'⟩
    · rw [hsame] at hs
      have := rank_lt_of_keyLt h (hs.wellFormed h) (hs.keyLt h rfl)
      have := rank_le_last (hs.wellFormed h)
      omega
    · refine ⟨1, le_refl _, ?_, ?_, hnext, hM', hM, ?_⟩
      · intro i hi
        obtain rfl : i = 0 := by omega
        exact ⟨hv, h⟩
      · intro i j hij hj
        omega
      · intro H hH hc
        rcases hc with hc | hc
        · exact ⟨0, by omega, hc.symm⟩
        · have := (hs.least h hH hc).1
          omega
  | succ d ih =>
    intro it hv h hd
    have hs := try_increment_step it hv h
    rcases hs.vol_cases with hsame | ⟨hnext, hM, hM'⟩
    · rw [hsame] at hs
      have hwf' := hs.wellFormed h
      have hlt := rank_lt_of_keyLt h hwf' (hs.keyLt h rfl)
      have hle := rank_le_last hwf'
      obtain ⟨n, hn1, hin, hmono, hvol, hcur, hlast, hreach⟩ :=
        ih (_try_increment it) hsame hwf' (by omega)
      have hge : ∀ j, j < n → rank v (_try_increment it).m_current
          ≤ rank v (_try_increment^[j] (_try_increment it)).m_current := by
        intro j hj
        rcases Nat.eq_zero_or_pos j with h0 | h0
        · subst h0; exact le_refl _
        · exact le_of_lt (hmono 0 j h0 hj)
      refine ⟨n + 1, by omega, ?_, ?_, ?_, ?_, ?_, ?_⟩
      · intro i hi
        cases i with
        | zero => exact ⟨hv, h⟩
        | succ k => exact hin k (by omega)
      · intro i j hij hj
        cases j with
        | zero => omega
        | succ j =>
          cases i with
          | zero =>
            have := hge j (by omega)
            simp only [Function.iterate_succ_apply, Function.iterate_zero, id]
            omega
          | succ i => exact hmono i j (by omega) (by omega)
      · exact hvol
      · exact hcur
      · have : n + 1 - 1 = (n - 1) + 1 := by omega
        rw [this]
        exact hlast
      · intro H hH hc
        rcases hc with hc | hc
        · exact ⟨0, by omega, hc.symm⟩
        · rcases (hs.least h hH hc).2 with h2 | h2
          · obtain ⟨i, hi, he⟩ := hreach H hH (Or.inr h2)
            exact ⟨i + 1, by omega, he⟩
          · obtain ⟨i, hi, he⟩ := hreach H hH (Or.inl h2.symm)
            exact ⟨i + 1, by omega, he⟩
    · refine ⟨1, le_refl _, ?_, ?_, hnext, hM', hM, ?_⟩
      · intro i hi
        obtain rfl : i = 0 := by omega
        exact ⟨hv, h⟩
      · intro i j hij hj
        omega
      · intro H hH hc
        rcases hc with hc | hc
        · exact ⟨0, by omega, hc.symm⟩
        · have := (hs.least h hH hc).1
          omega

theorem wellFormed_iff_isHNF_det {v : Int} (hv : 1 ≤ v) (H : Matrix3i) :
    WellFormed v H ↔ IsHNF H ∧ H.det = v := by
  constructor
  · intro h
    exact ⟨h.2.1, h.det_eq⟩
  · rintro ⟨h, hd⟩
    refine ⟨hv, h, ?_⟩
    obtain ⟨h10, h20, h21, -⟩ := h
    simp only [Matrix3i.det, h10, h20, h21] at hd
    rw [← hd]; ring

theorem try_increment_iterate_wellFormed (it : SupercellIterator UnitType)
    (h : WellFormed it.m_vol it.m_current) (n : Nat) :
    WellFormed (_try_increment^[n] it).m_vol (_try_increment^[n] it).m_current := by
  induction n with
  | zero => exact h
  | succ k ih =>
    rw [Function.iterate_succ_apply']
    exact (try_increment_rawStep _ ih).wellFormed ih

/-- C1: one raw step `_try_increment` maps a well-formed position (volume `v >= 1`, matrix a
3x3 HNF whose diagonal multiplies to `v`) to a well-formed position whose determinant is its
volume; hence every position reached by raw steps from the constructor's start
`diag(1, 1, v)`, `v >= 1`, is a well-formed HNF with `det M = volume`. -/
theorem C1_try_increment_preserves_hnf (it : SupercellIterator UnitType)
    (h : WellFormed it.m_vol it.m_current) :
    (WellFormed (_try_increment it).m_vol (_try_increment it).m_current ∧
      (_try_increment it).m_current.det = (_try_increment it).m_vol) ∧
    (∀ (s : SupercellIterator UnitType), 1 ≤ s.m_vol →
      s.m_current = { Matrix3i.Identity with a22 := s.m_vol } → ∀ n : Nat,
        WellFormed (_try_increment^[n] s).m_vol (_try_increment^[n] s).m_current ∧
        (_try_increment^[n] s).m_current.det = (_try_increment^[n] s).m_vol) := by
  have h1 := (try_increment_rawStep it h).wellFormed h
  refine ⟨⟨h1, h1.det_eq⟩, ?_⟩
  intro s hs hc n
  have h0 : WellFormed s.m_vol s.m_current := by
    rw [hc]; exact first_hnf_wellFormed hs
  have hn := try_increment_iterate_wellFormed s h0 n
  exact ⟨hn, hn.det_eq⟩

/-- Witness of C1 at the position `(2, diag(1, 1, 2))`. -/
theorem C1_witness :
    (WellFormed
        (_try_increment (⟨false, ⟨0, (), [], 1, 3⟩, 2, ⟨1, 0, 0, 0, 1, 0, 0, 0, 2⟩, ()⟩ :
          SupercellIterator Unit)).m_vol
        (_try_increment (⟨false, ⟨0, (), [], 1, 3⟩, 2, ⟨1, 0, 0, 0, 1, 0, 0, 0, 2⟩, ()⟩ :
          SupercellIterator Unit)).m_current ∧
      (_try_increment (⟨false, ⟨0, (), [], 1, 3⟩, 2, ⟨1, 0, 0, 0, 1, 0, 0, 0, 2⟩, ()⟩ :
          SupercellIterator Unit)).m_current.det
        = (_try_increment (⟨false, ⟨0, (), [], 1, 3⟩, 2, ⟨1, 0, 0, 0, 1, 0, 0, 0, 2⟩, ()⟩ :
          SupercellIterator Unit)).m_vol) ∧
    (∀ (s : SupercellIterator Unit), 1 ≤ s.m_vol →
      s.m_current = { Matrix3i.Identity with a22 := s.m_vol } → ∀ n : Nat,
        WellFormed (_try_increment^[n] s).m_vol (_try_increment^[n] s).m_current ∧
        (_try_increment^[n] s).m_current.det = (_try_increment^[n] s).m_vol) :=
  C1_try_increment_preserves_hnf
    (⟨false, ⟨0, (), [], 1, 3⟩, 2, ⟨1, 0, 0, 0, 1, 0, 0, 0, 2⟩, ()⟩ : SupercellIterator Unit)
    (by decide)

/-- C2: for every volume `v >= 1` the raw walk from `diag(1, 1, v)` stays in volume `v` for
some `n` positions, these positions are exactly the 3x3 HNFs of determinant `v`, each visited
once, and the raw step from the last of them arrives at `(v + 1, diag(1, 1, v + 1))`. -/
theorem C2_raw_walk_enumerates_hnfs (v : Int) (hv : 1 ≤ v) (it : SupercellIterator UnitType)
    (hvol : it.m_vol = v) (hcur : it.m_current = { Matrix3i.Identity with a22 := v }) :
    ∃ n : Nat, 1 ≤ n ∧
      (∀ i, i < n → (_try_increment^[i] it).m_vol = v) ∧
      (∀ H, (IsHNF H ∧ H.det = v) ↔ ∃ i, i < n ∧ (_try_increment^[i] it).m_current = H) ∧
      (∀ i j, i < n → j < n →
        (_try_increment^[i] it).m_current = (_try_increment^[j] it).m_current → i = j) ∧
      (_try_increment^[n] it).m_vol = v + 1 ∧
      (_try_increment^[n] it).m_current = { Matrix3i.Identity with a22 := v + 1 } := by
  have h0 : WellFormed v it.m_current := by rw [hcur]; exact first_hnf_wellFormed hv
  obtain ⟨n, hn1, hin, hmono, hnv, hnc, -, hreach⟩ := raw_walk_from v _ it hvol h0 le_rfl
  refine ⟨n, hn1, fun i hi => (hin i hi).1, ?_, ?_, hnv, hnc⟩
  · intro H
    rw [← wellFormed_iff_isHNF_det hv]
    constructor
    · intro hH
      refine hreach H hH ?_
      rw [hcur]
      exact first_hnf_least hH
    · rintro ⟨i, hi, rfl⟩
      exact (hin i hi).2
  · intro i j hi hj he
    rcases lt_trichotomy i j with hlt | heq | hgt
    · have := hmono i j hlt hj
      rw [he] at this
      omega
    · exact heq
    · have := hmono j i hgt hi
      rw [he] at this
      omega

/-- Witness of C2 at volume 2. -/
theorem C2_witness :
    ∃ n : Nat, 1 ≤ n ∧
      (∀ i, i < n → (_try_increment^[i]
        (⟨false, ⟨0, (), [], 1, 3⟩, 2, ⟨1, 0, 0, 0, 1, 0, 0, 0, 2⟩, ()⟩ :
          SupercellIterator Unit)).m_vol = 2) ∧
      (∀ H, (IsHNF H ∧ H.det = 2) ↔ ∃ i, i < n ∧ (_try_increment^[i]
        (⟨false, ⟨0, (), [], 1, 3⟩, 2, ⟨1, 0, 0, 0, 1, 0, 0, 0, 2⟩, ()⟩ :
          SupercellIterator Unit)).m_current = H) ∧
      (∀ i j, i < n → j < n →
        (_try_increment^[i] (⟨false, ⟨0, (), [], 1, 3⟩, 2, ⟨1, 0, 0, 0, 1, 0, 0, 0, 2⟩, ()⟩ :
          SupercellIterator Unit)).m_current
        = (_try_increment^[j] (⟨false, ⟨0, (), [], 1, 3⟩, 2, ⟨1, 0, 0, 0, 1, 0, 0, 0, 2⟩, ()⟩ :
          SupercellIterator Unit)).m_current → i = j) ∧
      (_try_increment^[n] (⟨false, ⟨0, (), [], 1, 3⟩, 2, ⟨1, 0, 0, 0, 1, 0, 0, 0, 2⟩, ()⟩ :
          SupercellIterator Unit)).m_vol = 2 + 1 ∧
      (_try_increment^[n] (⟨false, ⟨0, (), [], 1, 3⟩, 2, ⟨1, 0, 0, 0, 1, 0, 0, 0, 2⟩, ()⟩ :
          SupercellIterator Unit)).m_current = { Matrix3i.Identity with a22 := 2 + 1 } :=
  C2_raw_walk_enumerates_hnfs 2 (by decide)
    (⟨false, ⟨0, (), [], 1, 3⟩, 2, ⟨1, 0, 0, 0, 1, 0, 0, 0, 2⟩, ()⟩ : SupercellIterator Unit)
    rfl rfl

theorem returns_false_level (x y : Int) (b : Bool) :
    (if x > y then true else if x < y then false else b) = true ↔ (y < x ∨ (y = x ∧ b = true)) := by
  rcases lt_trichotomy x y with h | h | h
  · have h1 : ¬ x > y := by omega
    rw [if_neg h1, if_pos h]
    constructor
    · intro h2; exact absurd h2 Bool.false_ne_true
    · intro h2; omega
  · subst h
    rw [if_neg (lt_irrefl x), if_neg (lt_irrefl x)]
    constructor
    · intro h2; exact Or.inr ⟨rfl, h2⟩
    · rintro (h2 | h2)
      · omega
      · exact h2.2
  · rw [if_pos h]
    constructor
    · intro _; exact Or.inl h
    · intro _; rfl

theorem returns_false_last (x y : Int) :
    (if x > y then true else false) = true ↔ y < x := by
  by_cases h : x > y
  · rw [if_pos h]; exact ⟨fun _ => h, fun _ => rfl⟩
  · rw [if_neg h]; exact ⟨fun h2 => absurd h2 Bool.false_ne_true, fun h2 => absurd h2 h⟩

theorem returns_false_iff (H M : Matrix3i) :
    _is_canonical.returns_false H M = true ↔ CanonLt M H := by
  unfold _is_canonical.returns_false CanonLt
  rw [returns_false_level, returns_false_level, returns_false_level, returns_false_level,
    returns_false_level, returns_false_last]

theorem is_canonical_loop_eq_false_iff (hnf : Matrix3i → Matrix3i × Matrix3i) (M : Matrix3i)
    (ops : List Matrix3i) :
    _is_canonical.loop hnf M ops = false ↔ ∃ op ∈ ops, CanonLt M (image hnf op M) := by
  induction ops with
  | nil => simp [_is_canonical.loop]
  | cons op rest ih =>
    simp only [_is_canonical.loop, List.mem_cons, exists_eq_or_imp]
    by_cases h : _is_canonical.returns_false (hnf (op.mul M)).1 M = true
    · simp only [h, if_true, true_iff]
      exact Or.inl ((returns_false_iff _ _).1 h)
    · simp only [h, if_false, Bool.false_eq_true]
      rw [ih]
      constructor
      · exact fun hx => Or.inr hx
      · rintro (hx | hx)
        · exact absurd ((returns_false_iff _ _).2 hx) h
        · exact hx

theorem is_canonical_loop_eq_true_iff (hnf : Matrix3i → Matrix3i × Matrix3i) (M : Matrix3i)
    (ops : List Matrix3i) :
    _is_canonical.loop hnf M ops = true ↔ ∀ op ∈ ops, ¬ CanonLt M (image hnf op M) := by
  rw [← Bool.not_eq_false, is_canonical_loop_eq_false_iff]
  push_neg
  rfl

theorem is_canonical_eq_false_iff (hnf : Matrix3i → Matrix3i × Matrix3i)
    (it : SupercellIterator UnitType) :
    _is_canonical hnf it = false ↔
      ∃ op ∈ it.m_enum.point_group, CanonLt it.m_current (image hnf op it.m_current) :=
  is_canonical_loop_eq_false_iff hnf _ _

theorem is_canonical_eq_true_iff (hnf : Matrix3i → Matrix3i × Matrix3i)
    (it : SupercellIterator UnitType) :
    _is_canonical hnf it = true ↔
      ∀ op ∈ it.m_enum.point_group, ¬ CanonLt it.m_current (image hnf op it.m_current) :=
  is_canonical_loop_eq_true_iff hnf _ _

theorem increment_find (hnf : Matrix3i → Matrix3i × Matrix3i) : ∀ (k : Nat)
    (it : SupercellIterator UnitType) (fuel : Nat), k + 1 ≤ fuel →
    (∀ j, 1 ≤ j → j < k + 1 → _is_canonical hnf (_try_increment^[j] it) = false) →
    _is_canonical hnf (_try_increment^[k + 1] it) = true →
    _increment hnf fuel it = some (_try_increment^[k + 1] it).unflag := by
  intro k
  induction k with
  | zero =>
    intro it fuel hf _ hc
    obtain ⟨f, rfl⟩ : ∃ f, fuel = f + 1 := ⟨fuel - 1, by omega⟩
    simp only [Function.iterate_succ_apply, Function.iterate_zero, id, zero_add] at hc
    simp only [_increment, hc, Bool.not_true, Bool.false_eq_true, if_false, zero_add,
      Function.iterate_succ_apply, Function.iterate_zero, id]
    rfl
  | succ k ih =>
    intro it fuel hf hno hc
    obtain ⟨f, rfl⟩ : ∃ f, fuel = f + 1 := ⟨fuel - 1, by omega⟩
    have h1 : _is_canonical hnf (_try_increment it) = false := by
      have := hno 1 (le_refl _) (by omega)
      simpa using this
    have := ih (_try_increment it) f (by omega)
      (fun j hj1 hj2 => by
        have := hno (j + 1) (by omega) (by omega)
        rwa [Function.iterate_succ_apply] at this)
      (by rwa [Function.iterate_succ_apply] at hc)
    simp only [_increment, h1, Bool.not_false, if_true]
    rw [this, Function.iterate_succ_apply _ (k + 1)]

theorem canonLt_last_false {v : Int} {H : Matrix3i} (hH : WellFormed v H) :
    ¬ CanonLt (last_hnf v) H := by
  have h0 := hH.a00_le
  have hq := hH.quot_eq (last_hnf_wellFormed hH.1)
  obtain ⟨-, ⟨-, -, -, e00, e11, e22, e12l, e12u, e02l, e02u, e01l, e01u⟩, -⟩ := id hH
  simp only [last_hnf] at hq
  have key : H.a00 = v → H.a11 ≤ 1 ∧ H.a22 ≤ 1 := by
    intro k1
    have h1 := hq k1
    constructor
    · by_contra hc
      have : 2 ≤ H.a11 := by omega
      nlinarith
    · by_contra hc
      have : 2 ≤ H.a22 := by omega
      nlinarith
  simp only [CanonLt, last_hnf]
  omega

theorem last_hnf_canonical (hnf : Matrix3i → Matrix3i × Matrix3i)
    (it : SupercellIterator UnitType) {v : Int} (hv : 1 ≤ v)
    (hpre : ImagesWellFormed hnf it.m_enum.point_group v)
    (hcur : it.m_current = last_hnf v) : _is_canonical hnf it = true := by
  rw [is_canonical_eq_true_iff, hcur]
  intro op hop
  exact canonLt_last_false (hpre op hop _ (last_hnf_wellFormed hv))

theorem iterate_m_enum (it : SupercellIterator UnitType) (n : Nat) :
    (_try_increment^[n] it).m_enum = it.m_enum := by
  induction n with
  | zero => rfl
  | succ k ih => rw [Function.iterate_succ_apply', try_increment_m_enum, ih]

theorem exists_first_canonical (hnf : Matrix3i → Matrix3i × Matrix3i)
    (it : SupercellIterator UnitType) (K : Nat)
    (hK : _is_canonical hnf (_try_increment^[K + 1] it) = true) :
    ∃ k, k ≤ K ∧
      (∀ j, 1 ≤ j → j < k + 1 → _is_canonical hnf (_try_increment^[j] it) = false) ∧
      _is_canonical hnf (_try_increment^[k + 1] it) = true := by
  classical
  have hex : ∃ k, _is_canonical hnf (_try_increment^[k + 1] it) = true := ⟨K, hK⟩
  refine ⟨Nat.find hex, Nat.find_min' hex hK, ?_, Nat.find_spec hex⟩
  intro j hj1 hj2
  obtain ⟨m, rfl⟩ : ∃ m, j = m + 1 := ⟨j - 1, by omega⟩
  have := Nat.find_min hex (m := m) (by omega)
  simpa using this

/-- The advance from a well-formed position terminates: it stops after `k + 1` raw steps at the
first canonical position, which lies in the same volume unless the advance started from the last
matrix of the volume, in which case it lies in the next volume. -/
theorem advance_spec (hnf : Matrix3i → Matrix3i × Matrix3i) (it : SupercellIterator UnitType)
    {v : Int} (hvol : it.m_vol = v) (hwf : WellFormed v it.m_current)
    (hpre : ImagesWellFormed hnf it.m_enum.point_group v)
    (hpre' : ImagesWellFormed hnf it.m_enum.point_group (v + 1)) :
    ∃ k : Nat,
      (∀ fuel, k + 1 ≤ fuel → _increment hnf fuel it = some (_try_increment^[k + 1] it).unflag) ∧
      (∀ j, 1 ≤ j → j < k + 1 → _is_canonical hnf (_try_increment^[j] it) = false) ∧
      _is_canonical hnf (_try_increment^[k + 1] it) = true ∧
      WellFormed (_try_increment^[k + 1] it).m_vol (_try_increment^[k + 1] it).m_current ∧
      (∀ j, j ≤ k + 1 → (_try_increment^[j] it).m_vol = v ∨
        (it.m_current = last_hnf v ∧ 1 ≤ j ∧ (_try_increment^[j] it).m_vol = v + 1)) ∧
      (it.m_current ≠ last_hnf v → (_try_increment^[k + 1] it).m_vol = v) ∧
      (it.m_current = last_hnf v → (_try_increment^[k + 1] it).m_vol = v + 1) := by
  obtain ⟨n, hn1, hin, hmono, hnv, hnc, hlast, -⟩ := raw_walk_from v _ it hvol hwf le_rfl
  have hwfit : WellFormed it.m_vol it.m_current := by rw [hvol]; exact hwf
  rcases Nat.lt_or_ge 1 n with hn2 | hn2
  · -- the last matrix of the volume lies ahead
    have hne : it.m_current ≠ last_hnf v := by
      intro he
      have := hmono 0 (n - 1) (by omega) (by omega)
      rw [hlast] at this
      simp only [Function.iterate_zero, id, he] at this
      omega
    have hK : _is_canonical hnf (_try_increment^[(n - 2) + 1] it) = true := by
      have : n - 2 + 1 = n - 1 := by omega
      rw [this]
      exact last_hnf_canonical hnf _ hwf.1 (by rw [iterate_m_enum]; exact hpre) hlast
    obtain ⟨k, hk, hno, hc⟩ := exists_first_canonical hnf it (n - 2) hK
    refine ⟨k, fun fuel hf => increment_find hnf k it fuel hf hno hc, hno, hc,
      try_increment_iterate_wellFormed it hwfit _, ?_, ?_, ?_⟩
    · intro j hj
      exact Or.inl (hin j (by omega)).1
    · intro _
      exact (hin (k + 1) (by omega)).1
    · intro he
      exact absurd he hne
  · -- the advance starts from the last matrix of the volume
    obtain rfl : n = 1 := by omega
    have he : it.m_current = last_hnf v := hlast
    have hv1 : (_try_increment it).m_vol = v + 1 := hnv
    have hw1 : WellFormed (v + 1) (_try_increment it).m_current := by
      have : (_try_increment it).m_current = first_hnf (v + 1) := hnc
      rw [this]
      exact first_hnf_wellFormed (by have := hwf.1; omega)
    obtain ⟨n', hn1', hin', -, -, -, hlast', -⟩ :=
      raw_walk_from (v + 1) _ (_try_increment it) hv1 hw1 le_rfl
    have hK : _is_canonical hnf (_try_increment^[(n' - 1) + 1] it) = true := by
      rw [Function.iterate_succ_apply]
      refine last_hnf_canonical hnf _ hw1.1 ?_ hlast'
      rw [iterate_m_enum, try_increment_m_enum]
      exact hpre'
    obtain ⟨k, hk, hno, hc⟩ := exists_first_canonical hnf it (n' - 1) hK
    have hvolk : ∀ j, 1 ≤ j → j ≤ k + 1 → (_try_increment^[j] it).m_vol = v + 1 := by
      intro j hj1 hj2
      obtain ⟨m, rfl⟩ : ∃ m, j = m + 1 := ⟨j - 1, by omega⟩
      rw [Function.iterate_succ_apply]
      exact (hin' m (by omega)).1
    refine ⟨k, fun fuel hf => increment_find hnf k it fuel hf hno hc, hno, hc,
      try_increment_iterate_wellFormed it hwfit _, ?_, ?_, ?_⟩
    · intro j hj
      rcases Nat.eq_zero_or_pos j with h0 | h0
      · subst h0
        exact Or.inl hvol
      · exact Or.inr ⟨he, h0, hvolk j h0 hj⟩
    · intro hne
      exact absurd he hne
    · intro _
      exact hvolk (k + 1) (by omega) (le_refl _)

theorem Matrix3i.det_mul (A B : Matrix3i) : (A.mul B).det = A.det * B.det := by
  simp only [Matrix3i.mul, Matrix3i.det]
  ring

theorem Matrix3i.mul_assoc (A B C : Matrix3i) : (A.mul B).mul C = A.mul (B.mul C) := by
  simp only [Matrix3i.mul, Matrix3i.mk.injEq]
  refine ⟨?_, ?_, ?_, ?_, ?_, ?_, ?_, ?_, ?_⟩ <;> ring

theorem Matrix3i.identity_mul (A : Matrix3i) : Matrix3i.Identity.mul A = A := by
  cases A
  simp [Matrix3i.mul, Matrix3i.Identity]

theorem Matrix3i.mul_identity (A : Matrix3i) : A.mul Matrix3i.Identity = A := by
  cases A
  simp [Matrix3i.mul, Matrix3i.Identity]

theorem Matrix3i.det_identity : Matrix3i.Identity.det = 1 := by
  simp [Matrix3i.det, Matrix3i.Identity]

theorem IsHNF.det_pos {H : Matrix3i} (h : IsHNF H) : 0 < H.det := by
  obtain ⟨h10, h20, h21, h00, h11, h22, -⟩ := h
  simp only [Matrix3i.det, h10, h20, h21]
  have : 0 < H.a00 * (H.a11 * H.a22) := mul_pos (by omega) (mul_pos (by omega) (by omega))
  nlinarith

theorem imagesWellFormed_of_correct (hnf : Matrix3i → Matrix3i × Matrix3i)
    (ops : List Matrix3i) (huni : ∀ op ∈ ops, Unimodular op) (hcorr : HnfCorrectOn hnf ops)
    (v : Int) : ImagesWellFormed hnf ops v := by
  intro op hop M hM
  obtain ⟨hH, hV, hmul⟩ := hcorr op hop M hM.2.1
  have hdet : (image hnf op M).det = op.det * v * (hnf (op.mul M)).2.det := by
    unfold image
    rw [← hmul, Matrix3i.det_mul, Matrix3i.det_mul, hM.det_eq]
  have hpos : 0 < (image hnf op M).det := IsHNF.det_pos hH
  have hv := hM.1
  refine (wellFormed_iff_isHNF_det hv _).2 ⟨hH, ?_⟩
  rw [hdet] at hpos ⊢
  rcases huni op hop with h1 | h1 <;> rcases hV with h2 | h2 <;> rw [h1, h2] at hpos ⊢ <;>
    linarith

theorem Matrix3i.add_col_zero (i c : Fin 3) (h : i ≠ c) :
    Matrix3i.add_col i c 0 = Matrix3i.Identity := by
  fin_cases i <;> fin_cases c <;> first | exact absurd rfl h | rfl

theorem hermite_normal_form.clear_left_skip (i c : Fin 3) (H V : Matrix3i)
    (h : H.get i c = 0) : hermite_normal_form.clear_left i c (H, V) = (H, V) := by
  simp only [hermite_normal_form.clear_left, hermite_normal_form.eliminate]
  rw [if_pos h]

theorem hermite_normal_form.positive_skip (i : Fin 3) (H V : Matrix3i)
    (h : 0 ≤ H.get i i) : hermite_normal_form.positive i (H, V) = (H, V) := by
  unfold hermite_normal_form.positive
  rw [if_neg (by simp only; omega)]

theorem hermite_normal_form.reduce_skip (r c : Fin 3) (H V : Matrix3i) (hrc : r ≠ c)
    (h0 : 0 ≤ H.get r c) (h1 : H.get r c < H.get r r) :
    hermite_normal_form.reduce r c (H, V) = (H, V) := by
  unfold hermite_normal_form.reduce
  simp only
  rw [Int.ediv_eq_zero_of_lt h0 h1, neg_zero, Matrix3i.add_col_zero r c hrc,
    Matrix3i.mul_identity, Matrix3i.mul_identity]

theorem hermite_normal_form_of_isHNF {M : Matrix3i} (h : IsHNF M) :
    hermite_normal_form M = (M, Matrix3i.Identity) := by
  obtain ⟨h10, h20, h21, h00, h11, h22, h12l, h12u, h02l, h02u, h01l, h01u⟩ := h
  unfold hermite_normal_form
  rw [hermite_normal_form.clear_left_skip 2 0 M _ h20,
    hermite_normal_form.clear_left_skip 2 1 M _ h21,
    hermite_normal_form.clear_left_skip 1 0 M _ h10,
    hermite_normal_form.positive_skip 2 M _ (show 0 ≤ M.a22 by omega),
    hermite_normal_form.positive_skip 1 M _ (show 0 ≤ M.a11 by omega),
    hermite_normal_form.positive_skip 0 M _ (show 0 ≤ M.a00 by omega),
    hermite_normal_form.reduce_skip 0 1 M _ (by decide) h01l h01u,
    hermite_normal_form.reduce_skip 1 2 M _ (by decide) h12l h12u,
    hermite_normal_form.reduce_skip 0 2 M _ (by decide) h02l h02u]

theorem hermite_normal_form.positive_neg (i : Fin 3) (H V : Matrix3i)
    (h : H.get i i < 0) : hermite_normal_form.positive i (H, V)
      = (H.mul (Matrix3i.neg_col i), V.mul (Matrix3i.neg_col i)) := by
  unfold hermite_normal_form.positive
  rw [if_pos h]

theorem hermite_normal_form_inversion {M : Matrix3i} (h : IsHNF M) :
    hermite_normal_form (inversion.mul M) = (M, inversion) := by
  obtain ⟨h10, h20, h21, h00, h11, h22, h12l, h12u, h02l, h02u, h01l, h01u⟩ := h
  have hN : inversion.mul M = ⟨-M.a00, -M.a01, -M.a02, 0, -M.a11, -M.a12, 0, 0, -M.a22⟩ := by
    simp [Matrix3i.mul, inversion, h10, h20, h21]
  have h2 : (⟨-M.a00, -M.a01, -M.a02, 0, -M.a11, -M.a12, 0, 0, -M.a22⟩ : Matrix3i).mul
      (Matrix3i.neg_col 2) = ⟨-M.a00, -M.a01, M.a02, 0, -M.a11, M.a12, 0, 0, M.a22⟩ := by
    simp [Matrix3i.mul, Matrix3i.neg_col, Matrix3i.ofFn]
  have h1 : (⟨-M.a00, -M.a01, M.a02, 0, -M.a11, M.a12, 0, 0, M.a22⟩ : Matrix3i).mul
      (Matrix3i.neg_col 1) = ⟨-M.a00, M.a01, M.a02, 0, M.a11, M.a12, 0, 0, M.a22⟩ := by
    simp [Matrix3i.mul, Matrix3i.neg_col, Matrix3i.ofFn]
  have h0 : (⟨-M.a00, M.a01, M.a02, 0, M.a11, M.a12, 0, 0, M.a22⟩ : Matrix3i).mul
      (Matrix3i.neg_col 0) = M := by
    cases M
    simp only at h10 h20 h21
    simp [Matrix3i.mul, Matrix3i.neg_col, Matrix3i.ofFn, h10, h20, h21]
  have hV : ((Matrix3i.Identity.mul (Matrix3i.neg_col 2)).mul (Matrix3i.neg_col 1)).mul
      (Matrix3i.neg_col 0) = inversion := by decide
  unfold hermite_normal_form
  rw [hN, hermite_normal_form.clear_left_skip 2 0
      ⟨-M.a00, -M.a01, -M.a02, 0, -M.a11, -M.a12, 0, 0, -M.a22⟩ _ rfl,
    hermite_normal_form.clear_left_skip 2 1
      ⟨-M.a00, -M.a01, -M.a02, 0, -M.a11, -M.a12, 0, 0, -M.a22⟩ _ rfl,
    hermite_normal_form.clear_left_skip 1 0
      ⟨-M.a00, -M.a01, -M.a02, 0, -M.a11, -M.a12, 0, 0, -M.a22⟩ _ rfl,
    hermite_normal_form.positive_neg 2
      ⟨-M.a00, -M.a01, -M.a02, 0, -M.a11, -M.a12, 0, 0, -M.a22⟩ _
      (show -M.a22 < 0 by omega), h2,
    hermite_normal_form.positive_neg 1
      ⟨-M.a00, -M.a01, M.a02, 0, -M.a11, M.a12, 0, 0, M.a22⟩ _
      (show -M.a11 < 0 by omega), h1,
    hermite_normal_form.positive_neg 0
      ⟨-M.a00, M.a01, M.a02, 0, M.a11, M.a12, 0, 0, M.a22⟩ _
      (show -M.a00 < 0 by omega), h0, hV,
    hermite_normal_form.reduce_skip 0 1 M _ (by decide) h01l h01u,
    hermite_normal_form.reduce_skip 1 2 M _ (by decide) h12l h12u,
    hermite_normal_form.reduce_skip 0 2 M _ (by decide) h02l h02u]

theorem Unimodular.mul {A B : Matrix3i} (hA : Unimodular A) (hB : Unimodular B) :
    Unimodular (A.mul B) := by
  unfold Unimodular at *
  rw [Matrix3i.det_mul]
  rcases hA with h | h <;> rcases hB with h' | h' <;> rw [h, h'] <;> simp

theorem isGroup_triclinic : IsGroup [Matrix3i.Identity, inversion] := by
  unfold IsGroup
  decide

theorem unimodular_triclinic : ∀ op ∈ [Matrix3i.Identity, inversion], Unimodular op := by
  decide

theorem hnfCorrectOn_triclinic :
    HnfCorrectOn hermite_normal_form [Matrix3i.Identity, inversion] := by
  intro op hop M hM
  simp only [List.mem_cons, List.mem_singleton, List.not_mem_nil, or_false] at hop
  rcases hop with rfl | rfl
  · unfold HnfCorrectAt
    rw [Matrix3i.identity_mul, hermite_normal_form_of_isHNF hM]
    exact ⟨hM, (show Unimodular Matrix3i.Identity by decide), Matrix3i.mul_identity M⟩
  · unfold HnfCorrectAt
    rw [hermite_normal_form_inversion hM]
    refine ⟨hM, (show Unimodular inversion by decide), ?_⟩
    obtain ⟨h10, h20, h21, -⟩ := hM
    cases M
    simp only at h10 h20 h21
    simp [Matrix3i.mul, inversion, h10, h20, h21]

theorem unimodular_add_col (i c : Fin 3) (h : i ≠ c) (k : Int) :
    Unimodular (Matrix3i.add_col i c k) := by
  fin_cases i <;> fin_cases c <;>
    first
    | exact absurd rfl h
    | simp [Unimodular, Matrix3i.add_col, Matrix3i.ofFn, Matrix3i.det]

theorem unimodular_swap_col (i c : Fin 3) (h : i ≠ c) : Unimodular (Matrix3i.swap_col i c) := by
  fin_cases i <;> fin_cases c <;> first | exact absurd rfl h | decide

theorem unimodular_neg_col (i : Fin 3) : Unimodular (Matrix3i.neg_col i) := by
  fin_cases i <;> decide

theorem column_op {A H V : Matrix3i} (E : Matrix3i) (h1 : A.mul V = H) (h2 : Unimodular V)
    (hE : Unimodular E) : A.mul (V.mul E) = H.mul E ∧ Unimodular (V.mul E) :=
  ⟨by rw [← Matrix3i.mul_assoc, h1], h2.mul hE⟩

theorem eliminate_get (i c : Fin 3) (h : i ≠ c) (H : Matrix3i) (q : Int) :
    (H.mul ((Matrix3i.add_col c i (-q)).mul (Matrix3i.swap_col i c))).get i c =
      H.get i i - q * H.get i c := by
  fin_cases i <;> fin_cases c <;>
    first
    | exact absurd rfl h
    | (simp [Matrix3i.mul, Matrix3i.add_col, Matrix3i.swap_col, Matrix3i.ofFn, Matrix3i.get]
       try ring)

theorem natAbs_emod_lt (a b : Int) (hb : b ≠ 0) : (a % b).natAbs < b.natAbs := by
  have h1 := Int.emod_nonneg a hb
  have h2 := Int.emod_lt a hb
  rcases lt_or_gt_of_ne hb with h | h
  · rw [abs_of_neg h] at h2
    omega
  · rw [abs_of_pos h] at h2
    omega

/-- Euclid on row `i` between the columns `c` and `i` ends with `H(i, c) = 0`, keeps
`A * V = H` and `V` unimodular, and keeps every property the column operations keep. -/
theorem eliminate_spec (A : Matrix3i) (i c : Fin 3) (hic : i ≠ c) (P : Matrix3i → Prop)
    (hP : ∀ H q, P H →
      P (H.mul ((Matrix3i.add_col c i (-q)).mul (Matrix3i.swap_col i c)))) :
    ∀ (fuel : Nat) (H V : Matrix3i), (H.get i c).natAbs < fuel → A.mul V = H →
      Unimodular V → P H →
      A.mul (hermite_normal_form.eliminate i c fuel (H, V)).2 =
        (hermite_normal_form.eliminate i c fuel (H, V)).1 ∧
      Unimodular (hermite_normal_form.eliminate i c fuel (H, V)).2 ∧
      (hermite_normal_form.eliminate i c fuel (H, V)).1.get i c = 0 ∧
      P (hermite_normal_form.eliminate i c fuel (H, V)).1 := by
  intro fuel
  induction fuel with
  | zero => intro H V h; exact absurd h (Nat.not_lt_zero _)
  | succ fuel ih =>
    intro H V hf h1 h2 h3
    by_cases h0 : H.get i c = 0
    · rw [hermite_normal_form.eliminate, if_pos h0]
      exact ⟨h1, h2, h0, h3⟩
    · rw [hermite_normal_form.eliminate, if_neg h0]
      have hE : Unimodular ((Matrix3i.add_col c i (-(H.get i i / H.get i c))).mul
          (Matrix3i.swap_col i c)) :=
        (unimodular_add_col c i (Ne.symm hic) _).mul (unimodular_swap_col i c hic)
      obtain ⟨k1, k2⟩ := column_op _ h1 h2 hE
      refine ih _ _ ?_ k1 k2 (hP H _ h3)
      rw [eliminate_get i c hic, mul_comm, ← Int.emod_def]
      have := natAbs_emod_lt (H.get i i) (H.get i c) h0
      omega

theorem clear_left_spec (A : Matrix3i) (i c : Fin 3) (hic : i ≠ c) (P : Matrix3i → Prop)
    (hP : ∀ H q, P H →
      P (H.mul ((Matrix3i.add_col c i (-q)).mul (Matrix3i.swap_col i c))))
    (s : Matrix3i × Matrix3i) (h1 : A.mul s.2 = s.1) (h2 : Unimodular s.2) (h3 : P s.1) :
    A.mul (hermite_normal_form.clear_left i c s).2 = (hermite_normal_form.clear_left i c s).1 ∧
    Unimodular (hermite_normal_form.clear_left i c s).2 ∧
    (hermite_normal_form.clear_left i c s).1.get i c = 0 ∧
    P (hermite_normal_form.clear_left i c s).1 := by
  obtain ⟨H, V⟩ := s
  exact eliminate_spec A i c hic P hP _ H V (Nat.lt_succ_self _) h1 h2 h3

theorem positive_spec (A : Matrix3i) (i : Fin 3) (H V : Matrix3i) (h1 : A.mul V = H)
    (h2 : Unimodular V) :
    A.mul (hermite_normal_form.positive i (H, V)).2 = (hermite_normal_form.positive i (H, V)).1 ∧
    Unimodular (hermite_normal_form.positive i (H, V)).2 ∧
    (hermite_normal_form.positive i (H, V)).1 =
      if H.get i i < 0 then H.mul (Matrix3i.neg_col i) else H := by
  unfold hermite_normal_form.positive
  split_ifs with h
  · obtain ⟨k1, k2⟩ := column_op _ h1 h2 (unimodular_neg_col i)
    exact ⟨k1, k2, rfl⟩
  · exact ⟨h1, h2, rfl⟩

theorem reduce_spec (A : Matrix3i) (r c : Fin 3) (hrc : r ≠ c) (H V : Matrix3i)
    (h1 : A.mul V = H) (h2 : Unimodular V) :
    A.mul (hermite_normal_form.reduce r c (H, V)).2 = (hermite_normal_form.reduce r c (H, V)).1 ∧
    Unimodular (hermite_normal_form.reduce r c (H, V)).2 ∧
    (hermite_normal_form.reduce r c (H, V)).1 =
      H.mul (Matrix3i.add_col r c (-(H.get r c / H.get r r))) := by
  unfold hermite_normal_form.reduce
  obtain ⟨k1, k2⟩ := column_op _ h1 h2 (unimodular_add_col r c hrc (-(H.get r c / H.get r r)))
  exact ⟨k1, k2, rfl⟩

/-- From an upper triangular matrix with non-zero diagonal the last six steps of
`hermite_normal_form` arrive at a Hermite normal form. -/
theorem finish_spec (A V : Matrix3i) (a b c d e f : Int) (ha : a ≠ 0) (hd : d ≠ 0) (hf : f ≠ 0)
    (h1 : A.mul V = ⟨a, b, c, 0, d, e, 0, 0, f⟩) (h2 : Unimodular V) :
    IsHNF (hermite_normal_form.reduce 0 2 (hermite_normal_form.reduce 1 2
      (hermite_normal_form.reduce 0 1 (hermite_normal_form.positive 0
        (hermite_normal_form.positive 1 (hermite_normal_form.positive 2
          (⟨a, b, c, 0, d, e, 0, 0, f⟩, V))))))).1 ∧
    Unimodular (hermite_normal_form.reduce 0 2 (hermite_normal_form.reduce 1 2
      (hermite_normal_form.reduce 0 1 (hermite_normal_form.positive 0
        (hermite_normal_form.positive 1 (hermite_normal_form.positive 2
          (⟨a, b, c, 0, d, e, 0, 0, f⟩, V))))))).2 ∧
    A.mul (hermite_normal_form.reduce 0 2 (hermite_normal_form.reduce 1 2
      (hermite_normal_form.reduce 0 1 (hermite_normal_form.positive 0
        (hermite_normal_form.positive 1 (hermite_normal_form.positive 2
          (⟨a, b, c, 0, d, e, 0, 0, f⟩, V))))))).2 =
      (hermite_normal_form.reduce 0 2 (hermite_normal_form.reduce 1 2
      (hermite_normal_form.reduce 0 1 (hermite_normal_form.positive 0
        (hermite_normal_form.positive 1 (hermite_normal_form.positive 2
          (⟨a, b, c, 0, d, e, 0, 0, f⟩, V))))))).1 := by
  -- positive 2
  obtain ⟨p1, p2, p3⟩ := positive_spec A 2 _ V h1 h2
  generalize hermite_normal_form.positive 2 (⟨a, b, c, 0, d, e, 0, 0, f⟩, V) = s2 at p1 p2 p3 ⊢
  obtain ⟨H2, V2⟩ := s2
  simp only at p1 p2 p3
  have e2 : ∃ c2 e2 f2, 0 < f2 ∧ H2 = ⟨a, b, c2, 0, d, e2, 0, 0, f2⟩ := by
    rw [p3]
    simp only [Matrix3i.get]
    split_ifs with h
    · refine ⟨-c, -e, -f, by omega, ?_⟩
      simp [Matrix3i.mul, Matrix3i.neg_col, Matrix3i.ofFn]
    · exact ⟨c, e, f, by omega, rfl⟩
  obtain ⟨c2, e2', f2, hf2, rfl⟩ := e2
  clear p3
  -- positive 1
  obtain ⟨q1, q2, q3⟩ := positive_spec A 1 _ V2 p1 p2
  generalize hermite_normal_form.positive 1 (⟨a, b, c2, 0, d, e2', 0, 0, f2⟩, V2) = s1
    at q1 q2 q3 ⊢
  obtain ⟨H1, V1⟩ := s1
  simp only at q1 q2 q3
  have e1 : ∃ b1 d1, 0 < d1 ∧ H1 = ⟨a, b1, c2, 0, d1, e2', 0, 0, f2⟩ := by
    rw [q3]
    simp only [Matrix3i.get]
    split_ifs with h
    · refine ⟨-b, -d, by omega, ?_⟩
      simp [Matrix3i.mul, Matrix3i.neg_col, Matrix3i.ofFn]
    · exact ⟨b, d, by omega, rfl⟩
  obtain ⟨b1, d1, hd1, rfl⟩ := e1
  clear q3
  -- positive 0
  obtain ⟨r1, r2, r3⟩ := positive_spec A 0 _ V1 q1 q2
  generalize hermite_normal_form.positive 0 (⟨a, b1, c2, 0, d1, e2', 0, 0, f2⟩, V1) = s0
    at r1 r2 r3 ⊢
  obtain ⟨H0, V0⟩ := s0
  simp only at r1 r2 r3
  have e0 : ∃ a0, 0 < a0 ∧ H0 = ⟨a0, b1, c2, 0, d1, e2', 0, 0, f2⟩ := by
    rw [r3]
    simp only [Matrix3i.get]
    split_ifs with h
    · refine ⟨-a, by omega, ?_⟩
      simp [Matrix3i.mul, Matrix3i.neg_col, Matrix3i.ofFn]
    · exact ⟨a, by omega, rfl⟩
  obtain ⟨a0, ha0, rfl⟩ := e0
  clear r3
  -- reduce 0 1
  obtain ⟨t1, t2, t3⟩ := reduce_spec A 0 1 (by decide) _ V0 r1 r2
  generalize hermite_normal_form.reduce 0 1 (⟨a0, b1, c2, 0, d1, e2', 0, 0, f2⟩, V0) = s
    at t1 t2 t3 ⊢
  obtain ⟨H, W⟩ := s
  simp only at t1 t2 t3
  have e3 : H = ⟨a0, b1 % a0, c2, 0, d1, e2', 0, 0, f2⟩ := by
    rw [t3]
    simp only [Matrix3i.get, Matrix3i.mul, Matrix3i.add_col, Matrix3i.ofFn]
    congr 1 <;> (try simp [Int.emod_def])
    ring
  subst e3
  clear t3
  -- reduce 1 2
  obtain ⟨u1, u2, u3⟩ := reduce_spec A 1 2 (by decide) _ W t1 t2
  generalize hermite_normal_form.reduce 1 2 (⟨a0, b1 % a0, c2, 0, d1, e2', 0, 0, f2⟩, W) = s
    at u1 u2 u3 ⊢
  obtain ⟨H, W'⟩ := s
  simp only at u1 u2 u3
  have e4 : ∃ c3, H = ⟨a0, b1 % a0, c3, 0, d1, e2' % d1, 0, 0, f2⟩ := by
    refine ⟨c2 + b1 % a0 * -(e2' / d1), ?_⟩
    rw [u3]
    simp only [Matrix3i.get, Matrix3i.mul, Matrix3i.add_col, Matrix3i.ofFn]
    congr 1 <;> (try simp [Int.emod_def]) <;> (try ring)
  obtain ⟨c3, rfl⟩ := e4
  clear u3
  -- reduce 0 2
  obtain ⟨w1, w2, w3⟩ := reduce_spec A 0 2 (by decide) _ W' u1 u2
  generalize hermite_normal_form.reduce 0 2
    (⟨a0, b1 % a0, c3, 0, d1, e2' % d1, 0, 0, f2⟩, W') = s at w1 w2 w3 ⊢
  obtain ⟨H, W''⟩ := s
  simp only at w1 w2 w3
  have e5 : H = ⟨a0, b1 % a0, c3 % a0, 0, d1, e2' % d1, 0, 0, f2⟩ := by
    rw [w3]
    simp only [Matrix3i.get, Matrix3i.mul, Matrix3i.add_col, Matrix3i.ofFn]
    congr 1 <;> (try simp [Int.emod_def])
    ring
  subst e5
  refine ⟨?_, w2, w1⟩
  exact ⟨rfl, rfl, rfl, ha0, hd1, hf2, Int.emod_nonneg _ (by omega), Int.emod_lt_of_pos _ hd1,
    Int.emod_nonneg _ (by omega), Int.emod_lt_of_pos _ ha0, Int.emod_nonneg _ (by omega),
    Int.emod_lt_of_pos _ ha0⟩

/-- The model `hermite_normal_form` returns a Hermite normal form of every non-singular
matrix: `H` in HNF, `V` unimodular, `A * V = H`. -/
theorem hermite_normal_form_correct (A : Matrix3i) (hA : A.det ≠ 0) :
    HnfCorrectAt hermite_normal_form A := by
  unfold HnfCorrectAt hermite_normal_form
  have i1 : A.mul (A, Matrix3i.Identity).2 = (A, Matrix3i.Identity).1 :=
    Matrix3i.mul_identity A
  have i2 : Unimodular (A, Matrix3i.Identity).2 := Or.inl Matrix3i.det_identity
  generalize (A, Matrix3i.Identity) = s0 at i1 i2 ⊢
  obtain ⟨a1, a2, a3, -⟩ := clear_left_spec A 2 0 (by decide) (fun _ => True)
    (fun _ _ _ => trivial) s0 i1 i2 trivial
  generalize hermite_normal_form.clear_left 2 0 s0 = s1 at a1 a2 a3 ⊢
  obtain ⟨b1, b2, b3, b4⟩ := clear_left_spec A 2 1 (by decide) (fun H => H.get 2 0 = 0)
    (fun H q h => by
      cases H
      simp only [Matrix3i.get] at h
      simp [Matrix3i.get, Matrix3i.mul, Matrix3i.add_col, Matrix3i.swap_col, Matrix3i.ofFn, h])
    s1 a1 a2 a3
  generalize hermite_normal_form.clear_left 2 1 s1 = s2 at b1 b2 b3 b4 ⊢
  obtain ⟨c1, c2, c3, c4, c5⟩ := clear_left_spec A 1 0 (by decide)
    (fun H => H.get 2 0 = 0 ∧ H.get 2 1 = 0)
    (fun H q h => by
      cases H
      simp only [Matrix3i.get] at h
      simp [Matrix3i.get, Matrix3i.mul, Matrix3i.add_col, Matrix3i.swap_col, Matrix3i.ofFn,
        h.1, h.2])
    s2 b1 b2 ⟨b4, b3⟩
  generalize hermite_normal_form.clear_left 1 0 s2 = s at c1 c2 c3 c4 c5 ⊢
  obtain ⟨H, V⟩ := s
  obtain ⟨a, b, c, x, d, e, y, z, f⟩ := H
  simp only [Matrix3i.get] at c1 c2 c3 c4 c5
  subst c3 c4 c5
  have hdet : a * d * f ≠ 0 := by
    have h := congrArg Matrix3i.det c1
    rw [Matrix3i.det_mul] at h
    have hV : V.det ≠ 0 := by
      rcases c2 with h' | h' <;> rw [h'] <;> decide
    have : (⟨a, b, c, 0, d, e, 0, 0, f⟩ : Matrix3i).det = a * d * f := by
      simp only [Matrix3i.det]; ring
    rw [this] at h
    rw [← h]
    exact mul_ne_zero hA hV
  have ha : a ≠ 0 := fun h => hdet (by rw [h]; ring)
  have hd : d ≠ 0 := fun h => hdet (by rw [h]; ring)
  have hf : f ≠ 0 := fun h => hdet (by rw [h]; ring)
  exact finish_spec A V a b c d e f ha hd hf c1 c2

theorem hnfCorrectOn_hermite_normal_form (ops : List Matrix3i)
    (huni : ∀ op ∈ ops, Unimodular op) : HnfCorrectOn hermite_normal_form ops := by
  intro op hop M hM
  apply hermite_normal_form_correct
  rw [Matrix3i.det_mul]
  have h1 : op.det ≠ 0 := by
    rcases huni op hop with h | h <;> rw [h] <;> decide
  exact mul_ne_zero h1 (ne_of_gt hM.det_pos)

theorem isGroup_cubic_mirror : IsGroup [Matrix3i.Identity, mirror_xz] := by
  unfold IsGroup
  decide

theorem unimodular_cubic_mirror : ∀ op ∈ [Matrix3i.Identity, mirror_xz], Unimodular op := by
  decide

theorem try_increment_vol (it : SupercellIterator UnitType) :
    (_try_increment it).m_vol = it.m_vol ∨ (_try_increment it).m_vol = it.m_vol + 1 := by
  simp only [_try_increment]
  split_ifs <;> simp

theorem is_canonical_unflag (hnf : Matrix3i → Matrix3i × Matrix3i)
    (it : SupercellIterator UnitType) : _is_canonical hnf it.unflag = _is_canonical hnf it := rfl

theorem increment_result (hnf : Matrix3i → Matrix3i × Matrix3i) : ∀ (fuel : Nat)
    (it next : SupercellIterator UnitType), _increment hnf fuel it = some next →
    _is_canonical hnf next = true ∧ next.m_super_updated = false ∧ it.m_vol ≤ next.m_vol ∧
      next.m_enum = it.m_enum := by
  intro fuel
  induction fuel with
  | zero =>
    intro it next h
    simp [_increment] at h
  | succ f ih =>
    intro it next h
    simp only [_increment] at h
    have hvol := try_increment_vol it
    by_cases hc : _is_canonical hnf (_try_increment it) = true
    · simp only [hc, Bool.not_true, Bool.false_eq_true, if_false, Option.some.injEq] at h
      subst h
      exact ⟨hc, rfl, by show it.m_vol ≤ (_try_increment it).m_vol; omega,
        try_increment_m_enum it⟩
    · simp only [Bool.not_eq_true] at hc
      simp only [hc, Bool.not_false, if_true] at h
      obtain ⟨h1, h2, h3, h4⟩ := ih _ next h
      exact ⟨h1, h2, by omega, by rw [h4, try_increment_m_enum]⟩

theorem construct_spec [Inhabited UnitType] (hnf : Matrix3i → Matrix3i × Matrix3i)
    (e : SupercellEnumerator UnitType) (volume : Int)
    (hbe : ¬ e.begin_volume > e.end_volume)
    (hpre : ∀ v, ImagesWellFormed hnf e.point_group v) :
    ∃ k : Nat, ∀ fuel, k ≤ fuel → ∃ it,
      SupercellIterator.construct hnf fuel e volume = .ok (some it) ∧
      it.m_vol = max 1 volume ∧ WellFormed it.m_vol it.m_current ∧
      _is_canonical hnf it = true ∧ it.m_enum = e ∧ it.m_super_updated = false := by
  have hv : (if volume < 1 then 1 else if volume < 1 then 1 else volume) = max 1 volume := by
    split_ifs with h
    · exact (max_eq_left (by omega)).symm
    · exact (max_eq_right (by omega)).symm
  have hv1 : (1 : Int) ≤ max 1 volume := le_max_left _ _
  simp only [SupercellIterator.construct, if_neg hbe, hv]
  generalize max 1 volume = v at hv1
  have hwf : WellFormed v (first_hnf v) := first_hnf_wellFormed hv1
  by_cases hc : _is_canonical hnf (⟨false, e, v, { Matrix3i.Identity with a22 := v }, default⟩ :
      SupercellIterator UnitType) = true
  · refine ⟨0, fun fuel _ => ⟨_, ?_, rfl, hwf, hc, rfl, rfl⟩⟩
    simp only [hc, Bool.not_true, Bool.false_eq_true, if_false]
  · have hne : first_hnf v ≠ last_hnf v := by
      intro he
      exact hc (last_hnf_canonical hnf _ hv1 (hpre v) he)
    obtain ⟨k, hk, -, hcan, hwfk, -, hsame, -⟩ := advance_spec hnf
      (⟨false, e, v, { Matrix3i.Identity with a22 := v }, default⟩ : SupercellIterator UnitType)
      rfl hwf (hpre v) (hpre (v + 1))
    refine ⟨k + 1, fun fuel hf => ⟨(_try_increment^[k + 1] (⟨false, e, v,
      { Matrix3i.Identity with a22 := v }, default⟩ : SupercellIterator UnitType)).unflag,
      ?_, ?_, ?_, ?_, ?_, rfl⟩⟩
    · simp only [Bool.not_eq_true] at hc
      simp only [hc, Bool.not_false, if_true]
      rw [hk fuel hf]
    · exact hsame hne
    · exact hwfk
    · exact hcan
    · exact iterate_m_enum _ _

theorem try_increment_last (it : SupercellIterator UnitType) {v : Int} (hv : it.m_vol = v)
    (hwf : WellFormed v it.m_current) :
    it.m_current = last_hnf v ↔ (_try_increment it).m_vol = v + 1 := by
  have hs := try_increment_step it hv hwf
  constructor
  · intro he
    rcases hs.vol_cases with h | h
    · rw [h] at hs
      have h1 := rank_lt_of_keyLt hwf (hs.wellFormed hwf) (hs.keyLt hwf rfl)
      have h2 := rank_le_last (hs.wellFormed hwf)
      rw [he] at h1
      omega
    · exact h.1
  · intro he
    rcases hs.vol_cases with h | h
    · omega
    · exact h.2.1

/-- C6 (counterexample): the position `(1, I)` of an enumerator with `end_volume = 1` is what
`end()` returns; its volume is `<= end_volume`, yet one raw step, and one advance, lead to
volume `2 > end_volume`. -/
theorem C6_counterexample :
    SupercellEnumerator.end hermite_normal_form 0 (triclinic 1)
      = .ok (some (position (triclinic 1) 1 Matrix3i.Identity)) ∧
    (position (triclinic 1) 1 Matrix3i.Identity).m_vol ≤ (triclinic 1).m_end_volume ∧
    ¬ (_try_increment (position (triclinic 1) 1 Matrix3i.Identity)).m_vol
        ≤ (triclinic 1).m_end_volume ∧
    (_increment hermite_normal_form 1 (position (triclinic 1) 1 Matrix3i.Identity)).map
        (fun next => next.m_vol) = some 2 := by
  refine ⟨rfl, by decide, by decide, by decide⟩

/-- C6 (amended): the iterator never consults `end_volume`.  From a well-formed position a raw
step leaves the volume unchanged or raises it by one, the latter exactly from the last matrix
`[[v, v-1, v-1], [0, 1, 0], [0, 0, 1]]` of the volume, and its result does not depend on
`end_volume`; so from a volume below `end_volume` a raw step stays `<= end_volume`, and so
does an advance, which under the point group precondition terminates and raises the volume by
at most one. -/
theorem C6_volume_bound_amended (hnf : Matrix3i → Matrix3i × Matrix3i)
    (it : SupercellIterator UnitType) (hwf : WellFormed it.m_vol it.m_current) :
    ((_try_increment it).m_vol = it.m_vol ∨ (_try_increment it).m_vol = it.m_vol + 1) ∧
    (it.m_current = last_hnf it.m_vol ↔ (_try_increment it).m_vol = it.m_vol + 1) ∧
    (∀ x : Int,
      (_try_increment { it with m_enum := { it.m_enum with m_end_volume := x } }).m_vol
        = (_try_increment it).m_vol ∧
      (_try_increment { it with m_enum := { it.m_enum with m_end_volume := x } }).m_current
        = (_try_increment it).m_current) ∧
    (it.m_vol < it.m_enum.m_end_volume → (_try_increment it).m_vol ≤ it.m_enum.m_end_volume) ∧
    ((∀ v, ImagesWellFormed hnf it.m_enum.point_group v) →
      ∃ k : Nat, ∀ fuel, k ≤ fuel → ∃ next, _increment hnf fuel it = some next ∧
        next.m_vol ≤ it.m_vol + 1 ∧
        (it.m_vol < it.m_enum.m_end_volume → next.m_vol ≤ it.m_enum.m_end_volume)) := by
  have hvol := try_increment_vol it
  refine ⟨hvol, try_increment_last it rfl hwf, ?_, ?_, ?_⟩
  · intro x
    simp only [_try_increment]
    split_ifs <;> exact ⟨rfl, rfl⟩
  · intro h
    omega
  · intro hpre
    obtain ⟨k, hk, -, -, -, hj, -, -⟩ := advance_spec hnf it rfl hwf (hpre _) (hpre _)
    refine ⟨k + 1, fun fuel hf => ⟨_, hk fuel hf, ?_, ?_⟩⟩
    · show (_try_increment^[k + 1] it).m_vol ≤ it.m_vol + 1
      rcases hj (k + 1) (le_refl _) with h | h <;> omega
    · intro h
      show (_try_increment^[k + 1] it).m_vol ≤ it.m_enum.m_end_volume
      rcases hj (k + 1) (le_refl _) with h' | h' <;> omega

/-- Witness of the amended C6 at the position `(2, diag(1, 1, 2))` of a triclinic lattice. -/
theorem C6_witness :
    ((_try_increment (position (triclinic 5) 2 (first_hnf 2))).m_vol = 2 ∨
      (_try_increment (position (triclinic 5) 2 (first_hnf 2))).m_vol = 2 + 1) ∧
    ∃ k : Nat, ∀ fuel, k ≤ fuel → ∃ next,
      _increment hermite_normal_form fuel (position (triclinic 5) 2 (first_hnf 2)) = some next ∧
      next.m_vol ≤ 2 + 1 ∧ ((2 : Int) < 5 → next.m_vol ≤ 5) :=
  ⟨(C6_volume_bound_amended hermite_normal_form (position (triclinic 5) 2 (first_hnf 2))
      (by decide)).1,
    (C6_volume_bound_amended hermite_normal_form (position (triclinic 5) 2 (first_hnf 2))
      (by decide)).2.2.2.2
      (imagesWellFormed_of_correct _ _ unimodular_triclinic hnfCorrectOn_triclinic)⟩

theorem try_increment_iterate_vol_le (it : SupercellIterator UnitType) (n : Nat) :
    it.m_vol ≤ (_try_increment^[n] it).m_vol := by
  induction n with
  | zero => exact le_refl _
  | succ k ih =>
    rw [Function.iterate_succ_apply']
    have := try_increment_vol (_try_increment^[k] it)
    omega

/-- C7: the volume never decreases: not over one raw step `_try_increment`, not over any number
of raw steps, and not over an advance `_increment`, whatever the state; and from a well-formed
position under the point group precondition the advance does return. -/
theorem C7_volume_monotone (hnf : Matrix3i → Matrix3i × Matrix3i)
    (it : SupercellIterator UnitType) :
    it.m_vol ≤ (_try_increment it).m_vol ∧
    (∀ n : Nat, it.m_vol ≤ (_try_increment^[n] it).m_vol) ∧
    (∀ fuel next, _increment hnf fuel it = some next → it.m_vol ≤ next.m_vol) ∧
    (WellFormed it.m_vol it.m_current →
      (∀ v, ImagesWellFormed hnf it.m_enum.point_group v) →
      ∃ k : Nat, ∀ fuel, k ≤ fuel → ∃ next, _increment hnf fuel it = some next ∧
        it.m_vol ≤ next.m_vol) := by
  refine ⟨?_, try_increment_iterate_vol_le it, ?_, ?_⟩
  · have := try_increment_vol it
    omega
  · intro fuel next h
    exact (increment_result hnf fuel it next h).2.2.1
  · intro hwf hpre
    obtain ⟨k, hk, -⟩ := advance_spec hnf it rfl hwf (hpre _) (hpre _)
    exact ⟨k + 1, fun fuel hf => ⟨_, hk fuel hf,
      (increment_result hnf fuel it _ (hk fuel hf)).2.2.1⟩⟩

/-- Witness of C7 at the position `(2, diag(1, 1, 2))` of a triclinic lattice. -/
theorem C7_witness :
    ∃ k : Nat, ∀ fuel, k ≤ fuel → ∃ next,
      _increment hermite_normal_form fuel (position (triclinic 5) 2 (first_hnf 2)) = some next ∧
      (position (triclinic 5) 2 (first_hnf 2)).m_vol ≤ next.m_vol :=
  (C7_volume_monotone hermite_normal_form (position (triclinic 5) 2 (first_hnf 2))).2.2.2
    (by decide) (imagesWellFormed_of_correct _ _ unimodular_triclinic hnfCorrectOn_triclinic)

/-- C9: `operator==` holds exactly when the two iterators point to the same enumerator and
carry the same volume and the same matrix; it does not depend on the cached supercell nor on
its freshness flag; `operator!=` is its negation. -/
theorem C9_iterator_equality (A B : SupercellIterator UnitType) :
    (A.eq B = true ↔
      A.m_enum.addr = B.m_enum.addr ∧ A.m_vol = B.m_vol ∧ A.m_current = B.m_current) ∧
    (∀ (s s' : UnitType) (f f' : Bool),
      SupercellIterator.eq { A with m_super := s, m_super_updated := f }
        { B with m_super := s', m_super_updated := f' } = A.eq B) ∧
    A.ne B = !A.eq B := by
  refine ⟨?_, fun _ _ _ _ => rfl, rfl⟩
  simp only [SupercellIterator.eq, Bool.and_eq_true, beq_iff_eq, Matrix3i.isZero, Matrix3i.sub]
  constructor
  · rintro ⟨⟨h1, h2⟩, h3⟩
    refine ⟨h1, h2, ?_⟩
    obtain ⟨⟨⟨⟨⟨⟨⟨⟨e1, e2⟩, e3⟩, e4⟩, e5⟩, e6⟩, e7⟩, e8⟩, e9⟩ := h3
    cases hA : A.m_current
    cases hB : B.m_current
    rw [hA, hB] at e1 e2 e3 e4 e5 e6 e7 e8 e9
    simp only [Matrix3i.mk.injEq]
    simp only at e1 e2 e3 e4 e5 e6 e7 e8 e9
    omega
  · rintro ⟨h1, h2, h3⟩
    rw [h3]
    simp [h1, h2]

/-- C10: the constructor throws exactly when `begin_volume() > end_volume()`, whatever volume is
requested and however much fuel its advance is given; when `begin_volume() <= end_volume()` it
returns an iterator (under the point group precondition, which makes its corrective advance
terminate).  The two volumes are compared as the `size_type` values of the getters, which for
members in the non-negative `int` range is the comparison of the members. -/
theorem C10_construct_throws_iff [Inhabited UnitType] (hnf : Matrix3i → Matrix3i × Matrix3i)
    (e : SupercellEnumerator UnitType) (volume : Int) :
    (∀ fuel, SupercellIterator.construct hnf fuel e volume = .error Error.runtime_error ↔
      e.begin_volume > e.end_volume) ∧
    (e.begin_volume ≤ e.end_volume → (∀ op ∈ e.point_group, Unimodular op) →
      HnfCorrectOn hnf e.point_group →
      ∃ k : Nat, ∀ fuel, k ≤ fuel → ∃ it,
        SupercellIterator.construct hnf fuel e volume = .ok (some it)) ∧
    (0 ≤ e.m_begin_volume → e.m_begin_volume < 2 ^ 31 → 0 ≤ e.m_end_volume →
      e.m_end_volume < 2 ^ 31 →
      (e.begin_volume > e.end_volume ↔ e.m_begin_volume > e.m_end_volume)) := by
  refine ⟨?_, ?_, ?_⟩
  · intro fuel
    constructor
    · intro h
      by_contra hbe
      simp only [SupercellIterator.construct, if_neg hbe] at h
      split_ifs at h
    · intro h
      simp only [SupercellIterator.construct, if_pos h]
  · intro hbe huni hcorr
    obtain ⟨k, hk⟩ := construct_spec hnf e volume (by omega)
      (imagesWellFormed_of_correct hnf _ huni hcorr)
    exact ⟨k, fun fuel hf => by
      obtain ⟨it, h1, -⟩ := hk fuel hf
      exact ⟨it, h1⟩⟩
  · intro h1 h2 h3 h4
    simp only [SupercellEnumerator.begin_volume, SupercellEnumerator.end_volume]
    rw [Int.emod_eq_of_lt h1 (by omega), Int.emod_eq_of_lt h3 (by omega)]
    omega

/-- Witness of C10: a triclinic enumerator over the volumes 1 to 5, requested volume 0. -/
theorem C10_witness :
    ∃ k : Nat, ∀ fuel, k ≤ fuel → ∃ it,
      SupercellIterator.construct hermite_normal_form fuel (triclinic 5) 0 = .ok (some it) :=
  (C10_construct_throws_iff hermite_normal_form (triclinic 5) 0).2.1 (by decide)
    unimodular_triclinic hnfCorrectOn_triclinic

theorem keyLt_trichotomy {v : Int} {A B : Matrix3i} (hA : WellFormed v A) (hB : WellFormed v B) :
    A = B ∨ KeyLt A B ∨ KeyLt B A := by
  by_cases h1 : KeyLt A B
  · exact Or.inr (Or.inl h1)
  · by_cases h2 : KeyLt B A
    · exact Or.inr (Or.inr h2)
    · left
      simp only [KeyLt] at h1 h2
      refine hA.eq_of_key hB ?_ ?_ ?_ ?_ ?_ <;> omega

theorem keyLt_of_rank_lt {v : Int} {A B : Matrix3i} (hA : WellFormed v A) (hB : WellFormed v B)
    (h : rank v A < rank v B) : KeyLt A B := by
  rcases keyLt_trichotomy hA hB with h1 | h1 | h1
  · rw [h1] at h; omega
  · exact h1
  · have := rank_lt_of_keyLt hB hA h1
    omega

theorem is_canonical_eq_loop (hnf : Matrix3i → Matrix3i × Matrix3i)
    (it : SupercellIterator UnitType) {e : SupercellEnumerator UnitType} {H : Matrix3i}
    (he : it.m_enum = e) (hH : it.m_current = H) :
    _is_canonical hnf it = _is_canonical.loop hnf H e.point_group := by
  subst he hH
  rfl

theorem sweep_left (hnf : Matrix3i → Matrix3i × Matrix3i) (fuel : Nat) (v : Int) (steps : Nat)
    (it : SupercellIterator UnitType) (h : it.m_vol ≠ v) :
    sweep hnf fuel v (steps + 1) it = some [] := by
  simp only [sweep, if_neg h]

theorem sweep_cons (hnf : Matrix3i → Matrix3i × Matrix3i) (fuel : Nat) (v : Int) (steps : Nat)
    (it next : SupercellIterator UnitType) (L : List Matrix3i) (h : it.m_vol = v)
    (hn : _increment hnf fuel it = some next) (hs : sweep hnf fuel v steps next = some L) :
    sweep hnf fuel v (steps + 1) it = some (it.m_current :: L) := by
  simp only [sweep, if_pos h, hn, hs, Option.map_some']

/-- Advance from a well-formed position of volume `v` and keep advancing until the volume is
left: the matrices seen are, each once, the canonical HNFs of volume `v` after the position in
the order of the raw walk. -/
theorem sweep_after (hnf : Matrix3i → Matrix3i × Matrix3i) (e : SupercellEnumerator UnitType)
    (v : Int) (hpre : ∀ w, ImagesWellFormed hnf e.point_group w) : ∀ (d : Nat)
    (it : SupercellIterator UnitType), it.m_enum = e → it.m_vol = v →
    WellFormed v it.m_current → (rank v (last_hnf v) - rank v it.m_current).toNat ≤ d →
    ∃ (kf ks : Nat) (L : List Matrix3i),
      (∀ fuel steps, kf ≤ fuel → ks ≤ steps → ∃ next, _increment hnf fuel it = some next ∧
        sweep hnf fuel v steps next = some L) ∧
      L.Nodup ∧ (∀ H ∈ L, rank v it.m_current < rank v H) ∧
      ∀ H, H ∈ L ↔ (WellFormed v H ∧ _is_canonical.loop hnf H e.point_group = true ∧
        KeyLt it.m_current H) := by
  intro d
  induction d with
  | zero =>
    intro it he hvol hwf hd
    have hlast : it.m_current = last_hnf v := by
      rcases last_hnf_greatest hwf with h | h
      · exact h
      · have := rank_lt_of_keyLt hwf (last_hnf_wellFormed hwf.1) h
        omega
    subst he
    obtain ⟨k, hk, -, -, -, -, -, hnext⟩ := advance_spec hnf it hvol hwf (hpre _) (hpre _)
    refine ⟨k + 1, 1, [], ?_, List.nodup_nil, fun H hH => absurd hH (List.not_mem_nil H), ?_⟩
    · intro fuel steps hf hs
      obtain ⟨s, rfl⟩ : ∃ s, steps = s + 1 := ⟨steps - 1, by omega⟩
      refine ⟨_, hk fuel hf, sweep_left hnf fuel v s _ ?_⟩
      show (_try_increment^[k + 1] it).m_vol ≠ v
      rw [hnext hlast]
      omega
    · intro H
      simp only [List.not_mem_nil, false_iff, not_and]
      intro hH _ hlt
      rw [hlast] at hlt
      have h1 := rank_lt_of_keyLt (last_hnf_wellFormed hwf.1) hH hlt
      have h2 := rank_le_last hH
      omega
  | succ d ih =>
    intro it he hvol hwf hd
    subst he
    obtain ⟨k, hk, hno, hcan, hwfk, -, hsame, hnext⟩ :=
      advance_spec hnf it hvol hwf (hpre _) (hpre _)
    by_cases hlast : it.m_current = last_hnf v
    · refine ⟨k + 1, 1, [], ?_, List.nodup_nil, fun H hH => absurd hH (List.not_mem_nil H), ?_⟩
      · intro fuel steps hf hs
        obtain ⟨s, rfl⟩ : ∃ s, steps = s + 1 := ⟨steps - 1, by omega⟩
        refine ⟨_, hk fuel hf, sweep_left hnf fuel v s _ ?_⟩
        show (_try_increment^[k + 1] it).m_vol ≠ v
        rw [hnext hlast]
        omega
      · intro H
        simp only [List.not_mem_nil, false_iff, not_and]
        intro hH _ hlt
        rw [hlast] at hlt
        have h1 := rank_lt_of_keyLt (last_hnf_wellFormed hwf.1) hH hlt
        have h2 := rank_le_last hH
        omega
    · -- the advance stays in the volume
      have hvk : (_try_increment^[k + 1] it).m_vol = v := hsame hlast
      rw [hvk] at hwfk
      obtain ⟨n, hn1, hin, hmono, hnv, -, -, hreach⟩ := raw_walk_from v _ it hvol hwf le_rfl
      have hkn : k + 1 < n := by
        by_contra hc
        have h1 := try_increment_iterate_vol_le (_try_increment^[n] it) (k + 1 - n)
        rw [← Function.iterate_add_apply, hnv] at h1
        have : k + 1 - n + n = k + 1 := by omega
        rw [this, hvk] at h1
        omega
      have hrk : rank v it.m_current < rank v (_try_increment^[k + 1] it).m_current :=
        hmono 0 (k + 1) (by omega) hkn
      have hle := rank_le_last hwfk
      obtain ⟨kf, ks, L, hrun, hnd, hrank, hmem⟩ :=
        ih (_try_increment^[k + 1] it).unflag (iterate_m_enum it _) hvk hwfk (by
          show (rank v (last_hnf v) - rank v (_try_increment^[k + 1] it).m_current).toNat ≤ d
          omega)
      refine ⟨max (k + 1) kf, ks + 1, (_try_increment^[k + 1] it).m_current :: L, ?_, ?_, ?_, ?_⟩
      · intro fuel steps hf hs
        obtain ⟨s, rfl⟩ : ∃ s, steps = s + 1 := ⟨steps - 1, by omega⟩
        obtain ⟨next2, hn2, hs2⟩ := hrun fuel s (le_trans (le_max_right _ _) hf) (by omega)
        exact ⟨_, hk fuel (le_trans (le_max_left _ _) hf),
          sweep_cons hnf fuel v s _ next2 L hvk hn2 hs2⟩
      · refine List.nodup_cons.2 ⟨?_, hnd⟩
        intro hin'
        have := hrank _ hin'
        exact lt_irrefl _ this
      · intro H hH
        rcases List.mem_cons.1 hH with h | h
        · rw [h]; exact hrk
        · exact lt_trans hrk (hrank H h)
      · intro H
        rw [List.mem_cons, hmem]
        constructor
        · rintro (h | ⟨h1, h2, h3⟩)
          · subst h
            refine ⟨hwfk, ?_, keyLt_of_rank_lt hwf hwfk hrk⟩
            rw [← is_canonical_eq_loop hnf (_try_increment^[k + 1] it) (iterate_m_enum it _) rfl]
            exact hcan
          · refine ⟨h1, h2, keyLt_of_rank_lt hwf h1 ?_⟩
            have : rank v (_try_increment^[k + 1] it).m_current < rank v H :=
              rank_lt_of_keyLt hwfk h1 h3
            omega
        · rintro ⟨h1, h2, h3⟩
          rcases keyLt_trichotomy hwfk h1 with h | h | h
          · exact Or.inl h.symm
          · exact Or.inr ⟨h1, h2, h⟩
          · exfalso
            obtain ⟨i, hi, hiH⟩ := hreach H h1 (Or.inr h3)
            have hr1 := rank_lt_of_keyLt hwf h1 h3
            have hr2 := rank_lt_of_keyLt h1 hwfk h
            have hi1 : 1 ≤ i := by
              rcases Nat.eq_zero_or_pos i with h0 | h0
              · subst h0
                simp only [Function.iterate_zero, id] at hiH
                rw [hiH] at hr1
                omega
              · exact h0
            have hik : i < k + 1 := by
              by_contra hc
              rcases Nat.lt_or_ge (k + 1) i with h4 | h4
              · have := hmono (k + 1) i h4 hi
                rw [hiH] at this
                omega
              · obtain rfl : i = k + 1 := by omega
                rw [hiH] at hr2
                omega
            have hnc := hno i hi1 hik
            rw [is_canonical_eq_loop hnf (_try_increment^[i] it) (iterate_m_enum it _) hiH,
              h2] at hnc
            exact absurd hnc (by decide)

/-- The matrices emitted at volume `v` are, each once, the canonical HNFs of volume `v`. -/
theorem emitted_spec [Inhabited UnitType] (hnf : Matrix3i → Matrix3i × Matrix3i)
    (e : SupercellEnumerator UnitType) (v : Int) (hv : 1 ≤ v)
    (hbe : ¬ e.begin_volume > e.end_volume)
    (hpre : ∀ w, ImagesWellFormed hnf e.point_group w) :
    ∃ (kf ks : Nat) (L : List Matrix3i),
      (∀ fuel steps, kf ≤ fuel → ks ≤ steps → emitted hnf fuel steps e v = some L) ∧
      L.Nodup ∧
      ∀ H, H ∈ L ↔ (WellFormed v H ∧ _is_canonical.loop hnf H e.point_group = true) := by
  have hvv : (if v < 1 then 1 else if v < 1 then 1 else v) = v := by
    rw [if_neg (by omega), if_neg (by omega)]
  have hwf : WellFormed v (first_hnf v) := first_hnf_wellFormed hv
  obtain ⟨kf, ks, L, hrun, hnd, hrank, hmem⟩ := sweep_after hnf e v hpre _
    (⟨false, e, v, first_hnf v, default⟩ : SupercellIterator UnitType) rfl rfl hwf le_rfl
  by_cases hc : _is_canonical hnf (⟨false, e, v, first_hnf v, default⟩ :
      SupercellIterator UnitType) = true
  · refine ⟨kf, ks + 1, first_hnf v :: L, ?_, ?_, ?_⟩
    · intro fuel steps hf hs
      obtain ⟨s, rfl⟩ : ∃ s, steps = s + 1 := ⟨steps - 1, by omega⟩
      obtain ⟨next, hn, hsw⟩ := hrun fuel s hf (by omega)
      have hcons := sweep_cons hnf fuel v s _ next L rfl hn hsw
      simp only [emitted, SupercellIterator.construct, if_neg hbe, hvv]
      have hc' : _is_canonical hnf (⟨false, e, v, { Matrix3i.Identity with a22 := v }, default⟩ :
          SupercellIterator UnitType) = true := hc
      simp only [hc', Bool.not_true, Bool.false_eq_true, if_false]
      exact hcons
    · refine List.nodup_cons.2 ⟨?_, hnd⟩
      intro hin
      exact lt_irrefl _ (hrank _ hin)
    · intro H
      rw [List.mem_cons, hmem]
      constructor
      · rintro (h | ⟨h1, h2, -⟩)
        · subst h
          exact ⟨hwf, hc⟩
        · exact ⟨h1, h2⟩
      · rintro ⟨h1, h2⟩
        rcases first_hnf_least h1 with h | h
        · exact Or.inl h
        · exact Or.inr ⟨h1, h2, h⟩
  · refine ⟨kf, ks, L, ?_, hnd, ?_⟩
    · intro fuel steps hf hs
      obtain ⟨next, hn, hsw⟩ := hrun fuel steps hf hs
      simp only [emitted, SupercellIterator.construct, if_neg hbe, hvv]
      have hc' : _is_canonical hnf (⟨false, e, v, { Matrix3i.Identity with a22 := v }, default⟩ :
          SupercellIterator UnitType) = false := by
        simpa using hc
      have hn' : _increment hnf fuel (⟨false, e, v, { Matrix3i.Identity with a22 := v },
          default⟩ : SupercellIterator UnitType) = some next := hn
      simp only [hc', Bool.not_false, if_true, hn']
      exact hsw
    · intro H
      rw [hmem]
      constructor
      · rintro ⟨h1, h2, -⟩
        exact ⟨h1, h2⟩
      · rintro ⟨h1, h2⟩
        refine ⟨h1, h2, ?_⟩
        rcases first_hnf_least h1 with h | h
        · exfalso
          subst h
          exact hc h2
        · exact h

theorem Matrix3i.mul_adjugate (A : Matrix3i) :
    A.mul A.adjugate = Matrix3i.smul A.det Matrix3i.Identity := by
  simp only [Matrix3i.mul, Matrix3i.adjugate, Matrix3i.smul, Matrix3i.det, Matrix3i.Identity,
    Matrix3i.mk.injEq]
  refine ⟨?_, ?_, ?_, ?_, ?_, ?_, ?_, ?_, ?_⟩ <;> ring

theorem Matrix3i.smul_mul (k : Int) (A B : Matrix3i) :
    A.mul (Matrix3i.smul k B) = Matrix3i.smul k (A.mul B) := by
  simp only [Matrix3i.mul, Matrix3i.smul, Matrix3i.mk.injEq]
  refine ⟨?_, ?_, ?_, ?_, ?_, ?_, ?_, ?_, ?_⟩ <;> ring

theorem Matrix3i.smul_smul_identity (k : Int) (hk : k * k = 1) :
    Matrix3i.smul k (Matrix3i.smul k Matrix3i.Identity) = Matrix3i.Identity := by
  simp only [Matrix3i.smul, Matrix3i.Identity, Matrix3i.mk.injEq, mul_one, mul_zero, hk]

theorem Unimodular.exists_right_inverse {V : Matrix3i} (hV : Unimodular V) :
    ∃ W, V.mul W = Matrix3i.Identity ∧ Unimodular W := by
  have hk : V.det * V.det = 1 := by
    rcases hV with h | h <;> rw [h] <;> rfl
  refine ⟨Matrix3i.smul V.det V.adjugate, ?_, ?_⟩
  · rw [Matrix3i.smul_mul, Matrix3i.mul_adjugate, Matrix3i.smul_smul_identity _ hk]
  · have h1 : (V.mul (Matrix3i.smul V.det V.adjugate)).det = 1 := by
      rw [Matrix3i.smul_mul, Matrix3i.mul_adjugate, Matrix3i.smul_smul_identity _ hk,
        Matrix3i.det_identity]
    rw [Matrix3i.det_mul] at h1
    unfold Unimodular
    generalize (Matrix3i.smul V.det V.adjugate).det = d at h1
    rcases hV with h | h <;> rw [h] at h1 <;> omega

theorem unimodular_of_left_inverse {g h : Matrix3i} (hh : h.mul g = Matrix3i.Identity) :
    Unimodular g := by
  have h1 : h.det * g.det = 1 := by
    rw [← Matrix3i.det_mul, hh, Matrix3i.det_identity]
  exact Int.eq_one_or_neg_one_of_mul_eq_one' h1 |>.elim (fun h => Or.inl h.2) (fun h => Or.inr h.2)

theorem eq_zero_of_residue {d w e : Int} (hd : 0 < d) (he0 : 0 ≤ e) (he : e < d)
    (hx0 : 0 ≤ d * w + e) (hx : d * w + e < d) : w = 0 := by
  by_contra hw
  rcases lt_or_gt_of_ne hw with h | h
  · have : d * w ≤ d * (-1) := mul_le_mul_of_nonneg_left (by omega) (le_of_lt hd)
    omega
  · have : d * 1 ≤ d * w := mul_le_mul_of_nonneg_left (by omega) (le_of_lt hd)
    omega

theorem eq_one_of_prod {a b c x y z : Int} (ha : 0 < a) (hb : 0 < b) (hc : 0 < c)
    (hx : 0 < a * x) (hy : 0 < b * y) (hz : 0 < c * z)
    (h : (a * x) * (b * y) * (c * z) = a * b * c) : x = 1 ∧ y = 1 ∧ z = 1 := by
  have hx1 : 1 ≤ x := by
    have := pos_of_mul_pos_right hx (le_of_lt ha); omega
  have hy1 : 1 ≤ y := by
    have := pos_of_mul_pos_right hy (le_of_lt hb); omega
  have hz1 : 1 ≤ z := by
    have := pos_of_mul_pos_right hz (le_of_lt hc); omega
  have habc : 0 < a * b * c := mul_pos (mul_pos ha hb) hc
  have h2 : (a * b * c) * (x * y * z) = (a * b * c) * 1 := by
    calc (a * b * c) * (x * y * z) = (a * x) * (b * y) * (c * z) := by ring
      _ = a * b * c := h
      _ = (a * b * c) * 1 := by ring
  have h3 : x * y * z = 1 := Int.eq_of_mul_eq_mul_left (ne_of_gt habc) h2
  have hxy : 1 ≤ x * y := by nlinarith
  refine ⟨?_, ?_, ?_⟩
  · by_contra hne
    have : 2 ≤ x := by omega
    nlinarith
  · by_contra hne
    have : 2 ≤ y := by omega
    nlinarith
  · by_contra hne
    have : 2 ≤ z := by omega
    nlinarith

/-- Uniqueness of the Hermite normal form: two HNFs of the same determinant of which one
is an integer column transform of the other are equal. -/
theorem hnf_unique {v : Int} {H1 H2 W : Matrix3i} (h1 : WellFormed v H1) (h2 : WellFormed v H2)
    (hW : H2.mul W = H1) : H1 = H2 := by
  obtain ⟨-, ⟨a10, a20, a21, a00, a11, a22, a12l, a12u, a02l, a02u, a01l, a01u⟩, adet⟩ := h1
  obtain ⟨-, ⟨b10, b20, b21, b00, b11, b22, b12l, b12u, b02l, b02u, b01l, b01u⟩, bdet⟩ := h2
  cases H1 with
  | mk p00 p01 p02 p10 p11 p12 p20 p21 p22 =>
  cases H2 with
  | mk q00 q01 q02 q10 q11 q12 q20 q21 q22 =>
  cases W with
  | mk w00 w01 w02 w10 w11 w12 w20 w21 w22 =>
  simp only at a10 a20 a21 a00 a11 a22 a12l a12u a02l a02u a01l a01u adet
  simp only at b10 b20 b21 b00 b11 b22 b12l b12u b02l b02u b01l b01u bdet
  subst a10 a20 a21 b10 b20 b21
  simp only [Matrix3i.mul, Matrix3i.mk.injEq, zero_mul, zero_add, add_zero] at hW
  obtain ⟨e00, e01, e02, e10, e11, e12, e20, e21, e22⟩ := hW
  have hw20 : w20 = 0 := by
    rcases mul_eq_zero.1 e20 with h | h
    · omega
    · exact h
  have hw21 : w21 = 0 := by
    rcases mul_eq_zero.1 e21 with h | h
    · omega
    · exact h
  subst hw20 hw21
  simp only [mul_zero, add_zero] at e00 e01 e10 e11
  have hw10 : w10 = 0 := by
    rcases mul_eq_zero.1 e10 with h | h
    · omega
    · exact h
  subst hw10
  simp only [mul_zero, add_zero] at e00
  have hdiag := eq_one_of_prod (a := q00) (b := q11) (c := q22) (x := w00) (y := w11) (z := w22)
    (by omega) (by omega) (by omega) (by omega) (by omega) (by omega)
    (by rw [e00, e11, e22, adet, bdet])
  obtain ⟨hw00, hw11, hw22⟩ := hdiag
  subst hw00 hw11 hw22
  simp only [mul_one] at e00 e01 e02 e11 e12 e22
  have hw12 : w12 = 0 := eq_zero_of_residue (d := q11) (e := q12) (by omega) b12l b12u
    (by omega) (by omega)
  subst hw12
  have hw01 : w01 = 0 := eq_zero_of_residue (d := q00) (e := q01) (by omega) b01l b01u
    (by omega) (by omega)
  subst hw01
  simp only [mul_zero, add_zero, zero_add] at e01 e02 e12
  have hw02 : w02 = 0 := eq_zero_of_residue (d := q00) (e := q02) (by omega) b02l b02u
    (by omega) (by omega)
  subst hw02
  simp only [mul_zero, zero_add] at e02
  simp only [Matrix3i.mk.injEq]
  exact ⟨e00.symm, e01.symm, e02.symm, trivial, e11.symm, e12.symm, trivial, trivial, e22.symm⟩

theorem canonLt_of_not_of_lt {m D x : Matrix3i} (h1 : ¬ CanonLt m D) (h2 : CanonLt m x) :
    ¬ CanonLt x D := by
  unfold CanonLt at *
  omega

theorem exists_canon_max : ∀ (l : List Matrix3i), l ≠ [] →
    ∃ C ∈ l, ∀ D ∈ l, ¬ CanonLt C D := by
  intro l
  induction l with
  | nil => intro h; exact absurd rfl h
  | cons x rest ih =>
    intro _
    by_cases hr : rest = []
    · subst hr
      refine ⟨x, List.mem_singleton.2 rfl, ?_⟩
      intro D hD
      rw [List.mem_singleton.1 hD]
      unfold CanonLt
      omega
    · obtain ⟨m, hm, hmax⟩ := ih hr
      by_cases hx : CanonLt m x
      · refine ⟨x, List.mem_cons_self _ _, ?_⟩
        intro D hD
        rcases List.mem_cons.1 hD with h | h
        · rw [h]; unfold CanonLt; omega
        · exact canonLt_of_not_of_lt (hmax D h) hx
      · refine ⟨m, List.mem_cons_of_mem _ hm, ?_⟩
        intro D hD
        rcases List.mem_cons.1 hD with h | h
        · rw [h]; exact hx
        · exact hmax D h

theorem eq_of_not_canonLt {A B : Matrix3i} (hA : IsHNF A) (hB : IsHNF B) (h1 : ¬ CanonLt A B)
    (h2 : ¬ CanonLt B A) : A = B := by
  obtain ⟨a10, a20, a21, -⟩ := hA
  obtain ⟨b10, b20, b21, -⟩ := hB
  unfold CanonLt at h1 h2
  cases A; cases B
  simp only [Matrix3i.mk.injEq] at *
  omega

theorem IsGroup.unimodular {ops : List Matrix3i} (hG : IsGroup ops) :
    ∀ g ∈ ops, Unimodular g := by
  intro g hg
  obtain ⟨h, -, hh⟩ := hG.2.2 g hg
  exact unimodular_of_left_inverse hh

theorem image_identity (hnf : Matrix3i → Matrix3i × Matrix3i) {ops : List Matrix3i}
    (hG : IsGroup ops) (hC : HnfCorrectOn hnf ops) {v : Int} {M : Matrix3i}
    (hM : WellFormed v M) : image hnf Matrix3i.Identity M = M := by
  have hwf := imagesWellFormed_of_correct hnf ops hG.unimodular hC v _ hG.1 M hM
  obtain ⟨-, -, hmul⟩ := hC _ hG.1 M hM.2.1
  rw [Matrix3i.identity_mul] at hmul
  exact hnf_unique hwf hM (by rw [image, Matrix3i.identity_mul]; exact hmul)

theorem image_comp (hnf : Matrix3i → Matrix3i × Matrix3i) {ops : List Matrix3i}
    (hG : IsGroup ops) (hC : HnfCorrectOn hnf ops) {g h : Matrix3i} (hg : g ∈ ops)
    (hh : h ∈ ops) {v : Int} {M : Matrix3i} (hM : WellFormed v M) :
    image hnf g (image hnf h M) = image hnf (g.mul h) M := by
  have hpre := imagesWellFormed_of_correct hnf ops hG.unimodular hC v
  have hgh : g.mul h ∈ ops := hG.2.1 g hg h hh
  have w1 := hpre h hh M hM
  have w2 := hpre g hg _ w1
  have w3 := hpre _ hgh M hM
  obtain ⟨-, -, m1⟩ := hC h hh M hM.2.1
  obtain ⟨-, -, m2⟩ := hC g hg _ w1.2.1
  obtain ⟨-, u3, m3⟩ := hC _ hgh M hM.2.1
  obtain ⟨V3', hinv, -⟩ := u3.exists_right_inverse
  refine hnf_unique (W := V3'.mul ((hnf (h.mul M)).2.mul (hnf (g.mul (image hnf h M))).2)) w2 w3 ?_
  have e1 : (image hnf (g.mul h) M).mul V3' = (g.mul h).mul M := by
    unfold image
    rw [← m3, Matrix3i.mul_assoc, hinv, Matrix3i.mul_identity]
  rw [← Matrix3i.mul_assoc, e1, ← Matrix3i.mul_assoc]
  have e2 : ((g.mul h).mul M).mul (hnf (h.mul M)).2 = g.mul (image hnf h M) := by
    unfold image
    rw [← m1, Matrix3i.mul_assoc g h M, Matrix3i.mul_assoc g]
  rw [e2]
  exact m2

theorem equivalent_refl (hnf : Matrix3i → Matrix3i × Matrix3i) {ops : List Matrix3i}
    (hG : IsGroup ops) (hC : HnfCorrectOn hnf ops) {v : Int} {M : Matrix3i}
    (hM : WellFormed v M) : Equivalent hnf ops M M :=
  ⟨_, hG.1, image_identity hnf hG hC hM⟩

theorem equivalent_symm (hnf : Matrix3i → Matrix3i × Matrix3i) {ops : List Matrix3i}
    (hG : IsGroup ops) (hC : HnfCorrectOn hnf ops) {v : Int} {M C : Matrix3i}
    (hM : WellFormed v M) (h : Equivalent hnf ops M C) : Equivalent hnf ops C M := by
  obtain ⟨g, hg, rfl⟩ := h
  obtain ⟨g', hg', hinv⟩ := hG.2.2 g hg
  exact ⟨g', hg', by rw [image_comp hnf hG hC hg' hg hM, hinv, image_identity hnf hG hC hM]⟩

theorem equivalent_trans (hnf : Matrix3i → Matrix3i × Matrix3i) {ops : List Matrix3i}
    (hG : IsGroup ops) (hC : HnfCorrectOn hnf ops) {v : Int} {M C D : Matrix3i}
    (hM : WellFormed v M) (h1 : Equivalent hnf ops M C) (h2 : Equivalent hnf ops C D) :
    Equivalent hnf ops M D := by
  obtain ⟨g, hg, rfl⟩ := h1
  obtain ⟨g', hg', rfl⟩ := h2
  exact ⟨g'.mul g, hG.2.1 g' hg' g hg, (image_comp hnf hG hC hg' hg hM).symm⟩

theorem equivalent_wellFormed (hnf : Matrix3i → Matrix3i × Matrix3i) {ops : List Matrix3i}
    (hG : IsGroup ops) (hC : HnfCorrectOn hnf ops) {v : Int} {M C : Matrix3i}
    (hM : WellFormed v M) (h : Equivalent hnf ops M C) : WellFormed v C := by
  obtain ⟨g, hg, rfl⟩ := h
  exact imagesWellFormed_of_correct hnf ops hG.unimodular hC v g hg M hM

/-- Every orbit of the point group on the HNFs of volume `v` holds exactly one matrix that
`_is_canonical` accepts. -/
theorem orbit_unique_canonical (hnf : Matrix3i → Matrix3i × Matrix3i) {ops : List Matrix3i}
    (hG : IsGroup ops) (hC : HnfCorrectOn hnf ops) {v : Int} {M : Matrix3i}
    (hM : WellFormed v M) :
    ∃! C, WellFormed v C ∧ Equivalent hnf ops M C ∧ _is_canonical.loop hnf C ops = true := by
  obtain ⟨C, hCmem, hmax⟩ := exists_canon_max (ops.map fun g => image hnf g M)
    (by
      intro h
      have := List.mem_map_of_mem (fun g => image hnf g M) hG.1
      rw [h] at this
      exact absurd this (List.not_mem_nil _))
  obtain ⟨g, hg, rfl⟩ := List.mem_map.1 hCmem
  have hEq : Equivalent hnf ops M (image hnf g M) := ⟨g, hg, rfl⟩
  have hwf := equivalent_wellFormed hnf hG hC hM hEq
  refine ⟨image hnf g M, ⟨hwf, hEq, ?_⟩, ?_⟩
  · rw [is_canonical_loop_eq_true_iff]
    intro op hop
    rw [image_comp hnf hG hC hop hg hM]
    exact hmax _ (List.mem_map_of_mem (fun g => image hnf g M) (hG.2.1 op hop g hg))
  · rintro D ⟨hD, hMD, hcan⟩
    have h1 : Equivalent hnf ops D (image hnf g M) :=
      equivalent_trans hnf hG hC hD (equivalent_symm hnf hG hC hM hMD) hEq
    have h2 : Equivalent hnf ops (image hnf g M) D := equivalent_symm hnf hG hC hD h1
    obtain ⟨k1, hk1, e1⟩ := h1
    obtain ⟨k2, hk2, e2⟩ := h2
    have n1 : ¬ CanonLt D (image hnf g M) := by
      have := (is_canonical_loop_eq_true_iff hnf D ops).1 hcan k1 hk1
      rwa [e1] at this
    have n2 : ¬ CanonLt (image hnf g M) D := by
      have := hmax D (by
        obtain ⟨k, hk, e⟩ := hMD
        rw [← e]
        exact List.mem_map_of_mem (fun g => image hnf g M) hk)
      exact this
    exact eq_of_not_canonLt hD.2.1 hwf.2.1 n1 n2

theorem construct_canonical [Inhabited UnitType] (hnf : Matrix3i → Matrix3i × Matrix3i)
    (fuel : Nat) (e : SupercellEnumerator UnitType) (volume : Int)
    (it : SupercellIterator UnitType)
    (h : SupercellIterator.construct hnf fuel e volume = .ok (some it)) :
    _is_canonical hnf it = true := by
  by_cases hbe : e.begin_volume > e.end_volume
  · simp only [SupercellIterator.construct, if_pos hbe] at h
    cases h
  · simp only [SupercellIterator.construct, if_neg hbe] at h
    generalize (if volume < 1 then 1 else if volume < 1 then 1 else volume) = w at h
    by_cases hc : _is_canonical hnf (⟨false, e, w, { Matrix3i.Identity with a22 := w }, default⟩ :
        SupercellIterator UnitType) = true
    · simp only [hc, Bool.not_true, Bool.false_eq_true, if_false, Except.ok.injEq,
        Option.some.injEq] at h
      rw [← h]
      exact hc
    · simp only [Bool.not_eq_true] at hc
      simp only [hc, Bool.not_false, if_true, Except.ok.injEq] at h
      exact (increment_result hnf fuel _ it h).1

/-- C3 (counterexample): for the point group `{identity, mirror_xz}` of a cubic lattice the
matrix `diag(1, 1, 2)` is rejected by `_is_canonical` although none of its images is strictly
less than it (its images are itself and `diag(2, 1, 1)`), and `diag(2, 1, 1)` is accepted
although its image `diag(1, 1, 2)` is strictly less than it; at volume 2 the iterator emits
`diag(2, 1, 1)`, not the least matrix `diag(1, 1, 2)` of that orbit. -/
theorem C3_counterexample :
    (∀ op ∈ (cubic_mirror 3).point_group,
      HnfCorrectAt hermite_normal_form (op.mul ⟨1, 0, 0, 0, 1, 0, 0, 0, 2⟩) ∧
      HnfCorrectAt hermite_normal_form (op.mul ⟨2, 0, 0, 0, 1, 0, 0, 0, 1⟩)) ∧
    _is_canonical hermite_normal_form
      (position (cubic_mirror 3) 2 ⟨1, 0, 0, 0, 1, 0, 0, 0, 2⟩) = false ∧
    (¬ ∃ op ∈ (cubic_mirror 3).point_group,
      CanonLt (image hermite_normal_form op ⟨1, 0, 0, 0, 1, 0, 0, 0, 2⟩)
        ⟨1, 0, 0, 0, 1, 0, 0, 0, 2⟩) ∧
    _is_canonical hermite_normal_form
      (position (cubic_mirror 3) 2 ⟨2, 0, 0, 0, 1, 0, 0, 0, 1⟩) = true ∧
    (∃ op ∈ (cubic_mirror 3).point_group,
      CanonLt (image hermite_normal_form op ⟨2, 0, 0, 0, 1, 0, 0, 0, 1⟩)
        ⟨2, 0, 0, 0, 1, 0, 0, 0, 1⟩) ∧
    emitted hermite_normal_form 4 8 (cubic_mirror 3) 2 = some
      [⟨1, 0, 0, 0, 2, 0, 0, 0, 1⟩, ⟨2, 0, 0, 0, 1, 0, 0, 0, 1⟩, ⟨2, 0, 1, 0, 1, 0, 0, 0, 1⟩,
       ⟨2, 1, 0, 0, 1, 0, 0, 0, 1⟩, ⟨2, 1, 1, 0, 1, 0, 0, 0, 1⟩] := by
  refine ⟨by decide, by decide, by decide, by decide, by decide, by decide⟩

/-- C3 (amended): `_is_canonical` returns false if and only if some image
`H_k = hnf(op_k * M)` is strictly GREATER than `M` in the lexicographic order on
`(h00, h11, h22, h12, h02, h01)`; `M` is canonical iff no image is strictly greater, so every
matrix the constructor or an advance leaves the iterator at is one that none of its images
exceeds (the greatest of its orbit). -/
theorem C3_canonical_iff_no_greater_image (hnf : Matrix3i → Matrix3i × Matrix3i)
    (it : SupercellIterator UnitType) :
    (_is_canonical hnf it = false ↔
      ∃ op ∈ it.m_enum.point_group, CanonLt it.m_current (image hnf op it.m_current)) ∧
    (_is_canonical hnf it = true ↔
      ∀ op ∈ it.m_enum.point_group, ¬ CanonLt it.m_current (image hnf op it.m_current)) ∧
    (∀ fuel next, _increment hnf fuel it = some next →
      ∀ op ∈ next.m_enum.point_group, ¬ CanonLt next.m_current (image hnf op next.m_current)) ∧
    (∀ [Inhabited UnitType] (fuel : Nat) (e : SupercellEnumerator UnitType) (volume : Int)
      (first : SupercellIterator UnitType),
      SupercellIterator.construct hnf fuel e volume = .ok (some first) →
      ∀ op ∈ first.m_enum.point_group,
        ¬ CanonLt first.m_current (image hnf op first.m_current)) := by
  refine ⟨is_canonical_eq_false_iff hnf it, is_canonical_eq_true_iff hnf it, ?_, ?_⟩
  · intro fuel next h
    exact (is_canonical_eq_true_iff hnf next).1 (increment_result hnf fuel it next h).1
  · intro _ fuel e volume first h
    exact (is_canonical_eq_true_iff hnf first).1 (construct_canonical hnf fuel e volume first h)

/-- Witness of the amended C3: the advance from `(2, diag(1, 1, 2))` for the point group
`{identity, mirror_xz}` stops at `diag(1, 2, 1)`, which none of its images exceeds. -/
theorem C3_witness :
    ∀ op ∈ (position (cubic_mirror 3) 2 ⟨1, 0, 0, 0, 2, 0, 0, 0, 1⟩).m_enum.point_group,
      ¬ CanonLt (position (cubic_mirror 3) 2 ⟨1, 0, 0, 0, 2, 0, 0, 0, 1⟩).m_current
        (image hermite_normal_form op
          (position (cubic_mirror 3) 2 ⟨1, 0, 0, 0, 2, 0, 0, 0, 1⟩).m_current) :=
  (C3_canonical_iff_no_greater_image hermite_normal_form
    (position (cubic_mirror 3) 2 ⟨1, 0, 0, 0, 1, 0, 0, 0, 2⟩)).2.2.1 1
    (position (cubic_mirror 3) 2 ⟨1, 0, 0, 0, 2, 0, 0, 0, 1⟩) rfl

/-- C4: when the point group matrices form a group and `hnf` returns a Hermite normal form of
its argument, the relation `M ~ hnf(op * M)` is an equivalence on the HNFs of determinant `v`,
every orbit holds exactly one matrix accepted by `_is_canonical`, and walking volume `v` with
advance emits exactly the accepted matrices, each once: one emitted matrix per orbit. -/
theorem C4_one_emitted_per_orbit [Inhabited UnitType] (hnf : Matrix3i → Matrix3i × Matrix3i)
    (e : SupercellEnumerator UnitType) (v : Int) (hv : 1 ≤ v)
    (hbe : e.begin_volume ≤ e.end_volume) (hG : IsGroup e.point_group)
    (hC : HnfCorrectOn hnf e.point_group) :
    (∀ M, WellFormed v M → Equivalent hnf e.point_group M M) ∧
    (∀ M C, WellFormed v M → Equivalent hnf e.point_group M C →
      WellFormed v C ∧ Equivalent hnf e.point_group C M) ∧
    (∀ M C D, WellFormed v M → Equivalent hnf e.point_group M C →
      Equivalent hnf e.point_group C D → Equivalent hnf e.point_group M D) ∧
    (∀ M, WellFormed v M → ∃! C, WellFormed v C ∧ Equivalent hnf e.point_group M C ∧
      _is_canonical.loop hnf C e.point_group = true) ∧
    ∃ (kf ks : Nat) (L : List Matrix3i),
      (∀ fuel steps, kf ≤ fuel → ks ≤ steps → emitted hnf fuel steps e v = some L) ∧
      L.Nodup ∧
      (∀ C, C ∈ L ↔ (WellFormed v C ∧ _is_canonical.loop hnf C e.point_group = true)) ∧
      ∀ M, WellFormed v M → ∃! C, C ∈ L ∧ Equivalent hnf e.point_group M C := by
  refine ⟨fun M hM => equivalent_refl hnf hG hC hM,
    fun M C hM h => ⟨equivalent_wellFormed hnf hG hC hM h, equivalent_symm hnf hG hC hM h⟩,
    fun M C D hM h1 h2 => equivalent_trans hnf hG hC hM h1 h2,
    fun M hM => orbit_unique_canonical hnf hG hC hM, ?_⟩
  obtain ⟨kf, ks, L, hrun, hnd, hmem⟩ := emitted_spec hnf e v hv (by omega)
    (imagesWellFormed_of_correct hnf _ hG.unimodular hC)
  refine ⟨kf, ks, L, hrun, hnd, hmem, ?_⟩
  intro M hM
  obtain ⟨C, ⟨h1, h2, h3⟩, huniq⟩ := orbit_unique_canonical hnf hG hC hM
  refine ⟨C, ⟨(hmem C).2 ⟨h1, h3⟩, h2⟩, ?_⟩
  rintro D ⟨hD, hMD⟩
  obtain ⟨d1, d2⟩ := (hmem D).1 hD
  exact huniq D ⟨d1, hMD, d2⟩

/-- Witness of C4: the point group `{identity, mirror_xz}` of a cubic lattice at volume 2.  The
7 HNFs of determinant 2 fall into 5 orbits: `diag(1, 1, 2)` and `diag(2, 1, 1)` are two members
of one orbit, `diag(1, 1, 2)` is rejected, and 5 matrices are emitted. -/
theorem C4_witness :
    ((∀ M, WellFormed 2 M → Equivalent hermite_normal_form (cubic_mirror 5).point_group M M) ∧
    (∀ M C, WellFormed 2 M → Equivalent hermite_normal_form (cubic_mirror 5).point_group M C →
      WellFormed 2 C ∧ Equivalent hermite_normal_form (cubic_mirror 5).point_group C M) ∧
    (∀ M C D, WellFormed 2 M → Equivalent hermite_normal_form (cubic_mirror 5).point_group M C →
      Equivalent hermite_normal_form (cubic_mirror 5).point_group C D →
      Equivalent hermite_normal_form (cubic_mirror 5).point_group M D) ∧
    (∀ M, WellFormed 2 M → ∃! C, WellFormed 2 C ∧
      Equivalent hermite_normal_form (cubic_mirror 5).point_group M C ∧
      _is_canonical.loop hermite_normal_form C (cubic_mirror 5).point_group = true) ∧
    ∃ (kf ks : Nat) (L : List Matrix3i),
      (∀ fuel steps, kf ≤ fuel → ks ≤ steps →
        emitted hermite_normal_form fuel steps (cubic_mirror 5) 2 = some L) ∧
      L.Nodup ∧
      (∀ C, C ∈ L ↔ (WellFormed 2 C ∧
        _is_canonical.loop hermite_normal_form C (cubic_mirror 5).point_group = true)) ∧
      ∀ M, WellFormed 2 M → ∃! C, C ∈ L ∧
        Equivalent hermite_normal_form (cubic_mirror 5).point_group M C) ∧
    (WellFormed 2 ⟨1, 0, 0, 0, 1, 0, 0, 0, 2⟩ ∧
      image hermite_normal_form mirror_xz ⟨1, 0, 0, 0, 1, 0, 0, 0, 2⟩ =
        ⟨2, 0, 0, 0, 1, 0, 0, 0, 1⟩ ∧
      _is_canonical.loop hermite_normal_form ⟨1, 0, 0, 0, 1, 0, 0, 0, 2⟩
        (cubic_mirror 5).point_group = false) ∧
    (WellFormed 2 ⟨1, 0, 0, 0, 2, 1, 0, 0, 1⟩ ∧
      image hermite_normal_form mirror_xz ⟨1, 0, 0, 0, 2, 1, 0, 0, 1⟩ =
        ⟨2, 1, 0, 0, 1, 0, 0, 0, 1⟩ ∧
      _is_canonical.loop hermite_normal_form ⟨1, 0, 0, 0, 2, 1, 0, 0, 1⟩
        (cubic_mirror 5).point_group = false) ∧
    emitted hermite_normal_form 4 8 (cubic_mirror 5) 2 = some
      [⟨1, 0, 0, 0, 2, 0, 0, 0, 1⟩, ⟨2, 0, 0, 0, 1, 0, 0, 0, 1⟩, ⟨2, 0, 1, 0, 1, 0, 0, 0, 1⟩,
       ⟨2, 1, 0, 0, 1, 0, 0, 0, 1⟩, ⟨2, 1, 1, 0, 1, 0, 0, 0, 1⟩] :=
  ⟨C4_one_emitted_per_orbit hermite_normal_form (cubic_mirror 5) 2 (by decide) (by decide)
    isGroup_cubic_mirror (hnfCorrectOn_hermite_normal_form _ unimodular_cubic_mirror),
    by decide, by decide, by decide⟩

theorem canonLt_irrefl (A : Matrix3i) : ¬ CanonLt A A := by
  unfold CanonLt
  omega

theorem sweep_unit_step (hnf : Matrix3i → Matrix3i × Matrix3i) (fuel : Nat) (v : Int)
    (steps : Nat) (it : SupercellIterator UnitType) (L : List Matrix3i) (h : it.m_vol = v)
    (hn : _increment hnf fuel it = some (_try_increment it).unflag)
    (hs : sweep hnf fuel v steps (_try_increment it).unflag = some L) :
    sweep hnf fuel v (steps + 1) it = some (it.m_current :: L) :=
  sweep_cons hnf fuel v steps it _ L h hn hs

/-- C5: with the trivial point group `{I}` and an `hnf` that leaves a matrix in HNF unchanged,
`_is_canonical` accepts every HNF, an advance from a well-formed position is a single raw step,
the iterator emits at every volume `v >= 1` exactly the HNFs of determinant `v`, each once, and
at volume 2 these are the 7 HNFs of determinant 2. -/
theorem C5_trivial_point_group [Inhabited UnitType] (hnf : Matrix3i → Matrix3i × Matrix3i)
    (e : SupercellEnumerator UnitType) (hpg : e.point_group = [Matrix3i.Identity])
    (hfix : ∀ M, IsHNF M → (hnf M).1 = M) (hbe : e.begin_volume ≤ e.end_volume) :
    (∀ it : SupercellIterator UnitType, it.m_enum = e → IsHNF it.m_current →
      _is_canonical hnf it = true) ∧
    (∀ (it : SupercellIterator UnitType) (fuel : Nat), it.m_enum = e →
      WellFormed it.m_vol it.m_current →
      _increment hnf (fuel + 1) it = some (_try_increment it).unflag) ∧
    (∀ v : Int, 1 ≤ v → ∃ (kf ks : Nat) (L : List Matrix3i),
      (∀ fuel steps, kf ≤ fuel → ks ≤ steps → emitted hnf fuel steps e v = some L) ∧
      L.Nodup ∧ ∀ H, H ∈ L ↔ (IsHNF H ∧ H.det = v)) ∧
    (∀ fuel steps, 1 ≤ fuel → 8 ≤ steps → emitted hnf fuel steps e 2 = some
      [⟨1, 0, 0, 0, 1, 0, 0, 0, 2⟩, ⟨1, 0, 0, 0, 2, 0, 0, 0, 1⟩, ⟨1, 0, 0, 0, 2, 1, 0, 0, 1⟩,
       ⟨2, 0, 0, 0, 1, 0, 0, 0, 1⟩, ⟨2, 0, 1, 0, 1, 0, 0, 0, 1⟩, ⟨2, 1, 0, 0, 1, 0, 0, 0, 1⟩,
       ⟨2, 1, 1, 0, 1, 0, 0, 0, 1⟩]) := by
  have himg : ∀ M, IsHNF M → image hnf Matrix3i.Identity M = M := by
    intro M hM
    rw [image, Matrix3i.identity_mul]
    exact hfix M hM
  have hloop : ∀ M, IsHNF M → _is_canonical.loop hnf M e.point_group = true := by
    intro M hM
    rw [is_canonical_loop_eq_true_iff, hpg]
    intro op hop
    rw [List.mem_singleton.1 hop, himg M hM]
    exact canonLt_irrefl M
  have hcan : ∀ it : SupercellIterator UnitType, it.m_enum = e → IsHNF it.m_current →
      _is_canonical hnf it = true := by
    intro it he hM
    rw [is_canonical_eq_loop hnf it he rfl]
    exact hloop _ hM
  have hstep : ∀ (it : SupercellIterator UnitType) (fuel : Nat), it.m_enum = e →
      WellFormed it.m_vol it.m_current →
      _increment hnf (fuel + 1) it = some (_try_increment it).unflag := by
    intro it fuel he hwf
    have h1 := (try_increment_rawStep it hwf).wellFormed hwf
    have h2 := hcan (_try_increment it) (by rw [try_increment_m_enum, he]) h1.2.1
    simp only [_increment, h2, Bool.not_true, Bool.false_eq_true, if_false]
    rfl
  have hpre : ∀ w, ImagesWellFormed hnf e.point_group w := by
    intro w op hop M hM
    rw [hpg] at hop
    rw [List.mem_singleton.1 hop, himg M hM.2.1]
    exact hM
  refine ⟨hcan, hstep, ?_, ?_⟩
  · intro v hv
    obtain ⟨kf, ks, L, hrun, hnd, hmem⟩ := emitted_spec hnf e v hv (by omega) hpre
    refine ⟨kf, ks, L, hrun, hnd, fun H => ?_⟩
    rw [hmem, ← wellFormed_iff_isHNF_det hv]
    exact ⟨fun h => h.1, fun h => ⟨h, hloop H h.2.1⟩⟩
  · intro fuel steps hf hs
    obtain ⟨f, rfl⟩ : ∃ f, fuel = f + 1 := ⟨fuel - 1, by omega⟩
    obtain ⟨s, rfl⟩ : ∃ s, steps = s + 8 := ⟨steps - 8, by omega⟩
    have hbe' : ¬ e.begin_volume > e.end_volume := by omega
    have c0 := hcan (⟨false, e, 2, ⟨1, 0, 0, 0, 1, 0, 0, 0, 2⟩, default⟩ :
      SupercellIterator UnitType) rfl (show IsHNF ⟨1, 0, 0, 0, 1, 0, 0, 0, 2⟩ by decide)
    have a0 := hstep (⟨false, e, 2, ⟨1, 0, 0, 0, 1, 0, 0, 0, 2⟩, default⟩ :
      SupercellIterator UnitType) f rfl (show WellFormed 2 ⟨1, 0, 0, 0, 1, 0, 0, 0, 2⟩ by decide)
    have a1 := hstep (⟨false, e, 2, ⟨1, 0, 0, 0, 2, 0, 0, 0, 1⟩, default⟩ :
      SupercellIterator UnitType) f rfl (show WellFormed 2 ⟨1, 0, 0, 0, 2, 0, 0, 0, 1⟩ by decide)
    have a2 := hstep (⟨false, e, 2, ⟨1, 0, 0, 0, 2, 1, 0, 0, 1⟩, default⟩ :
      SupercellIterator UnitType) f rfl (show WellFormed 2 ⟨1, 0, 0, 0, 2, 1, 0, 0, 1⟩ by decide)
    have a3 := hstep (⟨false, e, 2, ⟨2, 0, 0, 0, 1, 0, 0, 0, 1⟩, default⟩ :
      SupercellIterator UnitType) f rfl (show WellFormed 2 ⟨2, 0, 0, 0, 1, 0, 0, 0, 1⟩ by decide)
    have a4 := hstep (⟨false, e, 2, ⟨2, 0, 1, 0, 1, 0, 0, 0, 1⟩, default⟩ :
      SupercellIterator UnitType) f rfl (show WellFormed 2 ⟨2, 0, 1, 0, 1, 0, 0, 0, 1⟩ by decide)
    have a5 := hstep (⟨false, e, 2, ⟨2, 1, 0, 0, 1, 0, 0, 0, 1⟩, default⟩ :
      SupercellIterator UnitType) f rfl (show WellFormed 2 ⟨2, 1, 0, 0, 1, 0, 0, 0, 1⟩ by decide)
    have a6 := hstep (⟨false, e, 2, ⟨2, 1, 1, 0, 1, 0, 0, 0, 1⟩, default⟩ :
      SupercellIterator UnitType) f rfl (show WellFormed 2 ⟨2, 1, 1, 0, 1, 0, 0, 0, 1⟩ by decide)
    have s7 : sweep hnf (f + 1) 2 (s + 1) (_try_increment (⟨false, e, 2,
        ⟨2, 1, 1, 0, 1, 0, 0, 0, 1⟩, default⟩ : SupercellIterator UnitType)).unflag
        = some [] :=
      sweep_left hnf _ 2 s _ (show ((2 : Int) + 1) ≠ 2 by decide)
    have s6 := sweep_unit_step hnf (f + 1) 2 (s + 1) _ _ rfl a6 s7
    have s5 := sweep_unit_step hnf (f + 1) 2 (s + 2) _ _ rfl a5 s6
    have s4 := sweep_unit_step hnf (f + 1) 2 (s + 3) _ _ rfl a4 s5
    have s3 := sweep_unit_step hnf (f + 1) 2 (s + 4) _ _ rfl a3 s4
    have s2 := sweep_unit_step hnf (f + 1) 2 (s + 5) _ _ rfl a2 s3
    have s1 := sweep_unit_step hnf (f + 1) 2 (s + 6) _ _ rfl a1 s2
    have s0 := sweep_unit_step hnf (f + 1) 2 (s + 7) _ _ rfl a0 s1
    simp only [emitted, SupercellIterator.construct, if_neg hbe']
    have c0' : _is_canonical hnf (⟨false, e, if (2 : Int) < 1 then 1 else
        if (2 : Int) < 1 then 1 else 2,
        { Matrix3i.Identity with a22 := if (2 : Int) < 1 then 1 else
          if (2 : Int) < 1 then 1 else 2 }, default⟩ : SupercellIterator UnitType) = true := c0
    simp only [c0', Bool.not_true, Bool.false_eq_true, if_false]
    exact s0

/-- Witness of C5: the trivial point group with the modelled `hermite_normal_form`. -/
theorem C5_witness :
    (∀ it : SupercellIterator Unit, it.m_enum = trivial_group 5 → IsHNF it.m_current →
      _is_canonical hermite_normal_form it = true) ∧
    (∀ (it : SupercellIterator Unit) (fuel : Nat), it.m_enum = trivial_group 5 →
      WellFormed it.m_vol it.m_current →
      _increment hermite_normal_form (fuel + 1) it = some (_try_increment it).unflag) ∧
    (∀ v : Int, 1 ≤ v → ∃ (kf ks : Nat) (L : List Matrix3i),
      (∀ fuel steps, kf ≤ fuel → ks ≤ steps →
        emitted hermite_normal_form fuel steps (trivial_group 5) v = some L) ∧
      L.Nodup ∧ ∀ H, H ∈ L ↔ (IsHNF H ∧ H.det = v)) ∧
    (∀ fuel steps, 1 ≤ fuel → 8 ≤ steps →
      emitted hermite_normal_form fuel steps (trivial_group 5) 2 = some
      [⟨1, 0, 0, 0, 1, 0, 0, 0, 2⟩, ⟨1, 0, 0, 0, 2, 0, 0, 0, 1⟩, ⟨1, 0, 0, 0, 2, 1, 0, 0, 1⟩,
       ⟨2, 0, 0, 0, 1, 0, 0, 0, 1⟩, ⟨2, 0, 1, 0, 1, 0, 0, 0, 1⟩, ⟨2, 1, 0, 0, 1, 0, 0, 0, 1⟩,
       ⟨2, 1, 1, 0, 1, 0, 0, 0, 1⟩]) :=
  C5_trivial_point_group hermite_normal_form (trivial_group 5) rfl
    (fun M hM => by rw [hermite_normal_form_of_isHNF hM]) (by decide)

theorem construct_flag [Inhabited UnitType] (hnf : Matrix3i → Matrix3i × Matrix3i)
    (fuel : Nat) (e : SupercellEnumerator UnitType) (volume : Int)
    (it : SupercellIterator UnitType)
    (h : SupercellIterator.construct hnf fuel e volume = .ok (some it)) :
    it.m_super_updated = false := by
  by_cases hbe : e.begin_volume > e.end_volume
  · simp only [SupercellIterator.construct, if_pos hbe] at h
    cases h
  · simp only [SupercellIterator.construct, if_neg hbe] at h
    generalize (if volume < 1 then 1 else if volume < 1 then 1 else volume) = w at h
    by_cases hc : _is_canonical hnf (⟨false, e, w, { Matrix3i.Identity with a22 := w }, default⟩ :
        SupercellIterator UnitType) = true
    · simp only [hc, Bool.not_true, Bool.false_eq_true, if_false, Except.ok.injEq,
        Option.some.injEq] at h
      rw [← h]
    · simp only [Bool.not_eq_true] at hc
      simp only [hc, Bool.not_false, if_true, Except.ok.injEq] at h
      exact (increment_result hnf fuel _ it h).2.1

/-- C11: a requested volume below 1 is clamped to 1: for every `v < 1` the constructor returns
exactly what it returns for the volume 1 (so the two iterators compare equal, with the same
volume and matrix), it throws for `v < 1` only when it throws for every volume
(`begin_volume() > end_volume()`), and under the point group precondition the iterator it
returns sits at volume 1 on the identity matrix. -/
theorem C11_volume_clamped [Inhabited UnitType] (hnf : Matrix3i → Matrix3i × Matrix3i)
    (fuel : Nat) (e : SupercellEnumerator UnitType) (v : Int) (hv : v < 1) :
    SupercellIterator.construct hnf fuel e v = SupercellIterator.construct hnf fuel e 1 ∧
    (∀ a b, SupercellIterator.construct hnf fuel e v = .ok (some a) →
      SupercellIterator.construct hnf fuel e 1 = .ok (some b) →
      a.eq b = true ∧ a.m_vol = b.m_vol ∧ a.m_current = b.m_current) ∧
    (SupercellIterator.construct hnf fuel e v = .error Error.runtime_error ↔
      e.begin_volume > e.end_volume) ∧
    (e.begin_volume ≤ e.end_volume → (∀ op ∈ e.point_group, Unimodular op) →
      HnfCorrectOn hnf e.point_group →
      ∃ it, SupercellIterator.construct hnf fuel e v = .ok (some it) ∧ it.m_vol = 1 ∧
        it.m_current = Matrix3i.Identity) := by
  have heq : SupercellIterator.construct hnf fuel e v
      = SupercellIterator.construct hnf fuel e 1 := by
    simp only [SupercellIterator.construct, if_pos hv]
    rfl
  refine ⟨heq, ?_, ?_, ?_⟩
  · intro a b ha hb
    rw [heq, hb] at ha
    simp only [Except.ok.injEq, Option.some.injEq] at ha
    subst ha
    refine ⟨?_, rfl, rfl⟩
    simp [SupercellIterator.eq, Matrix3i.sub, Matrix3i.isZero]
  · constructor
    · intro h
      by_contra hbe
      simp only [SupercellIterator.construct, if_neg hbe] at h
      split_ifs at h
    · intro h
      simp only [SupercellIterator.construct, if_pos h]
  · intro hbe huni hcorr
    have hpre := imagesWellFormed_of_correct hnf _ huni hcorr
    have hc : _is_canonical hnf (⟨false, e, 1, { Matrix3i.Identity with a22 := 1 }, default⟩ :
        SupercellIterator UnitType) = true :=
      last_hnf_canonical hnf _ (le_refl 1) (hpre 1) rfl
    refine ⟨⟨false, e, 1, Matrix3i.Identity, default⟩, ?_, rfl, rfl⟩
    rw [heq]
    have hbe' : ¬ e.begin_volume > e.end_volume := by omega
    simp only [SupercellIterator.construct, if_neg hbe']
    have hc' : _is_canonical hnf (⟨false, e, if (1 : Int) < 1 then 1 else
        if (1 : Int) < 1 then 1 else 1,
        { Matrix3i.Identity with a22 := if (1 : Int) < 1 then 1 else
          if (1 : Int) < 1 then 1 else 1 }, default⟩ : SupercellIterator UnitType) = true := hc
    simp only [hc', Bool.not_true, Bool.false_eq_true, if_false]
    rfl

/-- Witness of C11: requested volume `-3` on a triclinic enumerator. -/
theorem C11_witness :
    SupercellIterator.construct hermite_normal_form 0 (triclinic 5) (-3)
      = SupercellIterator.construct hermite_normal_form 0 (triclinic 5) 1 ∧
    ∃ it, SupercellIterator.construct hermite_normal_form 0 (triclinic 5) (-3) = .ok (some it) ∧
      it.m_vol = 1 ∧ it.m_current = Matrix3i.Identity :=
  ⟨(C11_volume_clamped hermite_normal_form 0 (triclinic 5) (-3) (by decide)).1,
    (C11_volume_clamped hermite_normal_form 0 (triclinic 5) (-3) (by decide)).2.2.2
      (by decide) unimodular_triclinic hnfCorrectOn_triclinic⟩

theorem deref_spec (ms : UnitType → Matrix3i → UnitType) (it : SupercellIterator UnitType) :
    (it.deref ms).2.m_super_updated = true ∧ (it.deref ms).2.m_enum = it.m_enum ∧
    (it.deref ms).2.m_vol = it.m_vol ∧ (it.deref ms).2.m_current = it.m_current ∧
    (it.deref ms).1 = (it.deref ms).2.m_super ∧
    (it.m_super_updated = false → (it.deref ms).1 = ms it.m_enum.m_unit it.m_current) ∧
    (it.m_super_updated = true → (it.deref ms).1 = it.m_super ∧ (it.deref ms).2 = it) := by
  unfold SupercellIterator.deref
  cases h : it.m_super_updated <;> simp [h]

theorem arrow_eq_deref (ms : UnitType → Matrix3i → UnitType) (it : SupercellIterator UnitType) :
    it.arrow ms = it.deref ms := rfl

theorem cacheCoherent_of_flag (ms : UnitType → Matrix3i → UnitType)
    (it : SupercellIterator UnitType) (h : it.m_super_updated = false) : CacheCoherent ms it := by
  intro h'
  rw [h] at h'
  exact absurd h' (by decide)

theorem cacheCoherent_deref (ms : UnitType → Matrix3i → UnitType)
    (it : SupercellIterator UnitType) (h : CacheCoherent ms it) :
    CacheCoherent ms (it.deref ms).2 ∧ (it.deref ms).1 = ms it.m_enum.m_unit it.m_current := by
  obtain ⟨h1, h2, -, h4, h5, h6, h7⟩ := deref_spec ms it
  cases hf : it.m_super_updated
  · have h8 := h6 hf
    refine ⟨fun _ => ?_, h8⟩
    rw [← h5, h8, h2, h4]
  · obtain ⟨h8, h9⟩ := h7 hf
    rw [h9]
    exact ⟨h, by rw [h8]; exact h hf⟩

theorem post_increment_spec [Inhabited UnitType] (hnf : Matrix3i → Matrix3i × Matrix3i)
    (fuel : Nat) (it result next : SupercellIterator UnitType)
    (h : it.post_increment hnf fuel = some (result, next)) :
    result = it.copy ∧ _increment hnf fuel it = some next := by
  unfold SupercellIterator.post_increment at h
  cases hn : _increment hnf fuel it with
  | none => simp [hn] at h
  | some n =>
    simp only [hn, Option.some.injEq, Prod.mk.injEq] at h
    exact ⟨h.1.symm, by rw [h.2]⟩

theorem reachable_cacheCoherent [Inhabited UnitType] (ms : UnitType → Matrix3i → UnitType)
    (hnf : Matrix3i → Matrix3i × Matrix3i) (it : SupercellIterator UnitType)
    (h : Reachable ms hnf it) : CacheCoherent ms it := by
  induction h with
  | construct fuel e volume it hc =>
    exact cacheCoherent_of_flag ms it (construct_flag hnf fuel e volume it hc)
  | pre_increment fuel it next _ hn _ =>
    exact cacheCoherent_of_flag ms next (increment_result hnf fuel it next hn).2.1
  | post_increment fuel it result next _ hn _ =>
    exact cacheCoherent_of_flag ms next
      (increment_result hnf fuel it next (post_increment_spec hnf fuel it result next hn).2).2.1
  | post_result fuel it result next _ hn _ =>
    rw [(post_increment_spec hnf fuel it result next hn).1]
    exact cacheCoherent_of_flag ms _ rfl
  | copy it _ _ => exact cacheCoherent_of_flag ms _ rfl
  | assign self B _ _ _ _ => exact cacheCoherent_of_flag ms _ rfl
  | deref it _ ih => exact (cacheCoherent_deref ms it ih).1
  | arrow it _ ih => exact (cacheCoherent_deref ms it ih).1

/-- C12: in every iterator state reachable from the `(enumerator, volume)` constructor by
prefix or postfix increment, copy, assignment and dereference, a true freshness flag
`m_super_updated` means that `m_super` is `make_supercell(unit, m_current)`; hence `operator*`
and `operator->` return the supercell of the current matrix and leave a coherent state on the
same position; every advance, every copy and every assignment clears the flag. -/
theorem C12_cache_coherent [Inhabited UnitType] (make_supercell : UnitType → Matrix3i → UnitType)
    (hnf : Matrix3i → Matrix3i × Matrix3i) (it : SupercellIterator UnitType)
    (h : Reachable make_supercell hnf it) :
    (it.m_super_updated = true → it.m_super = make_supercell it.m_enum.m_unit it.m_current) ∧
    (it.deref make_supercell).1 = make_supercell it.m_enum.m_unit it.m_current ∧
    (it.arrow make_supercell).1 = make_supercell it.m_enum.m_unit it.m_current ∧
    ((it.deref make_supercell).2.m_current = it.m_current ∧
      (it.deref make_supercell).2.m_vol = it.m_vol ∧
      (it.deref make_supercell).2.m_super_updated = true ∧
      (it.deref make_supercell).2.m_super = make_supercell it.m_enum.m_unit it.m_current) ∧
    (∀ fuel next, it.pre_increment hnf fuel = some next → next.m_super_updated = false) ∧
    (∀ fuel result next, it.post_increment hnf fuel = some (result, next) →
      next.m_super_updated = false ∧ result.m_super_updated = false ∧
      result.m_current = it.m_current ∧ result.m_vol = it.m_vol) ∧
    it.copy.m_super_updated = false ∧
    (∀ self : SupercellIterator UnitType, (self.assign it).m_super_updated = false ∧
      (self.assign it).m_current = it.m_current) := by
  have hco := reachable_cacheCoherent make_supercell hnf it h
  obtain ⟨h1, h2⟩ := cacheCoherent_deref make_supercell it hco
  obtain ⟨d1, d2, d3, d4, d5, -, -⟩ := deref_spec make_supercell it
  refine ⟨hco, h2, h2, ⟨d4, d3, d1, ?_⟩, ?_, ?_, rfl, fun self => ⟨rfl, rfl⟩⟩
  · rw [← d5, h2]
  · intro fuel next hn
    exact (increment_result hnf fuel it next hn).2.1
  · intro fuel result next hn
    obtain ⟨p1, p2⟩ := post_increment_spec hnf fuel it result next hn
    refine ⟨(increment_result hnf fuel it next p2).2.1, ?_, ?_, ?_⟩ <;> rw [p1] <;> rfl

/-- Witness of C12: the iterator constructed at volume 2 on `lattice_enumerator`, after one
dereference. -/
theorem C12_witness :
    ((SupercellIterator.deref lattice_supercell
        (position lattice_enumerator 2 (first_hnf 2))).2.m_super_updated = true →
      (SupercellIterator.deref lattice_supercell
        (position lattice_enumerator 2 (first_hnf 2))).2.m_super
        = lattice_supercell ⟨2, 0, 0, 0, 3, 0, 0, 0, 5⟩ ⟨1, 0, 0, 0, 1, 0, 0, 0, 2⟩) ∧
    (SupercellIterator.deref lattice_supercell (SupercellIterator.deref lattice_supercell
        (position lattice_enumerator 2 (first_hnf 2))).2).1
      = ⟨2, 0, 0, 0, 3, 0, 0, 0, 10⟩ :=
  ⟨(C12_cache_coherent lattice_supercell hermite_normal_form _
      (Reachable.deref _ (Reachable.construct 0 lattice_enumerator 2
        (position lattice_enumerator 2 (first_hnf 2)) rfl))).1,
    (C12_cache_coherent lattice_supercell hermite_normal_form _
      (Reachable.deref _ (Reachable.construct 0 lattice_enumerator 2
        (position lattice_enumerator 2 (first_hnf 2)) rfl))).2.1⟩

theorem card_hnf_index (d : Nat) : (hnf_index d).card = hnf_count d := by
  unfold hnf_index hnf_count
  rw [Finset.card_sigma]
  refine Finset.sum_congr rfl fun a _ => ?_
  rw [Finset.card_sigma]
  refine Finset.sum_congr rfl fun b _ => ?_
  rw [Finset.card_product, Finset.card_product, Finset.card_range, Finset.card_range]
  ring

theorem mem_hnf_index {d : Nat} {t : (_ : Nat) × (_ : Nat) × Nat × Nat × Nat} :
    t ∈ hnf_index d ↔ d ≠ 0 ∧ t.1 ∣ d ∧ t.2.1 ∣ d / t.1 ∧ t.2.2.1 < t.1 ∧ t.2.2.2.1 < t.1 ∧
      t.2.2.2.2 < t.2.1 := by
  obtain ⟨a, b, x, y, z⟩ := t
  simp only [hnf_index, Finset.mem_sigma, Nat.mem_divisors, Finset.mem_product, Finset.mem_range]
  constructor
  · rintro ⟨⟨h1, h2⟩, ⟨h3, h4⟩, h5, h6, h7⟩
    exact ⟨h2, h1, h3, h5, h6, h7⟩
  · rintro ⟨h2, h1, h3, h5, h6, h7⟩
    refine ⟨⟨h1, h2⟩, ⟨h3, ?_⟩, h5, h6, h7⟩
    have hpos : 0 < d / a := Nat.div_pos (Nat.le_of_dvd (Nat.pos_of_ne_zero h2) h1) (by omega)
    omega

theorem hnf_of_wellFormed {d : Nat} {t : (_ : Nat) × (_ : Nat) × Nat × Nat × Nat}
    (h : t ∈ hnf_index d) : WellFormed (d : Int) (hnf_of d t) := by
  obtain ⟨hd, h1, h2, h3, h4, h5⟩ := mem_hnf_index.1 h
  obtain ⟨a, b, x, y, z⟩ := t
  simp only at h1 h2 h3 h4 h5
  have ha : 0 < a := by omega
  have hb : 0 < b := by omega
  obtain ⟨q, hq⟩ := h1
  obtain ⟨c, hc⟩ := h2
  have hq' : d / a = q := by rw [hq]; exact Nat.mul_div_cancel_left q ha
  rw [hq'] at hc
  have hdabc : d = a * b * c := by rw [hq, hc, mul_assoc]
  have hcdiv : d / (a * b) = c := by
    rw [hdabc]; exact Nat.mul_div_cancel_left c (Nat.mul_pos ha hb)
  have hcpos : 0 < c := by
    rcases Nat.eq_zero_or_pos c with h0 | h0
    · rw [h0, mul_zero] at hdabc; exact absurd hdabc hd
    · exact h0
  refine ⟨by omega, ⟨rfl, rfl, rfl, ?_, ?_, ?_, ?_, ?_, ?_, ?_, ?_, ?_⟩, ?_⟩ <;>
    simp only [hnf_of, hcdiv] <;> try omega
  rw [hdabc]
  push_cast
  ring

theorem hnf_of_injOn (d : Nat) : Set.InjOn (hnf_of d) (hnf_index d : Set _) := by
  rintro ⟨a, b, x, y, z⟩ _ ⟨a', b', x', y', z'⟩ _ h
  simp only [hnf_of, Matrix3i.mk.injEq, Nat.cast_inj, true_and] at h
  obtain ⟨h1, h2, h3, h4, h5, -⟩ := h
  subst h1 h2 h3 h4 h5
  rfl

theorem hnf_of_surj {d : Nat} {H : Matrix3i} (hH : WellFormed (d : Int) H) :
    ∃ t ∈ hnf_index d, hnf_of d t = H := by
  obtain ⟨hv, ⟨h10, h20, h21, h00, h11, h22, h12l, h12u, h02l, h02u, h01l, h01u⟩, hdet⟩ := hH
  obtain ⟨p00, p01, p02, p10, p11, p12, p20, p21, p22⟩ := H
  simp only at h10 h20 h21 h00 h11 h22 h12l h12u h02l h02u h01l h01u hdet
  subst h10 h20 h21
  lift p00 to Nat using (by omega) with a
  lift p11 to Nat using (by omega) with b
  lift p22 to Nat using (by omega) with c
  lift p01 to Nat using h01l with x
  lift p02 to Nat using h02l with y
  lift p12 to Nat using h12l with z
  have hdabc : d = a * b * c := by exact_mod_cast hdet.symm
  have ha : 0 < a := by omega
  have hb : 0 < b := by omega
  have hc : 0 < c := by omega
  have hcdiv : d / (a * b) = c := by
    rw [hdabc]; exact Nat.mul_div_cancel_left c (Nat.mul_pos ha hb)
  refine ⟨⟨a, b, x, y, z⟩, mem_hnf_index.2 ⟨?_, ?_, ?_, ?_, ?_, ?_⟩, ?_⟩
  · rw [hdabc]; exact (Nat.mul_pos (Nat.mul_pos ha hb) hc).ne'
  · exact ⟨b * c, by rw [hdabc, mul_assoc]⟩
  · have : d / a = b * c := by
      rw [hdabc, mul_assoc]; exact Nat.mul_div_cancel_left _ ha
    simp only [this]
    exact ⟨c, rfl⟩
  · simp only; omega
  · simp only; omega
  · simp only; omega
  · simp only [hnf_of, hcdiv]

theorem hnf_set_eq (d : Nat) (hd : 1 ≤ d) :
    {H : Matrix3i | IsHNF H ∧ H.det = (d : Int)}
      = ((hnf_index d).image (hnf_of d) : Finset Matrix3i) := by
  ext H
  simp only [Set.mem_setOf_eq, Finset.coe_image, Set.mem_image, Finset.mem_coe]
  rw [← wellFormed_iff_isHNF_det (by exact_mod_cast hd)]
  constructor
  · intro h
    exact hnf_of_surj h
  · rintro ⟨t, ht, rfl⟩
    exact hnf_of_wellFormed ht

theorem card_hnf_image (d : Nat) : ((hnf_index d).image (hnf_of d)).card = hnf_count d := by
  rw [Finset.card_image_of_injOn (hnf_of_injOn d), card_hnf_index]

/-- C17 (counterexample): the raw walk at volume 2 visits exactly 7 matrices, and the sum of the
squares of the divisors of 2 is 5. -/
theorem C17_counterexample :
    (∀ i, i < 7 →
      (_try_increment^[i] (position (trivial_group 5) 2 (first_hnf 2))).m_vol = 2) ∧
    (_try_increment^[7] (position (trivial_group 5) 2 (first_hnf 2))).m_vol = 3 ∧
    sigma_2 2 = 5 ∧ Set.ncard {H : Matrix3i | IsHNF H ∧ H.det = 2} = 7 := by
  refine ⟨by decide, by decide, by decide, ?_⟩
  have h := hnf_set_eq 2 (le_refl _ |>.trans (by decide))
  simp only [Nat.cast_ofNat] at h
  rw [h, Set.ncard_coe_Finset, card_hnf_image]
  decide

/-- C17 (amended): for every determinant `d >= 1` the number of 3x3 HNFs of determinant `d`,
which is the number of matrices the raw walk visits at volume `d`, equals the sum over the
diagonals `(a, b, c)`, `a * b * c = d`, of `a * a * b` (the sum over `a | d` and `b | d / a` of
`a^2 * b`); for `d = 1, ..., 5` it is `1, 7, 13, 35, 31`. -/
theorem C17_hnf_count (d : Nat) (hd : 1 ≤ d) (it : SupercellIterator UnitType)
    (hvol : it.m_vol = d) (hcur : it.m_current = { Matrix3i.Identity with a22 := d }) :
    Set.ncard {H : Matrix3i | IsHNF H ∧ H.det = (d : Int)} = hnf_count d ∧
    (∃ n : Nat, n = hnf_count d ∧
      (∀ i, i < n → (_try_increment^[i] it).m_vol = d) ∧
      (_try_increment^[n] it).m_vol = d + 1 ∧
      (∀ H, (IsHNF H ∧ H.det = (d : Int)) ↔
        ∃ i, i < n ∧ (_try_increment^[i] it).m_current = H) ∧
      (∀ i j, i < n → j < n →
        (_try_increment^[i] it).m_current = (_try_increment^[j] it).m_current → i = j)) ∧
    (List.range 6).map hnf_count = [0, 1, 7, 13, 35, 31] := by
  have hv : (1 : Int) ≤ (d : Int) := by exact_mod_cast hd
  refine ⟨?_, ?_, by decide⟩
  · rw [hnf_set_eq d hd, Set.ncard_coe_Finset, card_hnf_image]
  · have h0 : WellFormed (d : Int) it.m_current := by rw [hcur]; exact first_hnf_wellFormed hv
    obtain ⟨n, hn1, hin, hmono, hnv, -, -, hreach⟩ := raw_walk_from (d : Int) _ it hvol h0 le_rfl
    have hinj : ∀ i j, i < n → j < n →
        (_try_increment^[i] it).m_current = (_try_increment^[j] it).m_current → i = j := by
      intro i j hi hj he
      rcases lt_trichotomy i j with hlt | heq | hgt
      · have := hmono i j hlt hj
        rw [he] at this
        omega
      · exact heq
      · have := hmono j i hgt hi
        rw [he] at this
        omega
    have hmem : ∀ H, (IsHNF H ∧ H.det = (d : Int)) ↔
        ∃ i, i < n ∧ (_try_increment^[i] it).m_current = H := by
      intro H
      rw [← wellFormed_iff_isHNF_det hv]
      constructor
      · intro hH
        refine hreach H hH ?_
        rw [hcur]
        exact first_hnf_least hH
      · rintro ⟨i, hi, rfl⟩
        exact (hin i hi).2
    refine ⟨n, ?_, fun i hi => (hin i hi).1, hnv, hmem, hinj⟩
    rw [← card_hnf_image, ← Finset.card_range n]
    refine Finset.card_bij (fun i _ => (_try_increment^[i] it).m_current) ?_ ?_ ?_
    · intro i hi
      rw [Finset.mem_image]
      obtain ⟨t, ht, he⟩ := hnf_of_surj (hin i (Finset.mem_range.1 hi)).2
      exact ⟨t, ht, he⟩
    · intro i hi j hj he
      exact hinj i j (Finset.mem_range.1 hi) (Finset.mem_range.1 hj) he
    · intro H hH
      obtain ⟨t, ht, rfl⟩ := Finset.mem_image.1 hH
      obtain ⟨i, hi, he⟩ := hreach _ (hnf_of_wellFormed ht) (by
        rw [hcur]; exact first_hnf_least (hnf_of_wellFormed ht))
      exact ⟨i, Finset.mem_range.2 hi, he⟩

/-- Witness of C17 (amended) at determinant 4. -/
theorem C17_witness :
    Set.ncard {H : Matrix3i | IsHNF H ∧ H.det = ((4 : Nat) : Int)} = hnf_count 4 ∧
    (∃ n : Nat, n = hnf_count 4 ∧
      (∀ i, i < n →
        (_try_increment^[i] (position (trivial_group 5) 4 (first_hnf 4))).m_vol = (4 : Nat)) ∧
      (_try_increment^[n] (position (trivial_group 5) 4 (first_hnf 4))).m_vol = (4 : Nat) + 1 ∧
      (∀ H, (IsHNF H ∧ H.det = ((4 : Nat) : Int)) ↔
        ∃ i, i < n ∧
          (_try_increment^[i] (position (trivial_group 5) 4 (first_hnf 4))).m_current = H) ∧
      (∀ i j, i < n → j < n →
        (_try_increment^[i] (position (trivial_group 5) 4 (first_hnf 4))).m_current
          = (_try_increment^[j] (position (trivial_group 5) 4 (first_hnf 4))).m_current →
        i = j)) ∧
    (List.range 6).map hnf_count = [0, 1, 7, 13, 35, 31] :=
  C17_hnf_count 4 (by decide) (position (trivial_group 5) 4 (first_hnf 4)) rfl rfl

theorem cubic_point_group_spec :
    cubic_point_group.length = 48 ∧ cubic_point_group.Nodup ∧
      ∀ op ∈ cubic_point_group, Unimodular op := by
  decide!

theorem cubic_emitted_1 :
    emitted hermite_normal_form 12 10 (cubic 4) 1 = some [⟨1, 0, 0, 0, 1, 0, 0, 0, 1⟩] := by
  decide!

theorem cubic_emitted_2 :
    emitted hermite_normal_form 12 10 (cubic 4) 2 = some
      [⟨2, 0, 0, 0, 1, 0, 0, 0, 1⟩, ⟨2, 0, 1, 0, 1, 0, 0, 0, 1⟩, ⟨2, 1, 1, 0, 1, 0, 0, 0, 1⟩] := by
  decide!

theorem cubic_emitted_3 :
    emitted hermite_normal_form 12 10 (cubic 4) 3 = some
      [⟨3, 0, 0, 0, 1, 0, 0, 0, 1⟩, ⟨3, 0, 2, 0, 1, 0, 0, 0, 1⟩, ⟨3, 2, 2, 0, 1, 0, 0, 0, 1⟩] := by
  decide!

theorem cubic_emitted_4 :
    emitted hermite_normal_form 12 10 (cubic 4) 4 = some
      [⟨2, 0, 0, 0, 2, 0, 0, 0, 1⟩, ⟨2, 0, 0, 0, 2, 1, 0, 0, 1⟩, ⟨2, 0, 1, 0, 2, 1, 0, 0, 1⟩,
       ⟨4, 0, 0, 0, 1, 0, 0, 0, 1⟩, ⟨4, 0, 2, 0, 1, 0, 0, 0, 1⟩, ⟨4, 0, 3, 0, 1, 0, 0, 0, 1⟩,
       ⟨4, 2, 2, 0, 1, 0, 0, 0, 1⟩, ⟨4, 2, 3, 0, 1, 0, 0, 0, 1⟩, ⟨4, 3, 3, 0, 1, 0, 0, 0, 1⟩] := by
  decide!

/-- C13 (counterexample): for the cubic lattice `U = I` with the 48 signed permutation
matrices the iterator emits 9 matrices at volume 4, not 7. -/
theorem C13_counterexample :
    cubic_point_group.length = 48 ∧
    (emitted hermite_normal_form 12 10 (cubic 4) 4).map List.length = some 9 ∧
    (emitted hermite_normal_form 12 10 (cubic 4) 4).map List.length ≠ some 7 := by
  rw [cubic_emitted_4]
  exact ⟨cubic_point_group_spec.1, rfl, by decide⟩

/-- C13 (amended): for the cubic lattice `U = I` with the full cubic point group (the 48
signed permutation matrices) and the standard Hermite normal form, the numbers of matrices
the iterator emits at the volumes 1, 2, 3 and 4 are 1, 3, 3 and 9. -/
theorem C13_cubic_counts :
    cubic_point_group.length = 48 ∧
    (emitted hermite_normal_form 12 10 (cubic 4) 1).map List.length = some 1 ∧
    (emitted hermite_normal_form 12 10 (cubic 4) 2).map List.length = some 3 ∧
    (emitted hermite_normal_form 12 10 (cubic 4) 3).map List.length = some 3 ∧
    (emitted hermite_normal_form 12 10 (cubic 4) 4).map List.length = some 9 := by
  rw [cubic_emitted_1, cubic_emitted_2, cubic_emitted_3, cubic_emitted_4]
  exact ⟨cubic_point_group_spec.1, rfl, rfl, rfl, rfl⟩

open HermiteCounter_impl

theorem upper_size_succ (m : Nat) : upper_size (m + 1) = upper_size m + m := by
  unfold upper_size
  cases m with
  | zero => rfl
  | succ k =>
    simp only [Nat.add_sub_cancel]
    have h : (k + 1 + 1) * (k + 1) = (k + 1) * k + (k + 1) * 2 := by ring
    rw [h, Nat.add_mul_div_right _ _ (by norm_num : 0 < 2)]

theorem entry_cons_succ (r : List Int) (M : List (List Int)) (k j : Nat) :
    entry (r :: M) (k + 1) j = entry M k j := by
  simp [entry]

theorem entry_cons_zero (r : List Int) (M : List (List Int)) (j : Nat) :
    entry (r :: M) 0 j = r.getD j 0 := by
  simp [entry]

theorem zip_rows_length (i : Nat) (D T : List Int) :
    (_zip_matrix.rows i D T).length = D.length := by
  induction D generalizing i T with
  | nil => rfl
  | cons d ds ih => simp [_zip_matrix.rows, ih]

theorem zip_rows_row_length (i : Nat) (D T : List Int) (hT : T.length = upper_size D.length) :
    ∀ row ∈ _zip_matrix.rows i D T, row.length = i + D.length := by
  induction D generalizing i T with
  | nil => intro row h; simp [_zip_matrix.rows] at h
  | cons d ds ih =>
    intro row h
    have hlen : T.length = upper_size ds.length + ds.length := by
      rw [hT, List.length_cons, upper_size_succ]
    simp only [_zip_matrix.rows, List.mem_cons] at h
    rcases h with h | h
    · subst h
      simp only [List.length_append, List.length_replicate, List.length_cons, List.length_take]
      omega
    · have := ih (i + 1) (T.drop ds.length) (by simp [hlen]) row h
      simp only [List.length_cons]; omega

theorem getD_replicate_append_lt (i j : Nat) (l : List Int) (h : j < i) :
    (List.replicate i (0 : Int) ++ l).getD j 0 = 0 := by
  rw [List.getD_append _ _ _ _ (by simpa using h)]
  simp [List.getD_eq_getElem?_getD, List.getElem?_replicate, h]

theorem getD_replicate_append_ge (i j : Nat) (l : List Int) :
    (List.replicate i (0 : Int) ++ l).getD (i + j) 0 = l.getD j 0 := by
  rw [List.getD_append_right _ _ _ _ (by simp)]
  simp

theorem zip_rows_spec (i : Nat) (D T : List Int) (hT : T.length = upper_size D.length) :
    (∀ k j, k < D.length → j < i + k → entry (_zip_matrix.rows i D T) k j = 0) ∧
    (List.range D.length).map (fun k => entry (_zip_matrix.rows i D T) k (i + k)) = D ∧
    (List.range D.length).flatMap (fun k =>
      (List.range' (i + k + 1) (D.length - 1 - k)).map
        fun j => entry (_zip_matrix.rows i D T) k j) = T := by
  induction D generalizing i T with
  | nil =>
    refine ⟨fun k j hk => absurd hk (by simp), rfl, ?_⟩
    simp only [List.length_nil, List.range_zero, List.flatMap_nil]
    exact (List.length_eq_zero.mp (by simpa [upper_size] using hT)).symm
  | cons d ds ih =>
    have hlen : T.length = upper_size ds.length + ds.length := by
      rw [hT, List.length_cons, upper_size_succ]
    obtain ⟨ih1, ih2, ih3⟩ := ih (i + 1) (T.drop ds.length) (by simp [hlen])
    refine ⟨?_, ?_, ?_⟩
    · intro k j hk hj
      cases k with
      | zero =>
        rw [_zip_matrix.rows, entry_cons_zero]
        exact getD_replicate_append_lt i j _ (by omega)
      | succ k =>
        rw [_zip_matrix.rows, entry_cons_succ]
        exact ih1 k j (by simpa using hk) (by omega)
    · rw [List.length_cons, List.range_succ_eq_map, List.map_cons, List.map_map]
      congr 1
      · rw [_zip_matrix.rows, entry_cons_zero]
        have := getD_replicate_append_ge i 0 (d :: T.take ds.length)
        simpa using this
      · refine Eq.trans ?_ ih2
        apply List.map_congr_left
        intro k _
        simp only [Function.comp, _zip_matrix.rows, entry_cons_succ]
        congr 1; omega
    · rw [List.length_cons, List.range_succ_eq_map, List.flatMap_cons, List.flatMap_map]
      have h1 : (List.range' (i + 0 + 1) (ds.length + 1 - 1 - 0)).map
          (fun j => entry (_zip_matrix.rows i (d :: ds) T) 0 j) = T.take ds.length := by
        apply List.ext_getElem
        · simp [hlen]
        · intro t h1 h2
          simp only [List.getElem_map, List.getElem_range', _zip_matrix.rows, entry_cons_zero]
          have := getD_replicate_append_ge i (1 + 1 * t) (d :: T.take ds.length)
          rw [show i + 0 + 1 + 1 * t = i + (1 + 1 * t) by ring, this,
            show 1 + 1 * t = t + 1 by ring, List.getD_cons_succ]
          rw [List.getD_eq_getElem _ _ h2]
      have h2 : (List.range ds.length).flatMap (fun k =>
          (List.range' (i + (k + 1) + 1) (ds.length + 1 - 1 - (k + 1))).map
            fun j => entry (_zip_matrix.rows i (d :: ds) T) (k + 1) j) = T.drop ds.length := by
        rw [← ih3]
        apply List.flatMap_congr
        intro k _
        simp only [_zip_matrix.rows, entry_cons_succ]
        rw [show i + (k + 1) + 1 = i + 1 + k + 1 by ring,
          show ds.length + 1 - 1 - (k + 1) = ds.length - 1 - k by omega]
      rw [h1]
      simp only [Function.comp] at h2 ⊢
      rw [h2, List.take_append_drop]

theorem zip_square (D T : List Int) (hT : T.length = upper_size D.length) :
    IsSquare D.length (_zip_matrix D T) := by
  refine ⟨zip_rows_length 0 D T, ?_⟩
  intro row h
  simpa using zip_rows_row_length 0 D T hT row h

theorem zip_lower (D T : List Int) (hT : T.length = upper_size D.length) :
    ∀ i j, j < i → i < D.length → entry (_zip_matrix D T) i j = 0 := by
  intro i j hj hi
  exact (zip_rows_spec 0 D T hT).1 i j hi (by omega)

theorem zip_diagonal (D T : List Int) (hT : T.length = upper_size D.length) :
    diagonal_of D.length (_zip_matrix D T) = D := by
  simpa [diagonal_of, _zip_matrix] using (zip_rows_spec 0 D T hT).2.1

theorem zip_upper (D T : List Int) (hT : T.length = upper_size D.length) :
    upper_of D.length (_zip_matrix D T) = T := by
  simpa [upper_of, _zip_matrix] using (zip_rows_spec 0 D T hT).2.2

/-- C19: round trip of `_zip_matrix`.  For a diagonal `D` of any length `n` and an upper
triangle vector `T` of length `upper_size n = n (n - 1) / 2`, the matrix `_zip_matrix D T`
is `n x n`, its strict lower triangle is zero, its diagonal read back is `D`, and its strict
upper triangle read back in the row-major slot order is `T`. -/
theorem C19_zip_round_trip (D T : List Int)
    (hT : T.length = upper_size D.length) :
    upper_size D.length = D.length * (D.length - 1) / 2 ∧
    IsSquare D.length (_zip_matrix D T) ∧
    (∀ i j, j < i → i < D.length → entry (_zip_matrix D T) i j = 0) ∧
    diagonal_of D.length (_zip_matrix D T) = D ∧
    upper_of D.length (_zip_matrix D T) = T :=
  ⟨rfl, zip_square D T hT, zip_lower D T hT, zip_diagonal D T hT, zip_upper D T hT⟩

theorem C19_witness :
    [5, 6, 7].length = upper_size [2, 3, 4].length ∧
    _zip_matrix [2, 3, 4] [5, 6, 7] = [[2, 5, 6], [0, 3, 7], [0, 0, 4]] ∧
    diagonal_of 3 (_zip_matrix [2, 3, 4] [5, 6, 7]) = [2, 3, 4] ∧
    upper_of 3 (_zip_matrix [2, 3, 4] [5, 6, 7]) = [5, 6, 7] :=
  ⟨by decide, by decide,
   (C19_zip_round_trip [2, 3, 4] [5, 6, 7] (by decide)).2.2.2.1,
   (C19_zip_round_trip [2, 3, 4] [5, 6, 7] (by decide)).2.2.2.2⟩

open HermiteCounter_impl

theorem active_count_cons (a : Int) (as : List Int) :
    active_count (a :: as) = active_count as + if a ≠ 0 then 1 else 0 := by
  unfold active_count
  rw [List.countP_cons]
  simp

theorem expand_row_length (r mask : List Int) : (_expand_dims.row r mask).length = mask.length := by
  induction mask generalizing r with
  | nil => rfl
  | cons a as ih =>
    unfold _expand_dims.row
    split_ifs <;> simp [ih]

theorem select_expand_row (r mask : List Int) (h : r.length = active_count mask) :
    select mask (_expand_dims.row r mask) = r := by
  induction mask generalizing r with
  | nil =>
    have : r = [] := List.length_eq_zero.mp (by simpa [active_count] using h)
    subst this; rfl
  | cons a as ih =>
    rw [active_count_cons] at h
    unfold _expand_dims.row
    by_cases ha : a ≠ 0
    · rw [if_pos ha] at h ⊢
      cases r with
      | nil => simp at h
      | cons x xs =>
        simp only [select, if_pos ha, List.headD_cons, List.tail_cons]
        rw [ih xs (by simpa using h)]
    · rw [if_neg ha] at h ⊢
      simp only [select, if_neg ha]
      exact ih r (by simpa using h)

theorem expand_row_inactive (r mask : List Int) (q : Nat) (hq : mask.getD q 0 = 0) :
    (_expand_dims.row r mask).getD q 0 = 0 := by
  induction mask generalizing r q with
  | nil => simp [_expand_dims.row]
  | cons a as ih =>
    unfold _expand_dims.row
    cases q with
    | zero =>
      have ha : ¬ a ≠ 0 := by simpa using hq
      rw [if_neg ha]; rfl
    | succ q =>
      have hq' : as.getD q 0 = 0 := by simpa using hq
      split_ifs
      · simpa using ih _ q hq'
      · simpa using ih _ q hq'

theorem expand_row_active (r mask : List Int) (q : Nat) (hq : mask.getD q 0 ≠ 0) :
    (_expand_dims.row r mask).getD q 0 = r.getD (active_count (mask.take q)) 0 := by
  induction mask generalizing r q with
  | nil => simp at hq
  | cons a as ih =>
    unfold _expand_dims.row
    cases q with
    | zero =>
      have ha : a ≠ 0 := by simpa using hq
      rw [if_pos ha]
      cases r <;> simp [active_count]
    | succ q =>
      have hq' : as.getD q 0 ≠ 0 := by simpa using hq
      rw [List.take_succ_cons, active_count_cons]
      by_cases ha : a ≠ 0
      · rw [if_pos ha, if_pos ha, List.getD_cons_succ, ih _ q hq']
        cases r with
        | nil => simp
        | cons x xs => simp
      · rw [if_neg ha, if_neg ha, List.getD_cons_succ, ih _ q hq']
        rfl

theorem expand_rows_length (mask : List Int) (p : Nat) (H : List (List Int)) (as : List Int) :
    (_expand_dims.rows mask p H as).length = as.length := by
  induction as generalizing p H with
  | nil => rfl
  | cons a as ih =>
    unfold _expand_dims.rows
    split_ifs <;> simp [ih]

theorem expand_rows_row_length (mask : List Int) (p : Nat) (H : List (List Int)) (as : List Int)
    (hp : p + as.length = mask.length) :
    ∀ row ∈ _expand_dims.rows mask p H as, row.length = mask.length := by
  induction as generalizing p H with
  | nil => intro row h; simp [_expand_dims.rows] at h
  | cons a as ih =>
    intro row h
    rw [List.length_cons] at hp
    unfold _expand_dims.rows at h
    split_ifs at h
    · rcases List.mem_cons.mp h with h | h
      · rw [h, expand_row_length]
      · exact ih (p + 1) _ (by omega) row h
    · rcases List.mem_cons.mp h with h | h
      · rw [h]; simp; omega
      · exact ih (p + 1) _ (by omega) row h

theorem select_expand_rows (mask : List Int) (p : Nat) (H : List (List Int)) (as : List Int)
    (h : H.length = active_count as) :
    select as (_expand_dims.rows mask p H as) = H.map fun r => _expand_dims.row r mask := by
  induction as generalizing p H with
  | nil =>
    have : H = [] := List.length_eq_zero.mp (by simpa [active_count] using h)
    subst this; rfl
  | cons a as ih =>
    rw [active_count_cons] at h
    unfold _expand_dims.rows
    by_cases ha : a ≠ 0
    · rw [if_pos ha] at h ⊢
      cases H with
      | nil => simp at h
      | cons x xs =>
        simp only [select, if_pos ha, List.headD_cons, List.tail_cons, List.map_cons]
        rw [ih (p + 1) xs (by simpa using h)]
    · rw [if_neg ha] at h ⊢
      simp only [select, if_neg ha]
      exact ih (p + 1) H (by simpa using h)

theorem expand_rows_inactive (mask : List Int) (p : Nat) (H : List (List Int)) (as : List Int)
    (t : Nat) (ht : t < as.length) (h0 : as.getD t 0 = 0) :
    (_expand_dims.rows mask p H as).getD t [] =
      List.replicate (p + t) 0 ++ 1 :: List.replicate (mask.length - (p + t) - 1) 0 := by
  induction as generalizing p H t with
  | nil => simp at ht
  | cons a as ih =>
    unfold _expand_dims.rows
    cases t with
    | zero =>
      have ha : ¬ a ≠ 0 := by simpa using h0
      rw [if_neg ha]; rfl
    | succ t =>
      have h0' : as.getD t 0 = 0 := by simpa using h0
      have ht' : t < as.length := by simpa using ht
      have e : p + (t + 1) = p + 1 + t := by omega
      split_ifs
      · rw [List.getD_cons_succ, ih (p + 1) _ t ht' h0', e]
      · rw [List.getD_cons_succ, ih (p + 1) _ t ht' h0', e]

theorem expand_rows_active (mask : List Int) (p : Nat) (H : List (List Int)) (as : List Int)
    (t : Nat) (h0 : as.getD t 0 ≠ 0) :
    (_expand_dims.rows mask p H as).getD t [] =
      _expand_dims.row (H.getD (active_count (as.take t)) []) mask := by
  induction as generalizing p H t with
  | nil => simp at h0
  | cons a as ih =>
    unfold _expand_dims.rows
    cases t with
    | zero =>
      have ha : a ≠ 0 := by simpa using h0
      rw [if_pos ha]
      cases H <;> simp [active_count]
    | succ t =>
      have h0' : as.getD t 0 ≠ 0 := by simpa using h0
      rw [List.take_succ_cons, active_count_cons]
      by_cases ha : a ≠ 0
      · rw [if_pos ha, if_pos ha, List.getD_cons_succ, ih (p + 1) _ t h0']
        cases H with
        | nil => simp
        | cons x xs => simp
      · rw [if_neg ha, if_neg ha, List.getD_cons_succ, ih (p + 1) _ t h0']
        rfl

theorem getD_unit_row (n p q : Nat) :
    (List.replicate p (0 : Int) ++ 1 :: List.replicate (n - p - 1) 0).getD q 0 =
      if q = p then 1 else 0 := by
  rcases Nat.lt_trichotomy q p with h | h | h
  · rw [getD_replicate_append_lt p q _ h, if_neg (by omega)]
  · subst h
    have := getD_replicate_append_ge q 0 (1 :: List.replicate (n - q - 1) 0)
    simpa using this
  · obtain ⟨k, rfl⟩ : ∃ k, q = p + (k + 1) := ⟨q - p - 1, by omega⟩
    rw [getD_replicate_append_ge, if_neg (by omega), List.getD_cons_succ]
    simp only [List.getD_eq_getElem?_getD, List.getElem?_replicate]
    split_ifs <;> rfl

/-- The entries of `_expand_dims`. -/
theorem expand_dims_entry (H : List (List Int)) (mask : List Int) (p q : Nat)
    (hp : p < mask.length) :
    entry (_expand_dims H mask) p q =
      if mask.getD p 0 ≠ 0 then
        if mask.getD q 0 ≠ 0 then
          entry H (active_count (mask.take p)) (active_count (mask.take q))
        else 0
      else if q = p then 1 else 0 := by
  unfold entry _expand_dims
  by_cases h1 : mask.getD p 0 ≠ 0
  · rw [if_pos h1, expand_rows_active mask 0 H mask p h1]
    by_cases h2 : mask.getD q 0 ≠ 0
    · rw [if_pos h2, expand_row_active _ _ _ h2]
    · rw [if_neg h2, expand_row_inactive _ _ _ (by simpa using h2)]
  · rw [if_neg h1, expand_rows_inactive mask 0 H mask p hp (by simpa using h1)]
    simpa using getD_unit_row mask.length p q

theorem active_count_take_lt (mask : List Int) (p : Nat) (h : mask.getD p 0 ≠ 0) :
    active_count (mask.take p) < active_count mask := by
  induction mask generalizing p with
  | nil => simp at h
  | cons a as ih =>
    cases p with
    | zero =>
      have ha : a ≠ 0 := by simpa using h
      rw [active_count_cons, if_pos ha]
      simp [active_count]
    | succ p =>
      rw [List.take_succ_cons, active_count_cons, active_count_cons]
      have := ih p (by simpa using h)
      omega

theorem active_count_take_mono (mask : List Int) (q p : Nat) (hqp : q < p)
    (h : mask.getD q 0 ≠ 0) :
    active_count (mask.take q) < active_count (mask.take p) := by
  have key := active_count_take_lt (mask.take p) q (by
    rw [List.getD_eq_getElem?_getD, List.getElem?_take_of_lt hqp, ← List.getD_eq_getElem?_getD]
    exact h)
  rwa [List.take_take, min_eq_left hqp.le] at key

theorem prod_active (mask : List Int) (k : Nat) (h : Nat → Int) :
    ∏ p ∈ Finset.range mask.length,
        (if mask.getD p 0 ≠ 0 then h (k + active_count (mask.take p)) else 1) =
      ∏ i ∈ Finset.range (active_count mask), h (k + i) := by
  induction mask generalizing k with
  | nil => simp [active_count]
  | cons a as ih =>
    rw [List.length_cons, Finset.prod_range_succ', active_count_cons]
    simp only [List.getD_cons_succ, List.take_succ_cons, active_count_cons, List.getD_cons_zero,
      List.take_zero]
    by_cases ha : a ≠ 0
    · simp only [if_pos ha]
      rw [Finset.prod_range_succ']
      have := ih (k + 1)
      simp only [show ∀ x, k + 1 + x = k + (x + 1) from fun x => by ring] at this
      rw [this]
      simp [active_count]
    · simp only [if_neg ha, add_zero, mul_one]
      exact ih k

theorem det_of_lower_zero (n : Nat) (H : List (List Int))
    (h : ∀ i j, j < i → i < n → entry H i j = 0) :
    (toMatrix n H).det = ∏ i ∈ Finset.range n, entry H i i := by
  rw [Matrix.det_of_upperTriangular, ← Fin.prod_univ_eq_prod_range]
  · rfl
  · intro i j hij
    exact h i.val j.val hij i.isLt

/-- C20: round trip of `_expand_dims`.  For an `m x m` Hermite normal form `H` and a mask of
length `n` that selects exactly `m` positions, `_expand_dims H mask` is an `n x n` matrix whose
restriction to the selected rows and columns is `H`, whose unselected diagonal entries are 1,
whose other entries in an unselected row or column are 0, and whose determinant is the
determinant of `H`. -/
theorem C20_expand_dims_round_trip (m : Nat) (H : List (List Int)) (mask : List Int)
    (hH : IsHermite m H) (hm : active_count mask = m) :
    m ≤ mask.length ∧
    IsSquare mask.length (_expand_dims H mask) ∧
    restrict mask (_expand_dims H mask) = H ∧
    (∀ p, p < mask.length → mask.getD p 0 = 0 → entry (_expand_dims H mask) p p = 1) ∧
    (∀ p q, p < mask.length → q < mask.length → p ≠ q →
      mask.getD p 0 = 0 ∨ mask.getD q 0 = 0 → entry (_expand_dims H mask) p q = 0) ∧
    (toMatrix mask.length (_expand_dims H mask)).det = (toMatrix m H).det := by
  obtain ⟨⟨hlen, hrow⟩, hlow, -, -⟩ := hH
  refine ⟨?_, ⟨?_, ?_⟩, ?_, ?_, ?_, ?_⟩
  · rw [← hm]; exact List.countP_le_length _
  · exact expand_rows_length mask 0 H mask
  · exact expand_rows_row_length mask 0 H mask (by simp)
  · unfold restrict _expand_dims
    rw [select_expand_rows mask 0 H mask (by rw [hlen, hm]), List.map_map]
    conv_rhs => rw [← List.map_id H]
    apply List.map_congr_left
    intro r hr
    exact select_expand_row r mask (by rw [hrow r hr, hm])
  · intro p hp h0
    rw [expand_dims_entry H mask p p hp, if_neg (by simpa using h0), if_pos rfl]
  · intro p q hp _ hpq h0
    rw [expand_dims_entry H mask p q hp]
    rcases h0 with h0 | h0
    · rw [if_neg (by simpa using h0), if_neg (Ne.symm hpq)]
    · by_cases h1 : mask.getD p 0 ≠ 0
      · rw [if_pos h1, if_neg (by simpa using h0)]
      · rw [if_neg h1, if_neg (Ne.symm hpq)]
  · have hlowE : ∀ i j, j < i → i < mask.length → entry (_expand_dims H mask) i j = 0 := by
      intro i j hji hi
      rw [expand_dims_entry H mask i j hi]
      split_ifs with h1 h2 h3
      · exact hlow _ _ (active_count_take_mono mask j i hji h2)
          (hm ▸ active_count_take_lt mask i h1)
      · rfl
      · omega
      · rfl
    rw [det_of_lower_zero _ _ hlowE, det_of_lower_zero _ _ hlow, ← hm]
    have := prod_active mask 0 (fun i => entry H i i)
    simp only [zero_add] at this
    rw [← this]
    apply Finset.prod_congr rfl
    intro p hp
    rw [expand_dims_entry H mask p p (Finset.mem_range.mp hp), if_pos rfl]
    split_ifs <;> rfl

theorem C20_witness :
    IsHermite 2 [[2, 1], [0, 3]] ∧ active_count [1, 0, 1] = 2 ∧
    _expand_dims [[2, 1], [0, 3]] [1, 0, 1] = [[2, 0, 1], [0, 1, 0], [0, 0, 3]] ∧
    restrict [1, 0, 1] (_expand_dims [[2, 1], [0, 3]] [1, 0, 1]) = [[2, 1], [0, 3]] := by
  have h : IsHermite 2 [[2, 1], [0, 3]] := by
    refine ⟨⟨rfl, by decide⟩, ?_, ?_, ?_⟩
    · intro i j hj hi
      obtain ⟨rfl, rfl⟩ : i = 1 ∧ j = 0 := by omega
      decide
    · intro i hi
      interval_cases i <;> decide
    · intro i j hi hj
      obtain ⟨rfl, rfl⟩ : i = 0 ∧ j = 1 := by omega
      decide
  exact ⟨h, by decide, by decide,
    (C20_expand_dims_round_trip 2 [[2, 1], [0, 3]] [1, 0, 1] h (by decide)).2.2.1⟩

open HermiteCounter_impl

theorem next_factor_spec (x : Int) (fuel : Nat) (attempt : Int) (h1 : 1 ≤ attempt)
    (hf : attempt + fuel = x) :
    attempt ≤ next_factor x fuel attempt ∧ next_factor x fuel attempt ≤ x ∧
    next_factor x fuel attempt ∣ x ∧
    ∀ g, attempt ≤ g → g < next_factor x fuel attempt → ¬ g ∣ x := by
  induction fuel generalizing attempt with
  | zero =>
    have : attempt = x := by simpa using hf
    subst this
    exact ⟨le_refl _, le_refl _, dvd_refl _, fun g h1 h2 => absurd h2 (by simpa [next_factor] using h1)⟩
  | succ fuel ih =>
    unfold next_factor
    have hx : 0 ≤ x := by rw [← hf]; positivity
    by_cases h0 : Int.tmod x attempt = 0
    · rw [if_pos h0]
      refine ⟨le_refl _, ?_, (tmod_eq_zero_iff_dvd hx (by omega)).1 h0, fun g h1 h2 => by omega⟩
      rw [← hf]; push_cast; omega
    · rw [if_neg h0]
      obtain ⟨s1, s2, s3, s4⟩ := ih (attempt + 1) (by omega) (by rw [← hf]; push_cast; ring)
      refine ⟨by omega, s2, s3, ?_⟩
      intro g hg1 hg2 hg
      rcases eq_or_lt_of_le hg1 with e | e
      · subst e
        exact h0 ((tmod_eq_zero_iff_dvd hx (by omega)).2 hg)
      · exact s4 g (by omega) hg2 hg

theorem spilled_spec (x attempt : Int) (h1 : 1 ≤ attempt) (h2 : attempt ≤ x) :
    attempt ≤ spilled x attempt ∧ spilled x attempt ≤ x ∧ spilled x attempt ∣ x ∧
    ∀ g, attempt ≤ g → g < spilled x attempt → ¬ g ∣ x :=
  next_factor_spec x _ attempt h1 (by rw [Int.toNat_of_nonneg (by omega)]; ring)

theorem spill_factor_append (A : List Int) (x y : Int) (B : List Int) (attempt : Int) :
    _spill_factor (A ++ x :: y :: B) A.length attempt =
      (A ++ Int.tdiv x (spilled x attempt) :: y * spilled x attempt :: B, A.length + 1) := by
  induction A with
  | nil => rfl
  | cons a A ih =>
    simp only [List.cons_append, List.length_cons, _spill_factor, ih]

theorem backtrack_some (diag : List Int) (p : Nat) (h : backtrack diag = some p) :
    ∃ A x k l, diag = A ++ x :: (List.replicate k 1 ++ [l]) ∧ A.length = p ∧ x ≠ 1 := by
  induction diag generalizing p with
  | nil => simp [backtrack] at h
  | cons x rest ih =>
    cases rest with
    | nil => simp [backtrack] at h
    | cons y rest =>
      unfold backtrack at h
      cases hb : backtrack (y :: rest) with
      | some q =>
        rw [hb] at h
        obtain ⟨A, x', k, l, e, hA, hx⟩ := ih q hb
        refine ⟨x :: A, x', k, l, by rw [e]; rfl, ?_, hx⟩
        simp only [Option.some.injEq] at h
        simp [hA, h]
      | none =>
        rw [hb] at h
        by_cases hx : x ≠ 1
        · simp only [if_pos hx, Option.some.injEq] at h
          subst h
          clear ih
          -- the tail has no entry to go back to: it is `1, ..., 1, l`
          have key : ∀ (L : List Int), L ≠ [] → backtrack L = none →
              ∃ k l, L = List.replicate k 1 ++ [l] := by
            intro L
            induction L with
            | nil => intro h; exact absurd rfl h
            | cons z L ihL =>
              intro _ hz
              cases L with
              | nil => exact ⟨0, z, rfl⟩
              | cons w L =>
                unfold backtrack at hz
                cases hw : backtrack (w :: L) with
                | some q => rw [hw] at hz; simp at hz
                | none =>
                  rw [hw] at hz
                  obtain ⟨k, l, e⟩ := ihL (by simp) hw
                  have hz1 : z = 1 := by
                    by_contra hne
                    simp [if_pos hne] at hz
                  exact ⟨k + 1, l, by rw [e, hz1]; rfl⟩
          obtain ⟨k, l, e⟩ := key (y :: rest) (by simp) hb
          exact ⟨[], x, k, l, by rw [e]; rfl, rfl, hx⟩
        · simp [if_neg hx] at h

theorem backtrack_none (diag : List Int) (hne : diag ≠ []) (h : backtrack diag = none) :
    ∃ k l, diag = List.replicate k 1 ++ [l] := by
  induction diag with
  | nil => exact absurd rfl hne
  | cons z L ihL =>
    cases L with
    | nil => exact ⟨0, z, rfl⟩
    | cons w L =>
      unfold backtrack at h
      cases hw : backtrack (w :: L) with
      | some q => rw [hw] at h; simp at h
      | none =>
        rw [hw] at h
        obtain ⟨k, l, e⟩ := ihL (by simp) hw
        have hz1 : z = 1 := by
          by_contra hne
          simp [if_pos hne] at h
        exact ⟨k + 1, l, by rw [e, hz1]; rfl⟩

theorem set_append_right (A B : List Int) (i : Nat) (v : Int) :
    (A ++ B).set (A.length + i) v = A ++ B.set i v := by
  induction A with
  | nil => simp
  | cons a A ih =>
    rw [List.cons_append, List.length_cons, show A.length + 1 + i = (A.length + i) + 1 by ring,
      List.set_cons_succ, ih]
    rfl

theorem getD_append_right (A B : List Int) (i : Nat) (v : Int) :
    (A ++ B).getD (A.length + i) v = B.getD i v := by
  rw [List.getD_append_right _ _ _ _ (by simp)]
  simp

/-- The carry of `next_spill_position` on a diagonal `A, x, 1, ..., 1, l`. -/
theorem flush_spill (A : List Int) (x : Int) (k : Nat) (l : Int) :
    let diag := A ++ x :: (List.replicate k 1 ++ [l])
    _spill_factor ((diag.set A.length (diag.getD A.length 1 * diag.getLastD 1)).set
        (diag.length - 1) 1) A.length (diag.getLastD 1 + 1) =
      (A ++ Int.tdiv (x * l) (spilled (x * l) (l + 1)) :: spilled (x * l) (l + 1) ::
        List.replicate k 1, A.length + 1) := by
  intro diag
  have hlast : diag.getLastD 1 = l := by
    show (A ++ x :: (List.replicate k 1 ++ [l])).getLastD 1 = l
    rw [show A ++ x :: (List.replicate k 1 ++ [l]) = (A ++ x :: List.replicate k 1) ++ [l] by simp]
    exact List.getLastD_concat _ _ _
  have hget : diag.getD A.length 1 = x := by
    have := getD_append_right A (x :: (List.replicate k 1 ++ [l])) 0 1
    simpa only [add_zero, List.getD_cons_zero] using this
  have hlen : diag.length - 1 = A.length + (k + 1) := by
    show (A ++ x :: (List.replicate k 1 ++ [l])).length - 1 = _
    simp
  have hset1 : diag.set A.length (x * l) = A ++ (x * l) :: (List.replicate k 1 ++ [l]) := by
    have := set_append_right A (x :: (List.replicate k 1 ++ [l])) 0 (x * l)
    simpa only [add_zero, List.set_cons_zero] using this
  have hset2 : (A ++ (x * l) :: (List.replicate k 1 ++ [l])).set (A.length + (k + 1)) 1 =
      A ++ (x * l) :: 1 :: List.replicate k 1 := by
    rw [set_append_right, List.set_cons_succ]
    have := set_append_right (List.replicate k 1) [l] 0 1
    rw [List.length_replicate] at this
    simp only [add_zero, List.set_cons_zero] at this
    rw [this, ← List.replicate_succ', List.replicate_succ]
  rw [hlast, hget, hlen, hset1, hset2, spill_factor_append, one_mul]

theorem tdiv_mul_spilled (x attempt : Int) (h1 : 1 ≤ attempt) (h2 : attempt ≤ x) :
    Int.tdiv x (spilled x attempt) * spilled x attempt = x ∧
    1 ≤ Int.tdiv x (spilled x attempt) ∧ 1 ≤ spilled x attempt := by
  obtain ⟨s1, s2, ⟨q, hq⟩, -⟩ := spilled_spec x attempt h1 h2
  have hf : 0 < spilled x attempt := by omega
  have hq0 : 0 < q := by
    by_contra hc
    have : spilled x attempt * q ≤ 0 := mul_nonpos_of_nonneg_of_nonpos hf.le (by omega)
    omega
  have e : Int.tdiv x (spilled x attempt) = q := by
    have := tdiv_mul_left hf hq0.le
    rwa [← hq] at this
  rw [e]
  exact ⟨by rw [mul_comm]; exact hq.symm, by omega, by omega⟩

/-- The diagonal walk keeps the length, the positivity and the product of the diagonal. -/
theorem next_spill_position_preserves (diag : List Int) (position : Nat)
    (hpos : ∀ x ∈ diag, 1 ≤ x) :
    (next_spill_position diag position).1.length = diag.length ∧
    (∀ x ∈ (next_spill_position diag position).1, 1 ≤ x) ∧
    (next_spill_position diag position).1.prod = diag.prod := by
  unfold next_spill_position
  split_ifs with hc
  · obtain ⟨hc1, hc2⟩ := hc
    obtain ⟨A, R, e, hA⟩ : ∃ A R, diag = A ++ R ∧ A.length = position :=
      ⟨diag.take position, diag.drop position, (List.take_append_drop _ _).symm,
        by rw [List.length_take]; omega⟩
    have hR : 2 ≤ R.length := by
      have := congrArg List.length e
      rw [List.length_append] at this
      omega
    obtain ⟨x, y, B, rfl⟩ : ∃ x y B, R = x :: y :: B := by
      match R, hR with
      | x :: y :: B, _ => exact ⟨x, y, B, rfl⟩
    subst e
    have hx : (A ++ x :: y :: B).getD position 1 = x := by
      have := getD_append_right A (x :: y :: B) 0 1
      rw [← hA]; simpa only [add_zero, List.getD_cons_zero] using this
    rw [hx] at hc2
    rw [← hA, spill_factor_append]
    obtain ⟨t1, t2, t3⟩ := tdiv_mul_spilled x 2 (by norm_num) (by omega)
    have hy : 1 ≤ y := hpos y (by simp)
    refine ⟨by simp, ?_, ?_⟩
    · intro z hz
      simp only [List.mem_append, List.mem_cons] at hz
      rcases hz with hz | hz | hz | hz
      · exact hpos z (by simp [hz])
      · rw [hz]; exact t2
      · rw [hz]; exact one_le_mul_of_one_le_of_one_le hy t3
      · exact hpos z (by simp [hz])
    · simp only [List.prod_append, List.prod_cons]
      rw [show Int.tdiv x (spilled x 2) * (y * spilled x 2 * B.prod) =
        (Int.tdiv x (spilled x 2) * spilled x 2) * (y * B.prod) by ring, t1]
  · cases hb : backtrack diag with
    | none => exact ⟨rfl, hpos, rfl⟩
    | some p =>
      obtain ⟨A, x, k, l, e, hA, hx⟩ := backtrack_some diag p hb
      subst e
      simp only []
      rw [← hA, flush_spill A x k l]
      have hx1 : 1 ≤ x := hpos x (by simp)
      have hl1 : 1 ≤ l := hpos l (by simp)
      have hxl : l + 1 ≤ x * l := by nlinarith [show 2 ≤ x by omega]
      obtain ⟨t1, t2, t3⟩ := tdiv_mul_spilled (x * l) (l + 1) (by omega) hxl
      refine ⟨by simp, ?_, ?_⟩
      · intro z hz
        simp only [List.mem_append, List.mem_cons, List.mem_replicate] at hz
        rcases hz with hz | hz | hz | hz
        · exact hpos z (by simp [hz])
        · rw [hz]; exact t2
        · rw [hz]; exact t3
        · rw [hz.2]
      · simp only [List.prod_append, List.prod_cons, List.prod_replicate, one_pow, one_mul,
          List.prod_nil, mul_one]
        rw [t1]

open HermiteCounter_impl

theorem upper_bases_length (D : List Int) : (upper_bases D).length = upper_size D.length := by
  induction D with
  | nil => rfl
  | cons d ds ih =>
    rw [upper_bases, List.length_append, List.length_replicate, ih, List.length_cons,
      upper_size_succ, add_comm]

theorem upper_bases_pos (D : List Int) (h : ∀ x ∈ D, 1 ≤ x) : ∀ b ∈ upper_bases D, 1 ≤ b := by
  induction D with
  | nil => intro b hb; simp [upper_bases] at hb
  | cons d ds ih =>
    intro b hb
    rw [upper_bases, List.mem_append, List.mem_replicate] at hb
    rcases hb with hb | hb
    · rw [hb.2]; exact h d (by simp)
    · exact ih (fun x hx => h x (by simp [hx])) b hb

theorem forall₂_zeros (B : List Int) (h : ∀ b ∈ B, 1 ≤ b) :
    List.Forall₂ InBase (List.replicate B.length 0) B := by
  induction B with
  | nil => exact List.Forall₂.nil
  | cons b bs ih =>
    exact List.Forall₂.cons ⟨le_refl _, by have := h b (by simp); omega⟩
      (ih fun x hx => h x (by simp [hx]))

theorem step_upper_tri_inBase (T B T' : List Int) (h : List.Forall₂ InBase T B)
    (hs : step_upper_tri T B = some T') : List.Forall₂ InBase T' B := by
  induction h generalizing T' with
  | nil => simp [step_upper_tri] at hs
  | @cons t b ts bs htb _ ih =>
    unfold step_upper_tri at hs
    split_ifs at hs with hlt
    · simp only [Option.some.injEq] at hs
      subst hs
      exact List.Forall₂.cons ⟨by have := htb.1; omega, hlt⟩ ‹_›
    · cases hr : step_upper_tri ts bs with
      | none => rw [hr] at hs; simp at hs
      | some r =>
        rw [hr] at hs
        simp only [Option.map_some', Option.some.injEq] at hs
        subst hs
        exact List.Forall₂.cons ⟨le_refl _, by have := htb.1; have := htb.2; omega⟩ (ih r hr)

theorem zip_rows_bound (i : Nat) (D T : List Int)
    (h : List.Forall₂ InBase T (upper_bases D)) :
    ∀ k j, k < D.length → i + k < j → j < i + D.length →
      InBase (entry (_zip_matrix.rows i D T) k j) (D.getD k 0) := by
  induction D generalizing i T with
  | nil => intro k j hk; simp at hk
  | cons d ds ih =>
    intro k j hk h1 h2
    rw [upper_bases] at h
    have ha := List.forall₂_take_append T _ _ h
    have hb := List.forall₂_drop_append T _ _ h
    rw [List.length_replicate] at ha hb
    cases k with
    | zero =>
      rw [_zip_matrix.rows, entry_cons_zero, List.getD_cons_zero]
      obtain ⟨t, rfl⟩ : ∃ t, j = i + (t + 1) := ⟨j - i - 1, by omega⟩
      rw [getD_replicate_append_ge, List.getD_cons_succ]
      have hlen := ha.length_eq
      rw [List.length_replicate] at hlen
      have ht : t < (T.take ds.length).length := by
        rw [hlen]; simp only [List.length_cons] at h2; omega
      rw [List.getD_eq_getElem _ _ ht]
      have hmem : ∀ x ∈ T.take ds.length, InBase x d := by
        intro x hx
        have key : ∀ (L : List Int) (m : Nat), List.Forall₂ InBase L (List.replicate m d) →
            ∀ x ∈ L, InBase x d := by
          intro L m hL
          induction L generalizing m with
          | nil => intro x hx; simp at hx
          | cons y L ihL =>
            cases m with
            | zero => simp at hL
            | succ m =>
              rw [List.replicate_succ, List.forall₂_cons] at hL
              intro x hx
              rcases List.mem_cons.mp hx with e | e
              · rw [e]; exact hL.1
              · exact ihL m hL.2 x e
        exact key _ _ ha x hx
      exact hmem _ (List.getElem_mem _)
    | succ k =>
      rw [_zip_matrix.rows, entry_cons_succ, List.getD_cons_succ]
      simp only [List.length_cons] at hk h2
      exact ih (i + 1) (T.drop ds.length) hb k j (by omega) (by omega) (by omega)

theorem prod_range_getD (D : List Int) :
    ∏ i ∈ Finset.range D.length, D.getD i 0 = D.prod := by
  induction D with
  | nil => rfl
  | cons d ds ih =>
    rw [List.length_cons, Finset.prod_range_succ', List.prod_cons, mul_comm, ← ih]
    simp

theorem zip_hermite (D T : List Int) (hpos : ∀ x ∈ D, 1 ≤ x)
    (h : List.Forall₂ InBase T (upper_bases D)) :
    IsHermite D.length (_zip_matrix D T) ∧
    diagonal_of D.length (_zip_matrix D T) = D ∧
    (toMatrix D.length (_zip_matrix D T)).det = D.prod := by
  have hT : T.length = upper_size D.length := by rw [h.length_eq, upper_bases_length]
  have hsq := zip_square D T hT
  have hlow := zip_lower D T hT
  have hdiag := zip_diagonal D T hT
  have hd : ∀ i, i < D.length → entry (_zip_matrix D T) i i = D.getD i 0 := by
    intro i hi
    have := congrArg (fun L => List.getD L i 0) hdiag
    simp only [diagonal_of] at this
    rw [← this, List.getD_eq_getElem _ _ (by simpa using hi)]
    simp
  refine ⟨⟨hsq, hlow, ?_, ?_⟩, hdiag, ?_⟩
  · intro i hi
    rw [hd i hi, List.getD_eq_getElem _ _ hi]
    have := hpos _ (List.getElem_mem hi)
    omega
  · intro i j hij hj
    rw [hd i (by omega)]
    have := zip_rows_bound 0 D T h i j (by omega) (by omega) (by omega)
    exact this
  · rw [det_of_lower_zero _ _ hlow, ← prod_range_getD]
    exact Finset.prod_congr rfl fun i hi => hd i (Finset.mem_range.mp hi)


open HermiteCounter_impl

theorem prod_cons_ones (d : Int) (m : Nat) : (d :: List.replicate m (1 : Int)).prod = d := by
  simp

theorem inv_initial (a b d : Int) (n pos : Nat) (v : Bool) (hn : 1 ≤ n) (hd : 1 ≤ d)
    (had : a ≤ d) (hdb : d ≤ b) :
    HermiteCounter.Inv a b n
      { m_pos := pos, m_low_det := a, m_high_det := b,
        m_diagonal := d :: List.replicate (n - 1) 1,
        m_upper_tri := List.replicate (upper_size n) 0, m_valid := v } := by
  have hlen : (d :: List.replicate (n - 1) (1 : Int)).length = n := by simp; omega
  have hpos : ∀ x ∈ d :: List.replicate (n - 1) (1 : Int), 1 ≤ x := by
    intro x hx
    rcases List.mem_cons.mp hx with e | e
    · rw [e]; exact hd
    · rw [(List.mem_replicate.mp e).2]
  refine ⟨rfl, rfl, hlen, hpos, ?_, ?_, ?_⟩
  · show a ≤ (d :: List.replicate (n - 1) (1 : Int)).prod
    rw [prod_cons_ones]; exact had
  · show (d :: List.replicate (n - 1) (1 : Int)).prod ≤ b
    rw [prod_cons_ones]; exact hdb
  · show List.Forall₂ InBase (List.replicate (upper_size n) 0)
      (upper_bases (d :: List.replicate (n - 1) 1))
    have := forall₂_zeros _ (upper_bases_pos _ hpos)
    rwa [upper_bases_length, hlen] at this

theorem construct_ok (a b n : Int) (ha : 1 ≤ a) (hab : a ≤ b) (hn : 1 ≤ n) :
    HermiteCounter.construct a b n = .ok
      { m_pos := 0, m_low_det := a, m_high_det := b,
        m_diagonal := a :: List.replicate (n.toNat - 1) 1,
        m_upper_tri := List.replicate (upper_size n.toNat) 0, m_valid := true } := by
  unfold HermiteCounter.construct
  rw [if_neg (by omega)]

theorem inv_advance (a b : Int) (n : Nat) (ha : 1 ≤ a) (hn : 1 ≤ n) (c : HermiteCounter)
    (h : c.Inv a b n) : c.advance.Inv a b n := by
  obtain ⟨h1, h2, h3, h4, h5, h6, h7⟩ := h
  unfold HermiteCounter.advance
  cases hs : step_upper_tri c.m_upper_tri (upper_bases c.m_diagonal) with
  | some T => exact ⟨h1, h2, h3, h4, h5, h6, step_upper_tri_inBase _ _ _ h7 hs⟩
  | none =>
    simp only [HermiteCounter._increment_diagonal, HermiteCounter.dim,
      HermiteCounter.determinant, HermiteCounter._jump_to_determinant]
    obtain ⟨p1, p2, p3⟩ := next_spill_position_preserves c.m_diagonal c.m_pos h4
    split_ifs with hlt hdet
    · refine ⟨h1, h2, p1.trans h3, p2, ?_, ?_, ?_⟩
      · show a ≤ (next_spill_position c.m_diagonal c.m_pos).1.prod
        rw [p3]; exact h5
      · show (next_spill_position c.m_diagonal c.m_pos).1.prod ≤ b
        rw [p3]; exact h6
      · show List.Forall₂ InBase (List.replicate (upper_size c.m_diagonal.length) 0)
          (upper_bases (next_spill_position c.m_diagonal c.m_pos).1)
        have := forall₂_zeros _ (upper_bases_pos _ p2)
        rwa [upper_bases_length, p1] at this
    · have := inv_initial a b (c.m_diagonal.prod + 1) n 0 c.m_valid hn (by omega) (by omega)
        (by omega)
      rw [h3]
      cases c
      simp only at h1 h2
      subst h1 h2
      exact this
    · exact ⟨h1, h2, h3, h4, h5, h6, h7⟩

theorem inv_iterate (a b : Int) (n : Nat) (ha : 1 ≤ a) (hn : 1 ≤ n) (c : HermiteCounter)
    (h : c.Inv a b n) (k : Nat) : (HermiteCounter.advance^[k] c).Inv a b n := by
  induction k with
  | zero => exact h
  | succ k ih =>
    rw [Function.iterate_succ_apply']
    exact inv_advance a b n ha hn _ ih

/-- C14: a `HermiteCounter` constructed with valid arguments `(d_low, d_high, n)` exists, and in
every state reached by advancing it in which `valid()` holds, `current()` is an `n x n` upper
triangular matrix with positive diagonal whose entries right of the diagonal satisfy
`0 <= H_ij < H_ii`, its determinant is `determinant()`, its diagonal is `diagonal()`, and
`determinant()` lies in `[d_low, d_high]`. -/
theorem C14_counter_invariant (d_low d_high n : Int) (h1 : 1 ≤ d_low) (h2 : d_low ≤ d_high)
    (h3 : 1 ≤ n) :
    ∃ c0, HermiteCounter.construct d_low d_high n = .ok c0 ∧ c0.valid = true ∧
      ∀ k, (HermiteCounter.advance^[k] c0).valid = true →
        (HermiteCounter.advance^[k] c0).dim = n.toNat ∧
        IsHermite n.toNat (HermiteCounter.advance^[k] c0).current ∧
        (toMatrix n.toNat (HermiteCounter.advance^[k] c0).current).det =
          (HermiteCounter.advance^[k] c0).determinant ∧
        diagonal_of n.toNat (HermiteCounter.advance^[k] c0).current =
          (HermiteCounter.advance^[k] c0).diagonal ∧
        d_low ≤ (HermiteCounter.advance^[k] c0).determinant ∧
        (HermiteCounter.advance^[k] c0).determinant ≤ d_high := by
  refine ⟨_, construct_ok d_low d_high n h1 h2 h3, rfl, ?_⟩
  intro k _
  have hn : 1 ≤ n.toNat := by omega
  obtain ⟨-, -, i3, i4, i5, i6, i7⟩ := inv_iterate d_low d_high n.toNat h1 hn _
    (inv_initial d_low d_high d_low n.toNat 0 true hn h1 (le_refl _) h2) k
  obtain ⟨z1, z2, z3⟩ := zip_hermite _ _ i4 i7
  rw [i3] at z1 z2 z3
  exact ⟨i3, z1, z3, z2, i5, i6⟩

theorem C14_witness :
    ∃ c0, HermiteCounter.construct 2 3 3 = .ok c0 ∧ c0.valid = true ∧
      ∀ k, (HermiteCounter.advance^[k] c0).valid = true →
        (HermiteCounter.advance^[k] c0).dim = (3 : Int).toNat ∧
        IsHermite (3 : Int).toNat (HermiteCounter.advance^[k] c0).current ∧
        (toMatrix (3 : Int).toNat (HermiteCounter.advance^[k] c0).current).det =
          (HermiteCounter.advance^[k] c0).determinant ∧
        diagonal_of (3 : Int).toNat (HermiteCounter.advance^[k] c0).current =
          (HermiteCounter.advance^[k] c0).diagonal ∧
        2 ≤ (HermiteCounter.advance^[k] c0).determinant ∧
        (HermiteCounter.advance^[k] c0).determinant ≤ 3 :=
  C14_counter_invariant 2 3 3 (by decide) (by decide) (by decide)

open HermiteCounter_impl

/-- C16: `HermiteCounter(1, 3, 3)` emits exactly 21 distinct matrices before `valid()` becomes
false, in non-decreasing determinant: the identity at determinant 1, then 7 matrices of
determinant 2, then 13 of determinant 3; the sweeps at the determinants 4 and 5 in dimension 3
emit 35 and 31 matrices. -/
theorem C16_counter_counts :
    (∃ c, HermiteCounter.construct 1 3 3 = .ok c ∧
      (HermiteCounter.emit 30 c).length = 21 ∧
      (HermiteCounter.emit 30 c).Nodup ∧
      (HermiteCounter.emit 30 c).head? = some [[1, 0, 0], [0, 1, 0], [0, 0, 1]] ∧
      (HermiteCounter.states 30 c).map HermiteCounter.determinant =
        [1] ++ List.replicate 7 2 ++ List.replicate 13 3 ∧
      (HermiteCounter.advance^[20] c).valid = true ∧
      (HermiteCounter.advance^[21] c).valid = false) ∧
    (∃ c, HermiteCounter.construct_single 4 3 = .ok c ∧
      (HermiteCounter.emit 40 c).length = 35 ∧ (HermiteCounter.emit 40 c).Nodup ∧
      (HermiteCounter.states 40 c).map HermiteCounter.determinant = List.replicate 35 4) ∧
    (∃ c, HermiteCounter.construct_single 5 3 = .ok c ∧
      (HermiteCounter.emit 40 c).length = 31 ∧ (HermiteCounter.emit 40 c).Nodup ∧
      (HermiteCounter.states 40 c).map HermiteCounter.determinant = List.replicate 31 5) :=
  ⟨⟨_, rfl, by decide, by decide, by decide, by decide, by decide, by decide⟩,
   ⟨_, rfl, by decide, by decide, by decide⟩,
   ⟨_, rfl, by decide, by decide, by decide⟩⟩

/-- C18: the successive distinct values of `diagonal()` over the sweep of `HermiteCounter(6, 3)`
are the nine diagonals `(6,1,1), (3,2,1), (3,1,2), (2,3,1), (2,1,3), (1,6,1), (1,3,2), (1,2,3),
(1,1,6)` in that order, from the initial `(d,1,1)` to the final `(1,1,d)`; they are distinct
and are exactly the ordered factorizations of 6 into three positive factors; after them the
counter is not valid. -/
theorem C18_diagonal_walk :
    ∃ c, HermiteCounter.construct_single 6 3 = .ok c ∧
      HermiteCounter.diagonals 100 c =
        [[6, 1, 1], [3, 2, 1], [3, 1, 2], [2, 3, 1], [2, 1, 3], [1, 6, 1], [1, 3, 2], [1, 2, 3],
          [1, 1, 6]] ∧
      (HermiteCounter.diagonals 100 c).Nodup ∧
      (HermiteCounter.states 100 c).length = 91 ∧
      (∀ x y z : Int, (1 ≤ x ∧ 1 ≤ y ∧ 1 ≤ z ∧ x * y * z = 6) ↔
        [x, y, z] ∈ HermiteCounter.diagonals 100 c) := by
  have h : HermiteCounter.diagonals 100 ⟨0, 6, 6, [6, 1, 1], [0, 0, 0], true⟩ =
      [[6, 1, 1], [3, 2, 1], [3, 1, 2], [2, 3, 1], [2, 1, 3], [1, 6, 1], [1, 3, 2], [1, 2, 3],
        [1, 1, 6]] := by decide
  refine ⟨⟨0, 6, 6, [6, 1, 1], [0, 0, 0], true⟩, rfl, h, by rw [h]; decide, by decide, ?_⟩
  intro x y z
  rw [h]
  constructor
  · rintro ⟨hx, hy, hz, hp⟩
    have hyz : 1 ≤ y * z := one_le_mul_of_one_le_of_one_le hy hz
    have hxz : 1 ≤ x * z := one_le_mul_of_one_le_of_one_le hx hz
    have hx6 : x ≤ 6 := by nlinarith
    have hy6 : y ≤ 6 := by nlinarith
    interval_cases x <;> interval_cases y <;> first
      | (have hz : z = 6 := by omega
         subst hz; decide)
      | (have hz : z = 3 := by omega
         subst hz; decide)
      | (have hz : z = 2 := by omega
         subst hz; decide)
      | (have hz : z = 1 := by omega
         subst hz; decide)
      | (exfalso; omega)
  · intro hm
    have hall : ∀ D ∈ ([[6, 1, 1], [3, 2, 1], [3, 1, 2], [2, 3, 1], [2, 1, 3], [1, 6, 1],
        [1, 3, 2], [1, 2, 3], [1, 1, 6]] : List (List Int)), (∀ t ∈ D, 1 ≤ t) ∧ D.prod = 6 := by
      decide
    obtain ⟨h1, h2⟩ := hall _ hm
    refine ⟨h1 x (by simp), h1 y (by simp), h1 z (by simp), ?_⟩
    simpa [mul_assoc] using h2

open HermiteCounter_impl

theorem Enumerates.ne_nil {α : Type} {R : α → α → Prop} {L : List α} {a b : α}
    (h : Enumerates R L a b) : L ≠ [] := by
  intro e
  rw [e] at h
  simp [Enumerates] at h

theorem Enumerates.first_mem {α : Type} {R : α → α → Prop} {L : List α} {a b : α}
    (h : Enumerates R L a b) : a ∈ L :=
  List.mem_of_mem_head? h.1

theorem Enumerates.last_mem {α : Type} {R : α → α → Prop} {L : List α} {a b : α}
    (h : Enumerates R L a b) : b ∈ L :=
  List.mem_of_getLast?_eq_some h.2.1

theorem Enumerates.singleton {α : Type} (R : α → α → Prop) (a : α) : Enumerates R [a] a a :=
  ⟨rfl, rfl, List.chain'_singleton a⟩

theorem Enumerates.map {α β : Type} {S : α → α → Prop} {R : β → β → Prop} {L : List α}
    {a b : α} (g : α → β) (h : Enumerates S L a b)
    (hg : ∀ x y, x ∈ L → y ∈ L → S x y → R (g x) (g y)) :
    Enumerates R (L.map g) (g a) (g b) := by
  refine ⟨by rw [List.head?_map, h.1]; rfl, by rw [List.getLast?_map, h.2.1]; rfl, ?_⟩
  rw [List.chain'_map]
  exact (List.Chain'.iff_mem.1 h.2.2).imp fun x y ⟨hx, hy, hs⟩ => hg x y hx hy hs

theorem Enumerates.flatMap {α β : Type} {S : α → α → Prop} {R : β → β → Prop} {L : List α}
    {a b : α} (f : α → List β) (fst lst : α → β) (h : Enumerates S L a b)
    (hf : ∀ x ∈ L, Enumerates R (f x) (fst x) (lst x))
    (hlink : ∀ x y, x ∈ L → y ∈ L → S x y → R (lst x) (fst y)) :
    Enumerates R (L.flatMap f) (fst a) (lst b) := by
  refine ⟨?_, ?_, ?_⟩
  · obtain ⟨ys, e⟩ := List.head?_eq_some_iff.1 h.1
    have h1 := (hf a h.first_mem).1
    rw [e, List.flatMap_cons, List.head?_append, h1]; rfl
  · obtain ⟨ys, e⟩ := List.getLast?_eq_some_iff.1 h.2.1
    have h1 := (hf b h.last_mem).2.1
    rw [e, List.flatMap_append, List.flatMap_singleton, List.getLast?_append, h1]; rfl
  · show ((L.map f).flatten).Chain' R
    rw [List.chain'_flatten]
    · refine ⟨?_, ?_⟩
      · intro l hl
        obtain ⟨x, hx, rfl⟩ := List.mem_map.1 hl
        exact (hf x hx).2.2
      · rw [List.chain'_map]
        refine (List.Chain'.iff_mem.1 h.2.2).imp ?_
        rintro x y ⟨hx, hy, hs⟩ u hu v hv
        rw [(hf x hx).2.1] at hu
        rw [(hf y hy).1] at hv
        cases hu; cases hv
        exact hlink x y hx hy hs
    · intro hmem
      obtain ⟨x, hx, e⟩ := List.mem_map.1 hmem
      exact (hf x hx).ne_nil e

/-- Iterating the successor along an enumeration reaches its elements in order. -/
theorem Enumerates.iterate {α : Type} {L : List α} {a b : α} (nx : α → α)
    (h : Enumerates (fun x y => nx x = y) L a b) :
    ∀ k (hk : k < L.length), nx^[k] a = L.get ⟨k, hk⟩ := by
  obtain ⟨h1, -, h3⟩ := h
  obtain ⟨ys, rfl⟩ := List.head?_eq_some_iff.1 h1
  intro k
  induction k with
  | zero => intro _; rfl
  | succ k ih =>
    intro hk
    rw [Function.iterate_succ_apply', ih (by omega)]
    exact (List.chain'_iff_get.1 h3) k (by omega)

theorem Enumerates.iterate_last {α : Type} {L : List α} {a b : α} (nx : α → α)
    (h : Enumerates (fun x y => nx x = y) L a b) :
    nx^[L.length - 1] a = b := by
  have hne := h.ne_nil
  have hk : L.length - 1 < L.length := by
    have := List.length_pos.2 hne; omega
  rw [h.iterate nx _ hk]
  have := h.2.1
  rw [List.getLast?_eq_getLast _ hne, Option.some.injEq] at this
  rw [← this, List.getLast_eq_getElem]
  rfl

theorem pairwise_gaps (L : List Int) (h : L.Pairwise (fun x y => y < x)) :
    L.Chain' fun x y => y < x ∧ ∀ z ∈ L, ¬ (y < z ∧ z < x) := by
  induction L with
  | nil => exact List.chain'_nil
  | cons x rest ih =>
    rw [List.pairwise_cons] at h
    have ih' := ih h.2
    rw [List.chain'_cons']
    constructor
    · intro y hy
      have hy' := List.mem_of_mem_head? hy
      refine ⟨h.1 y hy', ?_⟩
      intro z hz ⟨hz1, hz2⟩
      rcases List.mem_cons.1 hz with e | e
      · omega
      · obtain ⟨ys, e2⟩ := List.head?_eq_some_iff.1 hy
        rw [e2] at e
        rcases List.mem_cons.1 e with e3 | e3
        · omega
        · have := h.2
          rw [e2, List.pairwise_cons] at this
          have := this.1 z e3
          omega
    · refine (List.Chain'.iff_mem.1 ih').imp ?_
      rintro u v ⟨hu, hv, huv, hgap⟩
      refine ⟨huv, ?_⟩
      intro z hz
      rcases List.mem_cons.1 hz with e | e
      · have := h.1 u hu
        omega
      · exact hgap z e

theorem mem_down (d x : Int) : x ∈ down d ↔ 1 ≤ x ∧ x ≤ d := by
  unfold down
  rw [List.mem_map]
  constructor
  · rintro ⟨k, hk, rfl⟩
    rw [List.mem_range] at hk
    omega
  · rintro ⟨h1, h2⟩
    exact ⟨(d - x).toNat, by rw [List.mem_range]; omega, by omega⟩

theorem down_pairwise (d : Int) : (down d).Pairwise fun x y => y < x := by
  unfold down
  rw [List.pairwise_map]
  exact (List.pairwise_lt_range _).imp fun h => by omega

theorem mem_divisors_desc (d x : Int) (hd : 1 ≤ d) :
    x ∈ divisors_desc d ↔ 1 ≤ x ∧ x ∣ d := by
  unfold divisors_desc
  rw [List.mem_filter, mem_down, decide_eq_true_eq, ← Int.dvd_iff_emod_eq_zero]
  constructor
  · rintro ⟨⟨h1, -⟩, h3⟩
    exact ⟨h1, h3⟩
  · rintro ⟨h1, h2⟩
    exact ⟨⟨h1, Int.le_of_dvd (by omega) h2⟩, h2⟩

theorem divisors_desc_enumerates (d : Int) (hd : 1 ≤ d) :
    Enumerates (DivStep d) (divisors_desc d) d 1 := by
  obtain ⟨k, rfl⟩ : ∃ k : Nat, d = (k : Int) + 1 := ⟨(d - 1).toNat, by omega⟩
  refine ⟨?_, ?_, ?_⟩
  · unfold divisors_desc down
    rw [show ((k : Int) + 1).toNat = k + 1 by omega, List.range_succ_eq_map, List.map_cons,
      List.filter_cons_of_pos (by simp)]
    simp
  · unfold divisors_desc down
    rw [show ((k : Int) + 1).toNat = k + 1 by omega, List.range_succ, List.map_append,
      List.filter_append, List.map_singleton,
      List.filter_cons_of_pos (by simp), List.filter_nil, List.getLast?_concat]
    simp
  · have := pairwise_gaps _ ((down_pairwise ((k : Int) + 1)).filter fun a => ((k : Int) + 1) % a = 0)
    refine (List.Chain'.iff_mem.1 this).imp ?_
    rintro a a' ⟨ha, ha', hlt, hgap⟩
    have ha := (mem_divisors_desc _ a hd).1 ha
    have ha' := (mem_divisors_desc _ a' hd).1 ha'
    refine ⟨ha'.1, hlt, ha.2, ha'.2, ?_⟩
    intro g hg hgg
    exact hgap g ((mem_divisors_desc _ g hd).2 ⟨by omega, hg⟩) hgg

open HermiteCounter_impl

theorem pos_of_lt (L : List Int) (h : L ≠ []) : pos_of L < L.length := by
  induction L with
  | nil => exact absurd rfl h
  | cons a tail ih =>
    unfold pos_of
    split_ifs with hc
    · simp
    · have : tail ≠ [] := by
        rintro rfl
        exact hc (by simp)
      have := ih this
      simp only [List.length_cons]; omega

theorem pos_of_all_ones (L : List Int) (h : ∀ x ∈ L, x = 1) : pos_of L = 0 := by
  cases L with
  | nil => rfl
  | cons a tail =>
    unfold pos_of
    rw [if_pos fun x hx => h x (List.mem_cons_of_mem _ hx)]

theorem pos_of_all_ones_tail (a : Int) (tail : List Int) (h : ∀ x ∈ tail, x = 1) :
    pos_of (a :: tail) = 0 := by
  rw [pos_of, if_pos h]

theorem pos_of_ones_append (k : Nat) (l : Int) (hl : l ≠ 1) :
    pos_of (List.replicate k 1 ++ [l]) = k := by
  induction k with
  | zero => simp [pos_of]
  | succ k ih =>
    rw [List.replicate_succ, List.cons_append, pos_of, if_neg, ih]
    intro hc
    exact hl (hc l (by simp))

theorem backtrack_cons_some (x : Int) (tail : List Int) (p : Nat)
    (h : backtrack tail = some p) : backtrack (x :: tail) = some (p + 1) := by
  cases tail with
  | nil => simp [backtrack] at h
  | cons y rest => rw [backtrack, h]

theorem backtrack_cons_none (x : Int) (tail : List Int) (hne : tail ≠ [])
    (h : backtrack tail = none) :
    backtrack (x :: tail) = if x ≠ 1 then some 0 else none := by
  cases tail with
  | nil => exact absurd rfl hne
  | cons y rest => rw [backtrack, h]

theorem backtrack_ones_append (k : Nat) (l : Int) :
    backtrack (List.replicate k 1 ++ [l]) = none := by
  induction k with
  | zero => rfl
  | succ k ih =>
    rw [List.replicate_succ, List.cons_append, backtrack_cons_none _ _ (by simp) ih]
    simp

/-- The walk is complete on the final diagonal `1, ..., 1, l`. -/
theorem next_spill_position_final (k : Nat) (l : Int) :
    next_spill_position (List.replicate k 1 ++ [l]) (pos_of (List.replicate k 1 ++ [l])) =
      (List.replicate k 1 ++ [l], k + 1) := by
  unfold next_spill_position
  rw [backtrack_ones_append, if_neg]
  · simp
  · rintro ⟨h1, h2⟩
    by_cases hl : l = 1
    · subst hl
      rw [pos_of_all_ones _ (by
        intro x hx
        rcases List.mem_append.1 hx with e | e
        · exact (List.mem_replicate.1 e).2
        · simpa using e)] at h2
      cases k with
      | zero => simp at h2
      | succ k => simp [List.replicate_succ] at h2
    · rw [pos_of_ones_append k l hl] at h1
      simp at h1

theorem spill_factor_cons (a : Int) (tail : List Int) (p : Nat) (attempt : Int) :
    _spill_factor (a :: tail) (p + 1) attempt =
      (a :: (_spill_factor tail p attempt).1, (_spill_factor tail p attempt).2 + 1) := by
  rw [_spill_factor]

/-- The walk on a diagonal `a :: tail` is the walk on `tail` while that is not complete. -/
theorem next_spill_position_cons (a : Int) (tail : List Int) (p : Nat)
    (h : (p + 1 < tail.length ∧ 1 < tail.getD p 1) ∨ (backtrack tail).isSome) :
    next_spill_position (a :: tail) (p + 1) =
      (a :: (next_spill_position tail p).1, (next_spill_position tail p).2 + 1) := by
  unfold next_spill_position
  have hc : (p + 1 + 1 < (a :: tail).length ∧ 1 < (a :: tail).getD (p + 1) 1) ↔
      (p + 1 < tail.length ∧ 1 < tail.getD p 1) := by
    simp
  by_cases hcond : p + 1 < tail.length ∧ 1 < tail.getD p 1
  · rw [if_pos (hc.2 hcond), if_pos hcond, spill_factor_cons]
  · rw [if_neg (fun hh => hcond (hc.1 hh)), if_neg hcond]
    have hs : (backtrack tail).isSome := by
      rcases h with h | h
      · exact absurd h hcond
      · exact h
    obtain ⟨q, hq⟩ := Option.isSome_iff_exists.1 hs
    have hne : tail ≠ [] := by
      rintro rfl
      simp [backtrack] at hq
    rw [backtrack_cons_some a tail q hq, hq]
    simp only []
    have e1 : (a :: tail).getLastD 1 = tail.getLastD 1 := by
      cases tail with
      | nil => exact absurd rfl hne
      | cons y rest => simp
    have e2 : (a :: tail).length - 1 = (tail.length - 1) + 1 := by
      have := List.length_pos.2 hne
      simp only [List.length_cons]; omega
    rw [e1, e2, List.getD_cons_succ, List.set_cons_succ, List.set_cons_succ, spill_factor_cons]

/-- The walk at the end of the block of the leading entry `a`: on `a, 1, ..., 1, l` the last
entry is flushed into the leading one and the next factor is spilled. -/
theorem next_spill_position_block (a : Int) (k : Nat) (l : Int) (ha : 1 < a) (hl : 1 ≤ l) :
    next_spill_position (a :: (List.replicate k 1 ++ [l]))
        (pos_of (a :: (List.replicate k 1 ++ [l]))) =
      (Int.tdiv (a * l) (spilled (a * l) (l + 1)) :: spilled (a * l) (l + 1) ::
        List.replicate k 1, 1) := by
  unfold next_spill_position
  by_cases hl1 : l = 1
  · subst hl1
    have e : List.replicate k (1 : Int) ++ [1] = 1 :: List.replicate k 1 := by
      rw [← List.replicate_succ', List.replicate_succ]
    rw [e, pos_of_all_ones_tail a _ (by simp), if_pos ⟨by simp, by simpa using ha⟩]
    have := spill_factor_append [] a 1 (List.replicate k 1) 2
    simp only [List.nil_append, List.length_nil, zero_add, one_mul] at this
    rw [this, mul_one]
    rfl
  · have hp : pos_of (a :: (List.replicate k 1 ++ [l])) = k + 1 := by
      rw [pos_of, if_neg, pos_of_ones_append k l hl1]
      intro hc
      exact hl1 (hc l (by simp))
    rw [hp, if_neg (by simp), backtrack_cons_none _ _ (by simp) (backtrack_ones_append k l),
      if_pos (by omega)]
    exact flush_spill [] a k l

open HermiteCounter_impl

theorem divStep_spill (d a a' : Int) (hd : 1 ≤ d) (h : DivStep d a a') :
    1 ≤ d / a ∧ a * (d / a) = d ∧ 1 ≤ d / a' ∧ a' * (d / a') = d ∧
    spilled (a * (d / a)) (d / a + 1) = d / a' ∧ Int.tdiv (a * (d / a)) (d / a') = a' := by
  obtain ⟨h1, hlt, ⟨l, hl⟩, ⟨l', hl'⟩, hgap⟩ := h
  have ha : 0 < a := by omega
  have ha' : 0 < a' := by omega
  have e1 : d / a = l := by rw [hl]; exact Int.mul_ediv_cancel_left l (by omega)
  have e2 : d / a' = l' := by rw [hl']; exact Int.mul_ediv_cancel_left l' (by omega)
  have hl0 : 0 < l := by
    by_contra hc
    have : a * l ≤ 0 := mul_nonpos_of_nonneg_of_nonpos ha.le (by omega)
    omega
  have hl0' : 0 < l' := by
    by_contra hc
    have : a' * l' ≤ 0 := mul_nonpos_of_nonneg_of_nonpos ha'.le (by omega)
    omega
  have hll : l < l' := by
    by_contra hc
    have h3 : a' * l' ≤ a' * l := mul_le_mul_of_nonneg_left (by omega) ha'.le
    have h4 : a' * l < a * l := mul_lt_mul_of_pos_right hlt hl0
    omega
  rw [e1, e2, ← hl]
  have hle : l + 1 ≤ d := by
    have : 2 * l ≤ a * l := mul_le_mul_of_nonneg_right (by omega) hl0.le
    omega
  obtain ⟨s1, s2, ⟨g, hg⟩, s4⟩ := spilled_spec d (l + 1) (by omega) hle
  have hf : spilled d (l + 1) = l' := by
    apply le_antisymm
    · by_contra hc
      exact s4 l' (by omega) (by omega) ⟨a', by rw [hl']; ring⟩
    · by_contra hc
      have hf0 : 0 < spilled d (l + 1) := by omega
      have hg0 : 0 < g := by
        by_contra hc'
        have : spilled d (l + 1) * g ≤ 0 := mul_nonpos_of_nonneg_of_nonpos hf0.le (by omega)
        omega
      have hga : g < a := by
        by_contra hc'
        have h3 : l * a < spilled d (l + 1) * a := mul_lt_mul_of_pos_right (by omega) ha
        have h4 : spilled d (l + 1) * a ≤ spilled d (l + 1) * g :=
          mul_le_mul_of_nonneg_left (by omega) hf0.le
        have h5 : l * a = a * l := mul_comm _ _
        omega
      have hga' : g ≤ a' := by
        by_contra hc'
        exact hgap g ⟨spilled d (l + 1), hg.trans (mul_comm _ _)⟩ ⟨by omega, hga⟩
      have h3 : spilled d (l + 1) * g ≤ spilled d (l + 1) * a' :=
        mul_le_mul_of_nonneg_left hga' hf0.le
      have h4 : spilled d (l + 1) * a' < l' * a' := mul_lt_mul_of_pos_right (by omega) ha'
      have h5 : l' * a' = a' * l' := mul_comm _ _
      omega
  refine ⟨by omega, rfl, by omega, hl'.symm, hf, ?_⟩
  have := tdiv_mul_left hl0' ha'.le
  rwa [mul_comm, ← hl'] at this

theorem prod_pos_of_pos (D : List Int) (h : ∀ x ∈ D, 1 ≤ x) : 1 ≤ D.prod := by
  induction D with
  | nil => simp
  | cons a D ih =>
    rw [List.prod_cons]
    exact one_le_mul_of_one_le_of_one_le (h a (by simp)) (ih fun x hx => h x (by simp [hx]))

theorem all_ones_of_prod (D : List Int) (h : ∀ x ∈ D, 1 ≤ x) (hp : D.prod = 1) :
    ∀ x ∈ D, x = 1 := by
  induction D with
  | nil => intro x hx; simp at hx
  | cons a D ih =>
    rw [List.prod_cons] at hp
    have ha := h a (by simp)
    have hP := prod_pos_of_pos D fun x hx => h x (by simp [hx])
    have h1 : a ≤ a * D.prod := le_mul_of_one_le_right (by omega) hP
    have h2 : D.prod ≤ a * D.prod := le_mul_of_one_le_left (by omega) ha
    intro x hx
    rcases List.mem_cons.1 hx with e | e
    · rw [e]; omega
    · exact ih (fun x hx => h x (by simp [hx])) (by omega) x e

theorem isDiagonal_cons (n : Nat) (d a l : Int) (D : List Int) (ha : 1 ≤ a) (hal : a * l = d)
    (h : IsDiagonal n l D) : IsDiagonal (n + 1) d (a :: D) := by
  obtain ⟨h1, h2, h3⟩ := h
  refine ⟨by simp [h1], ?_, by rw [List.prod_cons, h3, hal]⟩
  intro x hx
  rcases List.mem_cons.1 hx with e | e
  · rw [e]; exact ha
  · exact h2 x e

/-- A step of the walk in the tail of a diagonal is a step of the walk. -/
theorem diagStep_cons (n : Nat) (d a l : Int) (D D' : List Int) (ha : 1 ≤ a) (hal : a * l = d)
    (h : DiagStep (n + 1) l D D') : DiagStep (n + 2) d (a :: D) (a :: D') := by
  obtain ⟨hD, hD', hs⟩ := h
  have hne : D ≠ [] := by
    rintro rfl
    have := hD.1
    simp at this
  have hne' : D' ≠ [] := by
    rintro rfl
    have := hD'.1
    simp at this
  have hp' := pos_of_lt D' hne'
  rw [hD'.1] at hp'
  -- the walk on the tail is not complete
  have hnc : (pos_of D + 1 < D.length ∧ 1 < D.getD (pos_of D) 1) ∨ (backtrack D).isSome := by
    by_contra hc
    rw [not_or] at hc
    obtain ⟨hc1, hc2⟩ := hc
    have hb : backtrack D = none := by
      cases hb : backtrack D with
      | none => rfl
      | some q => rw [hb] at hc2; simp at hc2
    unfold next_spill_position at hs
    rw [if_neg hc1, hb] at hs
    simp only [Prod.mk.injEq] at hs
    have := hs.2
    rw [hD.1] at this
    omega
  have hno : ¬ ∀ x ∈ D, x = 1 := by
    intro hall
    have e : D = List.replicate n 1 ++ [1] := by
      rw [← List.replicate_succ', ← hD.1]
      exact List.eq_replicate_iff.2 ⟨rfl, hall⟩
    rw [e, next_spill_position_final] at hs
    simp only [Prod.mk.injEq] at hs
    omega
  have hno' : ¬ ∀ x ∈ D', x = 1 := by
    intro hall
    have hp : D'.prod = 1 := by
      rw [List.eq_replicate_iff.2 ⟨rfl, hall⟩]
      simp
    rw [hD'.2.2] at hp
    exact hno (all_ones_of_prod D hD.2.1 (by rw [hD.2.2, hp]))
  refine ⟨isDiagonal_cons _ d a l D ha hal hD, isDiagonal_cons _ d a l D' ha hal hD', ?_⟩
  rw [pos_of, if_neg hno, pos_of, if_neg hno', next_spill_position_cons a D _ hnc, hs]

/-- The walk goes from the last diagonal of the block of a leading entry to the first
diagonal of the block of the next smaller divisor. -/
theorem diagStep_block (n : Nat) (d a a' : Int) (hd : 1 ≤ d) (h : DivStep d a a') :
    DiagStep (n + 2) d (a :: (List.replicate n 1 ++ [d / a]))
      (a' :: d / a' :: List.replicate n 1) := by
  obtain ⟨t1, t2, t3, t4, t5, t6⟩ := divStep_spill d a a' hd h
  obtain ⟨h1, hlt, -, -, -⟩ := h
  refine ⟨⟨by simp, ?_, by simp [t2]⟩, ⟨by simp, ?_, ?_⟩, ?_⟩
  · intro x hx
    simp only [List.mem_cons, List.mem_append, List.mem_replicate, List.mem_singleton,
      List.mem_nil_iff, or_false] at hx
    rcases hx with e | e | e
    · rw [e]; omega
    · rw [e.2]
    · rw [e]; exact t1
  · intro x hx
    simp only [List.mem_cons, List.mem_replicate] at hx
    rcases hx with e | e | e
    · rw [e]; exact h1
    · rw [e]; exact t3
    · rw [e.2]
  · simp only [List.prod_cons, List.prod_replicate, one_pow, mul_one]
    exact t4
  · rw [next_spill_position_block a n (d / a) (by omega) t1, t5, t6]
    have hp : pos_of (a' :: d / a' :: List.replicate n 1) = 1 ∨ d / a' = 1 := by
      by_cases hc : d / a' = 1
      · exact Or.inr hc
      · left
        rw [pos_of, if_neg (fun hall => hc (hall _ (by simp))),
          pos_of_all_ones_tail _ _ (by simp)]
    rcases hp with hp | hp
    · rw [hp]
    · exfalso
      -- `d / a'` is larger than `d / a >= 1`
      have : a * (d / a) = a' * (d / a') := by rw [t2, t4]
      rw [hp, mul_one] at this
      have h5 : a * 1 ≤ a * (d / a) := mul_le_mul_of_nonneg_left t1 (by omega)
      omega

theorem all_diagonals_enumerates (n : Nat) (d : Int) (hd : 1 ≤ d) :
    Enumerates (DiagStep (n + 1) d) (all_diagonals (n + 1) d)
      (d :: List.replicate n 1) (List.replicate n 1 ++ [d]) ∧
    ∀ D ∈ all_diagonals (n + 1) d, IsDiagonal (n + 1) d D := by
  induction n generalizing d with
  | zero =>
    refine ⟨Enumerates.singleton _ _, ?_⟩
    intro D hD
    simp only [all_diagonals, List.mem_singleton] at hD
    subst hD
    exact ⟨rfl, by simpa using hd, by simp⟩
  | succ n ih =>
    have hdiv := divisors_desc_enumerates d hd
    have hsub : ∀ a ∈ divisors_desc d, 1 ≤ a ∧ 1 ≤ d / a ∧ a * (d / a) = d := by
      intro a ha
      obtain ⟨ha1, l, hl⟩ := (mem_divisors_desc d a hd).1 ha
      have e1 : d / a = l := by rw [hl]; exact Int.mul_ediv_cancel_left l (by omega)
      have hl0 : 0 < l := by
        by_contra hc
        have : a * l ≤ 0 := mul_nonpos_of_nonneg_of_nonpos (by omega) (by omega)
        omega
      exact ⟨ha1, by omega, by rw [e1, hl]⟩
    constructor
    · have key := Enumerates.flatMap
        (fun a => (all_diagonals (n + 1) (d / a)).map fun D => a :: D)
        (fun a => a :: d / a :: List.replicate n 1)
        (fun a => a :: (List.replicate n 1 ++ [d / a])) hdiv
        (R := DiagStep (n + 2) d) ?_ ?_
      · have e1 : d / d = 1 := Int.ediv_self (by omega)
        have e2 : d / 1 = d := Int.ediv_one d
        simp only [e1, e2] at key
        rw [all_diagonals]
        rw [← List.replicate_succ, ← List.cons_append, ← List.replicate_succ] at key
        exact key
      · intro a ha
        obtain ⟨ha1, hl1, hal⟩ := hsub a ha
        exact Enumerates.map (fun D => a :: D) (ih (d / a) hl1).1
          fun D D' _ _ hs => diagStep_cons n d a (d / a) D D' ha1 hal hs
      · intro a a' _ _ hs
        exact diagStep_block n d a a' hd hs
    · intro D hD
      rw [all_diagonals, List.mem_flatMap] at hD
      obtain ⟨a, ha, hD⟩ := hD
      obtain ⟨D', hD', rfl⟩ := List.mem_map.1 hD
      obtain ⟨ha1, hl1, hal⟩ := hsub a ha
      exact isDiagonal_cons _ d a (d / a) D' ha1 hal ((ih (d / a) hl1).2 D' hD')

open HermiteCounter_impl

theorem range_enumerates (k : Nat) :
    Enumerates (fun i j => j = i + 1) (List.range (k + 1)) 0 k := by
  refine ⟨by rw [List.range_succ_eq_map]; rfl, by rw [List.range_succ, List.getLast?_concat], ?_⟩
  rw [List.chain'_range_succ]
  intro m _
  rfl

theorem all_upper_enumerates (B : List Int) (hB : ∀ b ∈ B, 1 ≤ b) :
    Enumerates (fun T T' => step_upper_tri T B = some T') (all_upper B)
      (List.replicate B.length 0) (B.map fun b => b - 1) ∧
    step_upper_tri (B.map fun b => b - 1) B = none := by
  induction B with
  | nil => exact ⟨Enumerates.singleton _ _, rfl⟩
  | cons b bs ih =>
    obtain ⟨ih1, ih2⟩ := ih fun x hx => hB x (by simp [hx])
    have hb := hB b (by simp)
    obtain ⟨k, hk⟩ : ∃ k : Nat, b = (k : Int) + 1 := ⟨(b - 1).toNat, by omega⟩
    constructor
    · have key := Enumerates.flatMap
        (fun ts => (List.range b.toNat).map fun (t : Nat) => (t : Int) :: ts)
        (fun ts => (0 : Int) :: ts) (fun ts => (b - 1) :: ts) ih1
        (R := fun T T' => step_upper_tri T (b :: bs) = some T') ?_ ?_
      · exact key
      · intro ts _
        have hr := range_enumerates k
        have e : b.toNat = k + 1 := by omega
        rw [e]
        have := Enumerates.map (fun (t : Nat) => (t : Int) :: ts) hr
          (R := fun T T' => step_upper_tri T (b :: bs) = some T') ?_
        · simpa [hk] using this
        · intro x y _ hy hxy
          rw [List.mem_range] at hy
          subst hxy
          rw [step_upper_tri, if_pos (by omega)]
          simp
      · intro ts ts' _ _ hs
        show step_upper_tri ((b - 1) :: ts) (b :: bs) = some (0 :: ts')
        rw [step_upper_tri, if_neg (by omega), hs]
        rfl
    · rw [List.map_cons, step_upper_tri, if_neg (by omega), ih2]
      rfl

theorem advance_upper (c : HermiteCounter) (T : List Int)
    (h : step_upper_tri c.m_upper_tri (upper_bases c.m_diagonal) = some T) :
    c.advance = { c with m_upper_tri := T } := by
  rw [HermiteCounter.advance, h]

theorem advance_diagonal (c : HermiteCounter) (D' : List Int) (n : Nat) (d : Int)
    (h0 : step_upper_tri c.m_upper_tri (upper_bases c.m_diagonal) = none)
    (hp : c.m_pos = pos_of c.m_diagonal)
    (h : DiagStep (n + 1) d c.m_diagonal D') :
    c.advance = { c with m_pos := pos_of D', m_diagonal := D',
                         m_upper_tri := List.replicate (upper_bases D').length 0 } := by
  obtain ⟨hD, hD', hs⟩ := h
  have hne' : D' ≠ [] := by
    rintro rfl
    have := hD'.1
    simp at this
  have hlt := pos_of_lt D' hne'
  rw [HermiteCounter.advance, h0]
  simp only [HermiteCounter._increment_diagonal, HermiteCounter.dim, hp, hs]
  rw [if_pos (by rw [hD.1, ← hD'.1]; exact hlt), upper_bases_length, hD.1, hD'.1]

theorem advance_final (c : HermiteCounter) (k : Nat) (l : Int)
    (h0 : step_upper_tri c.m_upper_tri (upper_bases c.m_diagonal) = none)
    (hp : c.m_pos = pos_of c.m_diagonal)
    (hD : c.m_diagonal = List.replicate k 1 ++ [l]) :
    c.advance = (if l < c.m_high_det then c._jump_to_determinant (l + 1)
      else { c with m_valid := false }) := by
  have hdet : c.determinant = l := by
    rw [HermiteCounter.determinant, hD]
    simp
  rw [HermiteCounter.advance, h0]
  simp only [HermiteCounter._increment_diagonal, HermiteCounter.dim, hp]
  rw [hdet, hD, next_spill_position_final]
  rw [if_neg (by simp)]

theorem sweep_states_enumerates (lo hi : Int) (n : Nat) (d : Int) (hd : 1 ≤ d) :
    Enumerates (fun c c' => c.advance = c') (sweep_states lo hi (n + 1) d)
      { m_pos := 0, m_low_det := lo, m_high_det := hi, m_diagonal := d :: List.replicate n 1,
        m_upper_tri := List.replicate (upper_size (n + 1)) 0, m_valid := true }
      { m_pos := pos_of (List.replicate n 1 ++ [d]), m_low_det := lo, m_high_det := hi,
        m_diagonal := List.replicate n 1 ++ [d],
        m_upper_tri := (upper_bases (List.replicate n 1 ++ [d])).map fun b => b - 1,
        m_valid := true } := by
  obtain ⟨hen, hmem⟩ := all_diagonals_enumerates n d hd
  have key := Enumerates.flatMap
    (fun D => (all_upper (upper_bases D)).map fun T =>
      ({ m_pos := pos_of D, m_low_det := lo, m_high_det := hi, m_diagonal := D,
         m_upper_tri := T, m_valid := true } : HermiteCounter))
    (fun D => { m_pos := pos_of D, m_low_det := lo, m_high_det := hi, m_diagonal := D,
                m_upper_tri := List.replicate (upper_bases D).length 0, m_valid := true })
    (fun D => { m_pos := pos_of D, m_low_det := lo, m_high_det := hi, m_diagonal := D,
                m_upper_tri := (upper_bases D).map fun b => b - 1, m_valid := true }) hen
    (R := fun c c' => c.advance = c') ?_ ?_
  · have e : (upper_bases (d :: List.replicate n 1)).length = upper_size (n + 1) := by
      rw [upper_bases_length]; simp
    simp only [] at key
    rw [pos_of_all_ones_tail d _ (by simp), e] at key
    exact key
  · intro D hD
    have hB := upper_bases_pos D (hmem D hD).2.1
    exact Enumerates.map _ (all_upper_enumerates _ hB).1
      fun T T' _ _ hs => advance_upper _ T' hs
  · intro D D' _ _ hs
    have hB := upper_bases_pos D hs.1.2.1
    exact advance_diagonal _ D' n d (all_upper_enumerates _ hB).2 rfl hs

open HermiteCounter_impl

theorem mem_all_upper (B T : List Int) : T ∈ all_upper B ↔ List.Forall₂ InBase T B := by
  induction B generalizing T with
  | nil => simp [all_upper]
  | cons b bs ih =>
    rw [all_upper, List.mem_flatMap, List.forall₂_cons_right_iff]
    constructor
    · rintro ⟨ts, hts, hT⟩
      obtain ⟨t, ht, rfl⟩ := List.mem_map.1 hT
      rw [List.mem_range] at ht
      exact ⟨t, ts, ⟨by omega, by omega⟩, (ih ts).1 hts, rfl⟩
    · rintro ⟨t, ts, ⟨h1, h2⟩, hts, rfl⟩
      refine ⟨ts, (ih ts).2 hts, List.mem_map.2 ⟨t.toNat, ?_, ?_⟩⟩
      · rw [List.mem_range]; omega
      · rw [Int.toNat_of_nonneg h1]

theorem nodup_all_upper (B : List Int) : (all_upper B).Nodup := by
  induction B with
  | nil => simp [all_upper]
  | cons b bs ih =>
    rw [all_upper, List.nodup_flatMap]
    constructor
    · intro ts _
      refine (List.nodup_range _).map ?_
      intro x y hxy
      simpa using hxy
    · refine ih.imp ?_
      intro ts ts' hne
      rw [Function.onFun, List.disjoint_left]
      intro T h1 h2
      obtain ⟨t, _, rfl⟩ := List.mem_map.1 h1
      obtain ⟨t', _, e⟩ := List.mem_map.1 h2
      simp only [List.cons.injEq] at e
      exact hne e.2.symm

theorem mem_all_diagonals (n : Nat) (d : Int) (hd : 1 ≤ d) (D : List Int) :
    D ∈ all_diagonals (n + 1) d ↔ IsDiagonal (n + 1) d D := by
  refine ⟨(all_diagonals_enumerates n d hd).2 D, ?_⟩
  induction n generalizing d D with
  | zero =>
    rintro ⟨h1, -, h3⟩
    obtain ⟨x, rfl⟩ := List.length_eq_one.1 h1
    simp only [List.prod_cons, List.prod_nil, mul_one] at h3
    subst h3
    simp [all_diagonals]
  | succ n ih =>
    rintro ⟨h1, h2, h3⟩
    cases D with
    | nil => simp at h1
    | cons a D' =>
      have ha := h2 a (by simp)
      have hP := prod_pos_of_pos D' fun x hx => h2 x (by simp [hx])
      rw [List.prod_cons] at h3
      have e1 : d / a = D'.prod := by
        rw [← h3]; exact Int.mul_ediv_cancel_left _ (by omega)
      rw [all_diagonals, List.mem_flatMap]
      refine ⟨a, (mem_divisors_desc d a hd).2 ⟨ha, ⟨D'.prod, h3.symm⟩⟩, List.mem_map.2 ⟨D', ?_, rfl⟩⟩
      rw [e1]
      exact ih D'.prod hP D' ⟨by simpa using h1, fun x hx => h2 x (by simp [hx]), rfl⟩

theorem nodup_divisors_desc (d : Int) : (divisors_desc d).Nodup := by
  unfold divisors_desc
  exact (((down_pairwise d).imp fun h => by omega).filter _ : List.Pairwise (· ≠ ·) _)

theorem nodup_all_diagonals (n : Nat) (d : Int) : (all_diagonals n d).Nodup := by
  induction n using Nat.strongRecOn generalizing d with
  | _ n ih =>
    match n with
    | 0 => simp [all_diagonals]
    | 1 => simp [all_diagonals]
    | n + 2 =>
      rw [all_diagonals, List.nodup_flatMap]
      constructor
      · intro a _
        refine (ih (n + 1) (by omega) (d / a)).map ?_
        intro x y hxy
        simpa using hxy
      · refine (nodup_divisors_desc d).imp ?_
        intro a a' hne
        rw [Function.onFun, List.disjoint_left]
        intro D h1 h2
        obtain ⟨t, _, rfl⟩ := List.mem_map.1 h1
        obtain ⟨t', _, e⟩ := List.mem_map.1 h2
        simp only [List.cons.injEq] at e
        exact hne e.1.symm

theorem forall₂_replicate (L : List Int) (m : Nat) (b : Int) (h1 : L.length = m)
    (h2 : ∀ x ∈ L, InBase x b) : List.Forall₂ InBase L (List.replicate m b) := by
  induction L generalizing m with
  | nil => subst h1; exact List.Forall₂.nil
  | cons x L ih =>
    subst h1
    exact List.Forall₂.cons (h2 x (by simp)) (ih _ rfl fun y hy => h2 y (by simp [hy]))

/-- Every Hermite normal form is assembled from a positive diagonal and an upper triangle
within its bases. -/
theorem hermite_rows (i : Nat) (M : List (List Int))
    (hlen : ∀ r ∈ M, r.length = i + M.length)
    (hlow : ∀ k j, k < M.length → j < i + k → entry M k j = 0)
    (hpos : ∀ k, k < M.length → 0 < entry M k (i + k))
    (hup : ∀ k j, k < M.length → i + k < j → j < i + M.length →
      InBase (entry M k j) (entry M k (i + k))) :
    ∃ D T, D.length = M.length ∧ (∀ x ∈ D, 1 ≤ x) ∧
      List.Forall₂ InBase T (upper_bases D) ∧ _zip_matrix.rows i D T = M := by
  induction M generalizing i with
  | nil => exact ⟨[], [], rfl, by simp, List.Forall₂.nil, rfl⟩
  | cons r M ih =>
    have hr : r.length = i + (M.length + 1) := hlen r (by simp)
    obtain ⟨D, T, h1, h2, h3, h4⟩ := ih (i + 1)
      (fun r' hr' => by rw [hlen r' (by simp [hr'])]; simp only [List.length_cons]; omega)
      (fun k j hk hj => by
        have := hlow (k + 1) j (by simpa using hk) (by omega)
        rwa [entry_cons_succ] at this)
      (fun k hk => by
        have := hpos (k + 1) (by simpa using hk)
        rwa [entry_cons_succ, show i + (k + 1) = i + 1 + k by ring] at this)
      (fun k j hk hj1 hj2 => by
        have := hup (k + 1) j (by simpa using hk) (by omega)
          (by simp only [List.length_cons]; omega)
        rwa [entry_cons_succ, entry_cons_succ, show i + (k + 1) = i + 1 + k by ring] at this)
    have hi : i < r.length := by omega
    have hd0 := hpos 0 (by simp)
    rw [entry_cons_zero, add_zero, List.getD_eq_getElem _ _ hi] at hd0
    have hdrop : (r.drop (i + 1)).length = D.length := by
      rw [List.length_drop, hr, h1]; omega
    refine ⟨r[i] :: D, r.drop (i + 1) ++ T, by simp [h1], ?_, ?_, ?_⟩
    · intro x hx
      rcases List.mem_cons.1 hx with e | e
      · rw [e]; omega
      · exact h2 x e
    · rw [upper_bases]
      refine List.rel_append (forall₂_replicate _ _ _ hdrop ?_) h3
      intro x hx
      obtain ⟨t, ht, rfl⟩ := List.mem_iff_getElem.1 hx
      rw [List.getElem_drop]
      rw [List.length_drop] at ht
      have := hup 0 (i + 1 + t) (by simp) (by omega) (by simp only [List.length_cons]; omega)
      rw [entry_cons_zero, entry_cons_zero, add_zero, List.getD_eq_getElem _ _ hi,
        List.getD_eq_getElem _ _ (by omega)] at this
      exact this
    · rw [_zip_matrix.rows, ← hdrop, List.take_left', List.drop_left', h4]
      · congr 1
        have htake : r.take i = List.replicate i 0 := by
          apply List.ext_getElem
          · simp; omega
          · intro j hj1 hj2
            rw [List.getElem_take, List.getElem_replicate]
            rw [List.length_replicate] at hj2
            have := hlow 0 j (by simp) (by omega)
            rwa [entry_cons_zero, List.getD_eq_getElem _ _ (by omega)] at this
        rw [← htake, ← List.drop_eq_getElem_cons hi, List.take_append_drop]
      · rfl
      · rfl

theorem hermite_eq_zip (n : Nat) (H : List (List Int)) (h : IsHermite n H) :
    ∃ D T, D.length = n ∧ (∀ x ∈ D, 1 ≤ x) ∧
      List.Forall₂ InBase T (upper_bases D) ∧ _zip_matrix D T = H := by
  obtain ⟨⟨h1, h2⟩, h3, h4, h5⟩ := h
  subst h1
  exact hermite_rows 0 H (fun r hr => by rw [h2 r hr, zero_add])
    (fun k j hk hj => h3 k j (by omega) hk)
    (fun k hk => by rw [zero_add]; exact h4 k hk)
    (fun k j hk hj1 hj2 => by rw [zero_add]; exact h5 k j (by omega) (by omega))

theorem zip_injective (n : Nat) (D D' T T' : List Int) (hD : D.length = n) (hD' : D'.length = n)
    (hT : T.length = upper_size n) (hT' : T'.length = upper_size n)
    (h : _zip_matrix D T = _zip_matrix D' T') : D = D' ∧ T = T' := by
  subst hD
  have d1 := zip_diagonal D T hT
  have d2 := zip_diagonal D' T' (by rw [hD']; exact hT')
  have u1 := zip_upper D T hT
  have u2 := zip_upper D' T' (by rw [hD']; exact hT')
  rw [hD'] at d2 u2
  rw [h] at d1 u1
  exact ⟨d1.symm.trans d2, u1.symm.trans u2⟩

/-- The matrices of the reference enumeration are the Hermite normal forms of the determinant,
each once. -/
theorem sweep_states_current (lo hi : Int) (n : Nat) (d : Int) (hd : 1 ≤ d) :
    ((sweep_states lo hi (n + 1) d).map HermiteCounter.current).Nodup ∧
    ∀ H, H ∈ (sweep_states lo hi (n + 1) d).map HermiteCounter.current ↔
      IsHermite (n + 1) H ∧ (toMatrix (n + 1) H).det = d := by
  have hmap : (sweep_states lo hi (n + 1) d).map HermiteCounter.current =
      (all_diagonals (n + 1) d).flatMap fun D =>
        (all_upper (upper_bases D)).map fun T => _zip_matrix D T := by
    rw [sweep_states, List.map_flatMap]
    simp only [List.map_map]
    rfl
  have hlenT : ∀ D T, T ∈ all_upper (upper_bases D) → T.length = upper_size D.length := by
    intro D T hT
    rw [((mem_all_upper _ _).1 hT).length_eq, upper_bases_length]
  rw [hmap]
  constructor
  · rw [List.nodup_flatMap]
    constructor
    · intro D hD
      refine (nodup_all_upper _).map_on ?_
      intro T hT T' hT' e
      exact (zip_injective _ D D T T' rfl rfl (hlenT D T hT) (hlenT D T' hT') e).2
    · refine (List.Pairwise.and_mem.1 (nodup_all_diagonals (n + 1) d)).imp ?_
      rintro D D' ⟨hD, hD', hne⟩
      rw [Function.onFun, List.disjoint_left]
      intro H h1 h2
      obtain ⟨T, hT, rfl⟩ := List.mem_map.1 h1
      obtain ⟨T', hT', e⟩ := List.mem_map.1 h2
      have l1 := ((mem_all_diagonals n d hd D).1 hD).1
      have l2 := ((mem_all_diagonals n d hd D').1 hD').1
      exact hne (zip_injective (n + 1) D D' T T' l1 l2 (by rw [hlenT D T hT, l1])
        (by rw [hlenT D' T' hT', l2]) e.symm).1
  · intro H
    rw [List.mem_flatMap]
    constructor
    · rintro ⟨D, hD, hH⟩
      obtain ⟨T, hT, rfl⟩ := List.mem_map.1 hH
      obtain ⟨l1, l2, l3⟩ := (mem_all_diagonals n d hd D).1 hD
      obtain ⟨z1, -, z3⟩ := zip_hermite D T l2 ((mem_all_upper _ _).1 hT)
      rw [l1] at z1 z3
      exact ⟨z1, z3.trans l3⟩
    · rintro ⟨hH, hdet⟩
      obtain ⟨D, T, l1, l2, l3, rfl⟩ := hermite_eq_zip (n + 1) H hH
      obtain ⟨-, -, z3⟩ := zip_hermite D T l2 l3
      rw [l1] at z3
      exact ⟨D, (mem_all_diagonals n d hd D).2 ⟨l1, l2, z3.symm.trans hdet⟩,
        List.mem_map.2 ⟨T, (mem_all_upper _ _).2 l3, rfl⟩⟩

open HermiteCounter_impl

theorem mem_sweep_states (lo hi : Int) (n : Nat) (d : Int) (hd : 1 ≤ d) (c : HermiteCounter)
    (h : c ∈ sweep_states lo hi (n + 1) d) : c.valid = true ∧ c.determinant = d := by
  rw [sweep_states, List.mem_flatMap] at h
  obtain ⟨D, hD, hc⟩ := h
  obtain ⟨T, -, rfl⟩ := List.mem_map.1 hc
  exact ⟨rfl, ((mem_all_diagonals n d hd D).1 hD).2.2⟩

theorem sweep_iterate (lo hi : Int) (n : Nat) (d : Int) (hd : 1 ≤ d) :
    let c0 : HermiteCounter :=
      { m_pos := 0, m_low_det := lo, m_high_det := hi, m_diagonal := d :: List.replicate n 1,
        m_upper_tri := List.replicate (upper_size (n + 1)) 0, m_valid := true }
    (∀ k (hk : k < (sweep_states lo hi (n + 1) d).length),
      HermiteCounter.advance^[k] c0 = (sweep_states lo hi (n + 1) d).get ⟨k, hk⟩) ∧
    ¬ ((HermiteCounter.advance^[(sweep_states lo hi (n + 1) d).length] c0).valid = true ∧
       (HermiteCounter.advance^[(sweep_states lo hi (n + 1) d).length] c0).determinant = d) := by
  intro c0
  have hen := sweep_states_enumerates lo hi n d hd
  refine ⟨hen.iterate HermiteCounter.advance, ?_⟩
  have hN : 0 < (sweep_states lo hi (n + 1) d).length := List.length_pos.2 hen.ne_nil
  have hlast := hen.iterate_last HermiteCounter.advance
  obtain ⟨N, hN'⟩ : ∃ N, (sweep_states lo hi (n + 1) d).length = N + 1 :=
    ⟨(sweep_states lo hi (n + 1) d).length - 1, by omega⟩
  rw [hN'] at hlast ⊢
  rw [Function.iterate_succ_apply']
  simp only [Nat.add_sub_cancel] at hlast
  rw [hlast]
  have hB : ∀ b ∈ upper_bases (List.replicate n 1 ++ [d]), 1 ≤ b := by
    apply upper_bases_pos
    intro x hx
    rcases List.mem_append.1 hx with e | e
    · rw [(List.mem_replicate.1 e).2]
    · rw [List.mem_singleton.1 e]; exact hd
  rw [advance_final _ n d (all_upper_enumerates _ hB).2 rfl rfl]
  simp only []
  split_ifs
  · rintro ⟨-, h2⟩
    simp [HermiteCounter.determinant, HermiteCounter._jump_to_determinant] at h2
  · rintro ⟨h1, -⟩
    simp [HermiteCounter.valid] at h1

/-- C15: in every dimension `n >= 1` and for every determinant `d >= 1`, the sweep of the
counter from the initial state at `d` (the diagonal `(d, 1, ..., 1)`, zero upper triangle,
position 0) stays valid at the determinant `d` for `N` states and then leaves it (the
determinant changes or the counter is not valid); the `N` matrices emitted are distinct and are
exactly the `n x n` Hermite normal forms of determinant `d`.  The initial state is the one the
constructor returns when `d_low = d`. -/
theorem C15_sweep_complete (n d lo hi : Int) (hn : 1 ≤ n) (hd : 1 ≤ d) :
    ∃ (c0 : HermiteCounter) (N : Nat),
      c0 = { m_pos := 0, m_low_det := lo, m_high_det := hi,
             m_diagonal := d :: List.replicate (n.toNat - 1) 1,
             m_upper_tri := List.replicate (upper_size n.toNat) 0, m_valid := true } ∧
      (lo = d → d ≤ hi → HermiteCounter.construct lo hi n = .ok c0) ∧
      (∀ k, k < N → (HermiteCounter.advance^[k] c0).valid = true ∧
        (HermiteCounter.advance^[k] c0).determinant = d) ∧
      ¬ ((HermiteCounter.advance^[N] c0).valid = true ∧
         (HermiteCounter.advance^[N] c0).determinant = d) ∧
      ((List.range N).map fun k => (HermiteCounter.advance^[k] c0).current).Nodup ∧
      ∀ H, H ∈ (List.range N).map (fun k => (HermiteCounter.advance^[k] c0).current) ↔
        IsHermite n.toNat H ∧ (toMatrix n.toNat H).det = d := by
  obtain ⟨m, hm⟩ : ∃ m : Nat, n.toNat = m + 1 := ⟨n.toNat - 1, by omega⟩
  obtain ⟨hit, hend⟩ := sweep_iterate lo hi m d hd
  obtain ⟨hnd, hmem⟩ := sweep_states_current lo hi m d hd
  have hlist : ((List.range (sweep_states lo hi (m + 1) d).length).map fun k =>
      (HermiteCounter.advance^[k]
        { m_pos := 0, m_low_det := lo, m_high_det := hi, m_diagonal := d :: List.replicate m 1,
          m_upper_tri := List.replicate (upper_size (m + 1)) 0, m_valid := true }).current) =
      (sweep_states lo hi (m + 1) d).map HermiteCounter.current := by
    apply List.ext_getElem
    · simp
    · intro k h1 h2
      simp only [List.length_map, List.length_range] at h1
      simp only [List.getElem_map, List.getElem_range]
      rw [hit k h1]
      rfl
  rw [hm, Nat.add_sub_cancel]
  refine ⟨_, (sweep_states lo hi (m + 1) d).length, rfl, ?_, ?_, hend, ?_, ?_⟩
  · intro h1 h2
    subst h1
    rw [construct_ok lo hi n hd h2 hn, hm, Nat.add_sub_cancel]
  · intro k hk
    rw [hit k hk]
    exact mem_sweep_states lo hi m d hd _ (List.get_mem _ _ _)
  · rw [hlist]; exact hnd
  · intro H
    rw [hlist]; exact hmem H

theorem C15_witness :
    ∃ (c0 : HermiteCounter) (N : Nat),
      c0 = { m_pos := 0, m_low_det := 2, m_high_det := 2,
             m_diagonal := 2 :: List.replicate ((3 : Int).toNat - 1) 1,
             m_upper_tri := List.replicate (upper_size (3 : Int).toNat) 0, m_valid := true } ∧
      ((2 : Int) = 2 → (2 : Int) ≤ 2 → HermiteCounter.construct 2 2 3 = .ok c0) ∧
      (∀ k, k < N → (HermiteCounter.advance^[k] c0).valid = true ∧
        (HermiteCounter.advance^[k] c0).determinant = 2) ∧
      ¬ ((HermiteCounter.advance^[N] c0).valid = true ∧
         (HermiteCounter.advance^[N] c0).determinant = 2) ∧
      ((List.range N).map fun k => (HermiteCounter.advance^[k] c0).current).Nodup ∧
      ∀ H, H ∈ (List.range N).map (fun k => (HermiteCounter.advance^[k] c0).current) ↔
        IsHermite (3 : Int).toNat H ∧ (toMatrix (3 : Int).toNat H).det = 2 :=
  C15_sweep_complete 3 2 2 2 (by decide) (by decide)

theorem scale_spec (D v : Int) (hD : 1 ≤ D) : ∀ (fuel : Nat) (m : Int), 1 ≤ m →
    (∀ j, 1 ≤ j → j < m → j ^ 3 * D < v) → v < m + fuel →
    m ≤ enforce_min_volume.scale D v fuel m ∧
    v ≤ enforce_min_volume.scale D v fuel m ^ 3 * D ∧
    ∀ j, 1 ≤ j → j < enforce_min_volume.scale D v fuel m → j ^ 3 * D < v := by
  intro fuel
  induction fuel with
  | zero =>
    intro m hm hmin hf
    simp only [enforce_min_volume.scale]
    refine ⟨le_refl _, ?_, hmin⟩
    have h1 : m ≤ m ^ 3 := by nlinarith [mul_pos (by omega : (0 : Int) < m) (by omega : (0 : Int) < m)]
    have h2 : m ^ 3 ≤ m ^ 3 * D := le_mul_of_one_le_right (by positivity) hD
    simp only [Nat.cast_zero, add_zero] at hf
    omega
  | succ fuel ih =>
    intro m hm hmin hf
    simp only [enforce_min_volume.scale]
    by_cases hc : m * m * m * D < v
    · rw [if_pos hc]
      obtain ⟨s1, s2, s3⟩ := ih (m + 1) (by omega) (by
        intro j hj1 hj2
        rcases eq_or_lt_of_le (show j ≤ m by omega) with e | e
        · rw [e, pow_three, ← mul_assoc]; exact hc
        · exact hmin j hj1 e) (by push_cast at hf ⊢; omega)
      exact ⟨by omega, s2, s3⟩
    · rw [if_neg hc]
      refine ⟨le_refl _, ?_, hmin⟩
      rw [pow_three, ← mul_assoc]
      omega

theorem det_smul_identity (k : Int) : (Matrix3i.smul k Matrix3i.Identity).det = k ^ 3 := by
  simp only [Matrix3i.smul, Matrix3i.Identity, Matrix3i.det]
  ring

/-- C21: for every integer matrix `T` with `det T != 0` and every requested volume `v`,
`enforce_min_volume` with `fix_shape = true` returns `M = k * I` where `k` is the smallest
positive integer with `k^3 * |det T| >= v`; hence `det (T * M) = k^3 * det T` and
`|det (T * M)| >= v`. -/
theorem C21_enforce_min_volume_fix_shape [Inhabited UnitType]
    (hnf : Matrix3i → Matrix3i × Matrix3i) (fuel : Nat) (unit : UnitType)
    (T : Matrix3i) (point_grp : List Matrix3i) (v : Int) (hT : T.det ≠ 0) :
    ∃ k : Int,
      enforce_min_volume hnf fuel unit T point_grp v true =
        some (Matrix3i.smul k Matrix3i.Identity) ∧
      1 ≤ k ∧ v ≤ k ^ 3 * |T.det| ∧ (∀ j : Int, 1 ≤ j → j < k → j ^ 3 * |T.det| < v) ∧
      (T.mul (Matrix3i.smul k Matrix3i.Identity)).det = k ^ 3 * T.det ∧
      v ≤ |(T.mul (Matrix3i.smul k Matrix3i.Identity)).det| := by
  have hD : 1 ≤ |T.det| := Int.one_le_abs hT
  obtain ⟨s1, s2, s3⟩ := scale_spec |T.det| v hD v.toNat 1 (le_refl _)
    (fun j h1 h2 => absurd h2 (by omega)) (by omega)
  refine ⟨enforce_min_volume.scale |T.det| v v.toNat 1, ?_, s1, s2, s3, ?_, ?_⟩
  · simp only [enforce_min_volume, if_true]
  · rw [Matrix3i.det_mul, det_smul_identity, mul_comm]
  · rw [Matrix3i.det_mul, det_smul_identity, abs_mul, mul_comm,
      abs_of_nonneg (by positivity : (0 : Int) ≤ enforce_min_volume.scale |T.det| v v.toNat 1 ^ 3)]
    exact s2

theorem C21_witness :
    Matrix3i.Identity.det ≠ 0 ∧
    enforce_min_volume hermite_normal_form 0 () Matrix3i.Identity cubic_point_group 10 true =
      some (Matrix3i.smul 3 Matrix3i.Identity) ∧
    ∃ k : Int,
      enforce_min_volume hermite_normal_form 0 () Matrix3i.Identity cubic_point_group 10 true =
        some (Matrix3i.smul k Matrix3i.Identity) ∧
      1 ≤ k ∧ 10 ≤ k ^ 3 * |Matrix3i.Identity.det| ∧
      (∀ j : Int, 1 ≤ j → j < k → j ^ 3 * |Matrix3i.Identity.det| < 10) ∧
      (Matrix3i.Identity.mul (Matrix3i.smul k Matrix3i.Identity)).det =
        k ^ 3 * Matrix3i.Identity.det ∧
      10 ≤ |(Matrix3i.Identity.mul (Matrix3i.smul k Matrix3i.Identity)).det| :=
  ⟨by decide, by decide,
    C21_enforce_min_volume_fix_shape hermite_normal_form 0 () Matrix3i.Identity
      cubic_point_group 10 (by decide)⟩

/-- C22: order of the raw walk.  From every well-formed HNF position `(v, M)` one raw step
`_try_increment` arrives at a well-formed HNF position with a strictly larger key
`(v, M00, M11, M01, M02, M12)` in lexicographic order, and that position is the least
well-formed HNF position with a larger key: every well-formed `(w, H)` with a larger key than
`(v, M)` is the successor or has a larger key than the successor.  The volume changes only
from the last matrix of a volume, to the first matrix of the next volume. -/
theorem C22_raw_step_successor (it : SupercellIterator UnitType)
    (hwf : WellFormed it.m_vol it.m_current) :
    WellFormed (_try_increment it).m_vol (_try_increment it).m_current ∧
    StateLt it.m_vol it.m_current (_try_increment it).m_vol (_try_increment it).m_current ∧
    (∀ (w : Int) (H : Matrix3i), WellFormed w H → StateLt it.m_vol it.m_current w H →
      ((_try_increment it).m_vol = w ∧ (_try_increment it).m_current = H) ∨
      StateLt (_try_increment it).m_vol (_try_increment it).m_current w H) ∧
    ((_try_increment it).m_vol ≠ it.m_vol →
      it.m_current = last_hnf it.m_vol ∧ (_try_increment it).m_vol = it.m_vol + 1 ∧
      (_try_increment it).m_current = first_hnf (it.m_vol + 1)) := by
  have hs := try_increment_step it rfl hwf
  have hwf' := hs.wellFormed hwf
  refine ⟨hwf', ?_, ?_, ?_⟩
  · rcases hs.vol_cases with h | ⟨h, -, -⟩
    · exact Or.inr ⟨h.symm, hs.keyLt hwf h⟩
    · exact Or.inl (by omega)
  · intro w H hH hlt
    rcases hlt with hlt | ⟨rfl, hlt⟩
    · rcases hs.vol_cases with h | ⟨h, -, h'⟩
      · exact Or.inr (Or.inl (by omega))
      · rcases eq_or_lt_of_le (show it.m_vol + 1 ≤ w by omega) with e | e
        · rw [h, h']
          subst e
          rcases first_hnf_least hH with hf | hf
          · exact Or.inl ⟨rfl, hf.symm⟩
          · exact Or.inr (Or.inr ⟨rfl, hf⟩)
        · exact Or.inr (Or.inl (by omega))
    · obtain ⟨hv, hk⟩ := hs.least hwf hH hlt
      rcases hk with hk | hk
      · exact Or.inr (Or.inr ⟨hv, hk⟩)
      · exact Or.inl ⟨hv, hk⟩
  · intro hne
    rcases hs.vol_cases with h | ⟨h, h1, h2⟩
    · exact absurd h hne
    · exact ⟨h1, h, h2⟩

theorem C22_witness :
    WellFormed 4 ⟨2, 1, 1, 0, 2, 1, 0, 0, 1⟩ ∧
    (_try_increment (position (trivial_group 5) 4 ⟨2, 1, 1, 0, 2, 1, 0, 0, 1⟩)).m_current =
      ⟨4, 0, 0, 0, 1, 0, 0, 0, 1⟩ ∧
    StateLt 4 ⟨2, 1, 1, 0, 2, 1, 0, 0, 1⟩
      (_try_increment (position (trivial_group 5) 4 ⟨2, 1, 1, 0, 2, 1, 0, 0, 1⟩)).m_vol
      (_try_increment (position (trivial_group 5) 4 ⟨2, 1, 1, 0, 2, 1, 0, 0, 1⟩)).m_current :=
  ⟨by decide, by decide,
    (C22_raw_step_successor (position (trivial_group 5) 4 ⟨2, 1, 1, 0, 2, 1, 0, 0, 1⟩)
      (by decide)).2.1⟩

/-- C23: as the comment in `_is_canonical` states, the current matrix `M` is canonical only if
it is greater than or equal to every image.  `_is_canonical` returns false if and only if for
some point group operation the image `H = hermite_normal_form(op * M).first` is strictly
greater than `M` in the lexicographic order on `(h00, h11, h22, h12, h02, h01)`, and returns
true otherwise, in particular when the point group is empty. -/
theorem C23_is_canonical_greater_image (hnf : Matrix3i → Matrix3i × Matrix3i)
    (it : SupercellIterator UnitType) :
    (_is_canonical hnf it = false ↔
      ∃ op ∈ it.m_enum.point_group,
        it.m_current.a00 < (hnf (op.mul it.m_current)).1.a00 ∨
        (it.m_current.a00 = (hnf (op.mul it.m_current)).1.a00 ∧
        (it.m_current.a11 < (hnf (op.mul it.m_current)).1.a11 ∨
        (it.m_current.a11 = (hnf (op.mul it.m_current)).1.a11 ∧
        (it.m_current.a22 < (hnf (op.mul it.m_current)).1.a22 ∨
        (it.m_current.a22 = (hnf (op.mul it.m_current)).1.a22 ∧
        (it.m_current.a12 < (hnf (op.mul it.m_current)).1.a12 ∨
        (it.m_current.a12 = (hnf (op.mul it.m_current)).1.a12 ∧
        (it.m_current.a02 < (hnf (op.mul it.m_current)).1.a02 ∨
        (it.m_current.a02 = (hnf (op.mul it.m_current)).1.a02 ∧
         it.m_current.a01 < (hnf (op.mul it.m_current)).1.a01)))))))))) ∧
    (_is_canonical hnf it = true ↔
      ∀ op ∈ it.m_enum.point_group, ¬ CanonLt it.m_current (image hnf op it.m_current)) ∧
    (it.m_enum.point_group = [] → _is_canonical hnf it = true) := by
  refine ⟨is_canonical_eq_false_iff hnf it, is_canonical_eq_true_iff hnf it, ?_⟩
  intro h
  rw [is_canonical_eq_true_iff, h]
  intro op hop
  exact absurd hop (List.not_mem_nil op)

theorem C23_witness :
    (cubic_mirror 5).point_group ≠ [] ∧
    _is_canonical hermite_normal_form (position (cubic_mirror 5) 2 (first_hnf 2)) = false ∧
    _is_canonical hermite_normal_form
      (position { cubic_mirror 5 with point_group := [] } 2 (first_hnf 2)) = true :=
  ⟨by decide, by decide,
    (C23_is_canonical_greater_image hermite_normal_form
      (position { cubic_mirror 5 with point_group := [] } 2 (first_hnf 2))).2.2 rfl⟩

/-- C25: termination of the advance.  From a well-formed position `(v, M)`, when every image of
an HNF of determinant `v` and of determinant `v + 1` is again a well-formed HNF of that
determinant, the `do`-`while` loop of `_increment` stops after `k + 1` trips for some `k`: with
any fuel above `k` it returns the first canonical position of the raw walk, a well-formed HNF
position whose volume is `v`, or `v + 1` exactly when `M` is the last matrix
`[[v, v-1, v-1], [0, 1, 0], [0, 0, 1]]` of the volume `v`.  The last matrix of a volume is
always accepted by `_is_canonical`, so the loop never runs past a volume. -/
theorem C25_advance_terminates (hnf : Matrix3i → Matrix3i × Matrix3i)
    (it : SupercellIterator UnitType) (v : Int) (hvol : it.m_vol = v)
    (hwf : WellFormed v it.m_current)
    (hpre : ImagesWellFormed hnf it.m_enum.point_group v)
    (hpre' : ImagesWellFormed hnf it.m_enum.point_group (v + 1)) :
    (∃ k : Nat, ∀ fuel, k + 1 ≤ fuel → ∃ next,
      _increment hnf fuel it = some next ∧
      next = (_try_increment^[k + 1] it).unflag ∧
      (∀ j, 1 ≤ j → j < k + 1 → _is_canonical hnf (_try_increment^[j] it) = false) ∧
      _is_canonical hnf next = true ∧
      WellFormed next.m_vol next.m_current ∧
      (next.m_vol = v ∨ next.m_vol = v + 1) ∧
      (next.m_vol = v + 1 ↔ it.m_current = last_hnf v)) ∧
    (∀ it' : SupercellIterator UnitType, it'.m_enum = it.m_enum →
      it'.m_current = last_hnf v → _is_canonical hnf it' = true) ∧
    (∀ it' : SupercellIterator UnitType, it'.m_enum = it.m_enum →
      it'.m_current = last_hnf (v + 1) → _is_canonical hnf it' = true) := by
  obtain ⟨k, hk, hno, hcan, hwfk, -, hsame, hnext⟩ := advance_spec hnf it hvol hwf hpre hpre'
  refine ⟨⟨k, fun fuel hf => ⟨_, hk fuel hf, rfl, hno, hcan, hwfk, ?_, ?_⟩⟩, ?_, ?_⟩
  · by_cases hl : it.m_current = last_hnf v
    · exact Or.inr (hnext hl)
    · exact Or.inl (hsame hl)
  · constructor
    · intro h
      by_contra hl
      have := hsame hl
      change (_try_increment^[k + 1] it).m_vol = v + 1 at h
      omega
    · exact hnext
  · intro it' he hc
    exact last_hnf_canonical hnf it' hwf.1 (by rw [he]; exact hpre) hc
  · intro it' he hc
    exact last_hnf_canonical hnf it' (by have := hwf.1; omega) (by rw [he]; exact hpre') hc

/-- Witness of C25 for the point group `{identity, mirror_xz}`: from the last matrix of volume 1
the raw walk first lands on `(2, diag(1, 1, 2))`, which `_is_canonical` rejects, so the loop
takes a second trip; from `(2, [[1, 0, 0], [0, 2, 0], [0, 0, 1]])` it lands on the rejected
`[[1, 0, 0], [0, 2, 1], [0, 0, 1]]` and stays in volume 2. -/
theorem C25_witness :
    ((∃ k : Nat, ∀ fuel, k + 1 ≤ fuel → ∃ next,
      _increment hermite_normal_form fuel (position (cubic_mirror 5) 1 (last_hnf 1)) =
        some next ∧
      next = (_try_increment^[k + 1] (position (cubic_mirror 5) 1 (last_hnf 1))).unflag ∧
      (∀ j, 1 ≤ j → j < k + 1 → _is_canonical hermite_normal_form
        (_try_increment^[j] (position (cubic_mirror 5) 1 (last_hnf 1))) = false) ∧
      _is_canonical hermite_normal_form next = true ∧
      WellFormed next.m_vol next.m_current ∧
      (next.m_vol = 1 ∨ next.m_vol = 1 + 1) ∧
      (next.m_vol = 1 + 1 ↔
        (position (cubic_mirror 5) 1 (last_hnf 1)).m_current = last_hnf 1)) ∧
    (∀ it' : SupercellIterator Unit,
      it'.m_enum = (position (cubic_mirror 5) 1 (last_hnf 1)).m_enum →
      it'.m_current = last_hnf 1 → _is_canonical hermite_normal_form it' = true) ∧
    (∀ it' : SupercellIterator Unit,
      it'.m_enum = (position (cubic_mirror 5) 1 (last_hnf 1)).m_enum →
      it'.m_current = last_hnf (1 + 1) → _is_canonical hermite_normal_form it' = true)) ∧
    (_try_increment (position (cubic_mirror 5) 1 (last_hnf 1)) =
        position (cubic_mirror 5) 2 ⟨1, 0, 0, 0, 1, 0, 0, 0, 2⟩ ∧
      _is_canonical hermite_normal_form
        (_try_increment (position (cubic_mirror 5) 1 (last_hnf 1))) = false ∧
      _increment hermite_normal_form 2 (position (cubic_mirror 5) 1 (last_hnf 1)) =
        some (position (cubic_mirror 5) 2 ⟨1, 0, 0, 0, 2, 0, 0, 0, 1⟩) ∧
      _increment hermite_normal_form 1 (position (cubic_mirror 5) 1 (last_hnf 1)) = none) ∧
    (_is_canonical hermite_normal_form
        (_try_increment (position (cubic_mirror 5) 2 ⟨1, 0, 0, 0, 2, 0, 0, 0, 1⟩)) = false ∧
      _increment hermite_normal_form 2 (position (cubic_mirror 5) 2 ⟨1, 0, 0, 0, 2, 0, 0, 0, 1⟩) =
        some (position (cubic_mirror 5) 2 ⟨2, 0, 0, 0, 1, 0, 0, 0, 1⟩)) :=
  ⟨C25_advance_terminates hermite_normal_form (position (cubic_mirror 5) 1 (last_hnf 1)) 1 rfl
    (by decide)
    (imagesWellFormed_of_correct _ _ unimodular_cubic_mirror
      (hnfCorrectOn_hermite_normal_form _ unimodular_cubic_mirror) 1)
    (imagesWellFormed_of_correct _ _ unimodular_cubic_mirror
      (hnfCorrectOn_hermite_normal_form _ unimodular_cubic_mirror) (1 + 1)),
    ⟨rfl, by decide, rfl, rfl⟩, ⟨by decide, rfl⟩⟩

theorem SamePosition.symm {A B : SupercellIterator UnitType} (h : SamePosition A B) :
    SamePosition B A := ⟨h.1.symm, h.2.1.symm, h.2.2.symm⟩

theorem SamePosition.trans {A B C : SupercellIterator UnitType} (h : SamePosition A B)
    (h' : SamePosition B C) : SamePosition A C :=
  ⟨h.1.trans h'.1, h.2.1.trans h'.2.1, h.2.2.trans h'.2.2⟩

theorem construct_vol_le [Inhabited UnitType] (hnf : Matrix3i → Matrix3i × Matrix3i)
    (fuel : Nat) (e : SupercellEnumerator UnitType) (volume : Int)
    (it : SupercellIterator UnitType)
    (h : SupercellIterator.construct hnf fuel e volume = .ok (some it)) :
    max 1 volume ≤ it.m_vol := by
  have hv : (if volume < 1 then 1 else if volume < 1 then 1 else volume) = max 1 volume := by
    split_ifs with h
    · exact (max_eq_left (by omega)).symm
    · exact (max_eq_right (by omega)).symm
  by_cases hbe : e.begin_volume > e.end_volume
  · simp only [SupercellIterator.construct, if_pos hbe] at h
    cases h
  · simp only [SupercellIterator.construct, if_neg hbe, hv] at h
    generalize max 1 volume = w at h
    by_cases hc : _is_canonical hnf (⟨false, e, w, { Matrix3i.Identity with a22 := w }, default⟩ :
        SupercellIterator UnitType) = true
    · simp only [hc, Bool.not_true, Bool.false_eq_true, if_false, Except.ok.injEq,
        Option.some.injEq] at h
      rw [← h]
    · simp only [Bool.not_eq_true] at hc
      simp only [hc, Bool.not_false, if_true, Except.ok.injEq] at h
      exact (increment_result hnf fuel _ it h).2.2.1

end

end CASM
